import Mathlib

/-!
# jitcalc: a shallow embedding of `main.c`

The development follows the source file top to bottom: tokens and expression
trees, the lexer `lex`, the recursive-descent parser `parse_intlit` / `parse`,
the tree-walking interpreter `normal_eval`, the byte emitter `jit_write`,
`write_lendian`, `fixup_lendian`, the code generator `jit_codegen`, the
trampoline `jit_call` (with the x86-64 meaning of the emitted instructions)
and the top-level JIT evaluator `jit_eval`.

Conventions.
* `int64_t` values are integers; arithmetic wraps with `wrap64`.
* Standard input is the list of characters not yet read, one element per
  `getc`: a byte `b` is the character with code `b`, so the byte 0xFF is
  `'\xff'`. `char` is signed, as on x86-64.
* The operands of `+`, `-` and `<` are evaluated left to right.
* `assert(false)` aborts the program.
* Recursion that the C code performs on its call stack is bounded by a fuel
  argument; the outcome `Err.fuel` means that the bound was too small.
* A fatal exit (`error(...)`, `assert(false)`) is an `Except.error` carrying the
  program state at the moment of the exit.
* The arena and the function table are not bounded in the state, and the C
  program checks neither bound. A store past the end of `funcs` or of the
  arena is outside what the source defines; where a statement depends on it,
  it carries the condition that the final table has at most `FUNCS_SIZE`
  entries and the final cursor is at most `ARENA_SIZE`.
* The abstract operand stack (`effect`, `stack_depth`) decodes instructions as
  `step` does and keeps only the depth of the stack.
-/

namespace JitCalc

/-! ## Tokens and expression trees -/

/-- The tagged union `Token` (`TokenKind` together with its payload). -/
inductive Token where
  | TOKEN_PLUS
  | TOKEN_MINUS
  | TOKEN_LESSER
  | TOKEN_EQ
  | TOKEN_DOT
  | TOKEN_INTLIT (intval : Int)
  | TOKEN_LPAREN
  | TOKEN_RPAREN
  | TOKEN_IDENT (ident : String)
  | TOKEN_NOTHING
  deriving DecidableEq

/-- The tagged union `Expr` (`ExprKind` together with its payload). -/
inductive Expr where
  | EXPR_ADD (l r : Expr)
  | EXPR_SUB (l r : Expr)
  | EXPR_LESSER (l r : Expr)
  | EXPR_INT (intval : Int)
  | EXPR_ARG
  | EXPR_FUNCDEF (fnname : String) (fnbody : Expr)
  | EXPR_FUNCCALL (fnname : String) (callarg : Expr)
  | EXPR_IF (cond tbranch fbranch : Expr)
  | EXPR_NOTHING
  deriving DecidableEq

open Token Expr

/-- The ways in which a run ends without a value. `undeclared` is
`error("undeclared %s function.")`, `assertion` is `assert(false)`; `fuel` and
`fault` belong to the model: the recursion bound was reached, resp. the
processor left the instructions that `jit_codegen` emits. -/
inductive Err where
  | undeclared (fnname : String)
  | assertion
  | fuel
  | fault
  deriving DecidableEq

/-! ## Lexer -/

/-- `LLONG_MAX`, the value at which `strtoll` saturates. -/
def LLONG_MAX : Nat := 9223372036854775807

/-- Value of a digit character. -/
def digitVal (c : Char) : Nat := c.toNat - 48

/-- The conversion loop of `strtoll`: accumulate digits below `base`, stop at
the first character that is not such a digit. -/
def strtoll_acc (base : Nat) : Nat → List Char → Nat
  | acc, [] => acc
  | acc, c :: cs =>
    if digitVal c < base then strtoll_acc base (acc * base + digitVal c) cs else acc

/-- The C library call `strtoll(buf, NULL, 0)` on a buffer of decimal digits:
base 0 selects octal when the buffer starts with `0` and decimal otherwise, and
the result saturates at `LLONG_MAX`. -/
def strtoll (buf : List Char) : Int :=
  let v := match buf with
    | '0' :: cs => strtoll_acc 8 0 cs
    | cs => strtoll_acc 10 0 cs
  if LLONG_MAX < v then (LLONG_MAX : Int) else (v : Int)

/-- The loop `for (i = 1; i < sizeof(buf) - 1; ++i)` of `lex`: read further
characters satisfying `p` (at most `n` of them); a character that fails `p`
ends the run and is pushed back with `ungetc`. The result of `getc` is kept in
a `char nc`, so the byte 0xFF is the value -1, which is `EOF`: it fails `p`, and
`ungetc(EOF, stdin)` pushes nothing back, so that byte is dropped. -/
def lex_run (p : Char → Bool) : Nat → List Char → List Char × List Char
  | 0, inp => ([], inp)
  | _ + 1, [] => ([], [])
  | n + 1, c :: cs =>
    if p c then ((c :: (lex_run p n cs).1), (lex_run p n cs).2)
    else if c = '\xff' then ([], cs)
    else ([], c :: cs)

/-- The function `lex`: returns the next token and the unread input. The first
character is kept in a `char c` as well: at the end of input and at the byte
0xFF it is -1, which is none of the characters tested, and the token is
`TOKEN_NOTHING`. -/
def lex : List Char → Token × List Char
  | [] => (TOKEN_NOTHING, [])
  | c :: cs =>
    if c = ' ' then lex cs
    else if c = ';' then (TOKEN_NOTHING, cs)
    else if c = '\n' then (TOKEN_NOTHING, cs)
    else if c = '+' then (TOKEN_PLUS, cs)
    else if c = '-' then (TOKEN_MINUS, cs)
    else if c = '<' then (TOKEN_LESSER, cs)
    else if c = '=' then (TOKEN_EQ, cs)
    else if c = '.' then (TOKEN_DOT, cs)
    else if c = '(' then (TOKEN_LPAREN, cs)
    else if c = ')' then (TOKEN_NOTHING, cs)
    else if c.isDigit then
      (TOKEN_INTLIT (strtoll (c :: (lex_run Char.isDigit 254 cs).1)),
        (lex_run Char.isDigit 254 cs).2)
    else if c.isAlpha then
      (TOKEN_IDENT (String.mk (c :: (lex_run Char.isAlpha 254 cs).1)),
        (lex_run Char.isAlpha 254 cs).2)
    else (TOKEN_NOTHING, cs)

/-! ## Parser -/

/-- Outcome of a parsing function: the tree and the unread input, or a fatal exit. -/
abbrev PResult := Except Err (Expr × List Char)

mutual
/-- The function `parse_intlit` (the primary-expression parser). -/
def parse_intlit : Nat → List Char → PResult
  | 0, _ => .error Err.fuel
  | n + 1, inp =>
    match lex inp with
    | (TOKEN_INTLIT v, r) => .ok (EXPR_INT v, r)
    | (TOKEN_LPAREN, r) => parse n r
    | (TOKEN_DOT, r) => .ok (EXPR_ARG, r)
    | (TOKEN_IDENT t, r) =>
      if t = "if" then
        match parse n r with
        | .error e => .error e
        | .ok (c, r1) =>
          match parse n r1 with
          | .error e => .error e
          | .ok (tb, r2) =>
            match parse n r2 with
            | .error e => .error e
            | .ok (fb, r3) => .ok (EXPR_IF c tb fb, r3)
      else
        match lex r with
        | (TOKEN_EQ, r1) =>
          match parse n r1 with
          | .error e => .error e
          | .ok (b, r2) => .ok (EXPR_FUNCDEF t b, r2)
        | (TOKEN_DOT, r1) =>
          match parse n r1 with
          | .error e => .error e
          | .ok (a, r2) => .ok (EXPR_FUNCCALL t a, r2)
        | _ => .error Err.assertion
    | (_, r) => .ok (EXPR_NOTHING, r)
/-- The function `parse`, up to the entry of its `for (;;)` loop. -/
def parse : Nat → List Char → PResult
  | 0, _ => .error Err.fuel
  | n + 1, inp =>
    match parse_intlit n inp with
    | .error e => .error e
    | .ok (EXPR_FUNCDEF t b, r) => .ok (EXPR_FUNCDEF t b, r)
    | .ok (EXPR_IF c tb fb, r) => .ok (EXPR_IF c tb fb, r)
    | .ok (l, r) => parse_loop n l r
/-- The `for (;;)` loop of `parse`, with the current left operand `l`. -/
def parse_loop : Nat → Expr → List Char → PResult
  | 0, _, _ => .error Err.fuel
  | n + 1, l, inp =>
    match lex inp with
    | (TOKEN_NOTHING, r) => .ok (l, r)
    | (TOKEN_PLUS, r) =>
      match parse_intlit n r with
      | .error e => .error e
      | .ok (rhs, r1) => parse_loop n (EXPR_ADD l rhs) r1
    | (TOKEN_MINUS, r) =>
      match parse_intlit n r with
      | .error e => .error e
      | .ok (rhs, r1) => parse_loop n (EXPR_SUB l rhs) r1
    | (TOKEN_LESSER, r) =>
      match parse_intlit n r with
      | .error e => .error e
      | .ok (rhs, r1) => parse_loop n (EXPR_LESSER l rhs) r1
    | _ => .error Err.assertion
end

/-! ## Program state -/

/-- The struct `Function`: one entry of the function table. -/
structure Function where
  name : String
  fnexpr : Expr
  jitidx : Nat

/-- Size in bytes of the executable arena allocated by `main`. -/
def ARENA_SIZE : Nat := 1024 * 1024

/-- Number of entries of the array `funcs` (`Function funcs[1000]`). -/
def FUNCS_SIZE : Nat := 1000

/-- The global variables: `funcs[0 .. funcnum)` (so `funcnum` is the length of
`funcs`), `funcarg`, the bytes of the arena `jit_mem` by offset, and the write
cursor `jit_pos`. The C program checks neither index: a definition at
`funcnum = 1000` stores past the end of `funcs`, and `jit_write` at
`jit_pos ≥ ARENA_SIZE` stores past the end of the arena; what the program does
after such a store is not defined by its source. The state here describes the
program up to the first such store: where a statement depends on it, it carries
the conditions `funcs.length ≤ FUNCS_SIZE` and `jit_pos ≤ ARENA_SIZE` on the
state at the end of the run, which say that every store of the run was inside
the two arrays (the table only grows and the cursor only advances). -/
structure State where
  funcs : List Function
  funcarg : Int
  jit_mem : Nat → Nat
  jit_pos : Nat

/-- The state at program start: empty table, `funcarg = 0`, a zero-filled arena
and `jit_pos = 0`. -/
def State.init : State := ⟨[], 0, fun _ => 0, 0⟩

/-- Two's-complement wrap-around to the range of `int64_t`. -/
def wrap64 (x : Int) : Int := (x + 2 ^ 63) % 2 ^ 64 - 2 ^ 63

/-- Two's-complement wrap-around to the range of `int` (32 bits): the
conversion of an `int64_t` or `size_t` value to `int`. -/
def wrap32 (x : Int) : Int := (x + 2 ^ 31) % 2 ^ 32 - 2 ^ 31

/-- The lookup loop `for (int i=0; i<funcnum; i++) if (strcmp(f.name, fnname) == 0)`
shared by `normal_eval`, `jit_codegen` and `jit_eval`: the first entry whose
name matches. -/
def find_func : List Function → String → Option Function
  | [], _ => none
  | f :: fs, fnname => if f.name = fnname then some f else find_func fs fnname

/-! ## Tree-walking interpreter -/

/-- Outcome of an evaluator: value and state after, or the fatal exit together
with the state at the exit. -/
abbrev Result := Except (Err × State) (Int × State)

/-- The body of `normal_eval`, with the function that the macro `eval` names
as a parameter. Operands are evaluated left to right. -/
def normal_eval_with (eval : State → Expr → Result) (st : State) : Expr → Result
  | EXPR_ADD l r =>
    match eval st l with
    | .error x => .error x
    | .ok (a, s1) =>
      match eval s1 r with
      | .error x => .error x
      | .ok (b, s2) => .ok (wrap64 (a + b), s2)
  | EXPR_SUB l r =>
    match eval st l with
    | .error x => .error x
    | .ok (a, s1) =>
      match eval s1 r with
      | .error x => .error x
      | .ok (b, s2) => .ok (wrap64 (a - b), s2)
  | EXPR_LESSER l r =>
    match eval st l with
    | .error x => .error x
    | .ok (a, s1) =>
      match eval s1 r with
      | .error x => .error x
      | .ok (b, s2) => .ok (if a < b then 1 else 0, s2)
  | EXPR_INT v => .ok (v, st)
  | EXPR_ARG => .ok (st.funcarg, st)
  | EXPR_FUNCDEF fnname fnbody =>
    .ok (0, { st with funcs := st.funcs ++ [⟨fnname, fnbody, 0⟩] })
  | EXPR_FUNCCALL fnname callarg =>
    match find_func st.funcs fnname with
    | some f =>
      match eval st callarg with
      | .error x => .error x
      | .ok (v, s1) =>
        match eval { s1 with funcarg := v } f.fnexpr with
        | .error x => .error x
        | .ok (result, s2) => .ok (result, { s2 with funcarg := st.funcarg })
    | none => .error (Err.undeclared fnname, st)
  | EXPR_IF cond tbranch fbranch =>
    match eval st cond with
    | .error x => .error x
    | .ok (c, s1) => if c ≠ 0 then eval s1 tbranch else eval s1 fbranch
  | EXPR_NOTHING => .error (Err.assertion, st)

/-- The function `normal_eval` of the interpreter build (`eval` is `normal_eval`);
the fuel bounds the depth of the recursion. -/
def normal_eval : Nat → State → Expr → Result
  | 0, st, _ => .error (Err.fuel, st)
  | n + 1, st, e => normal_eval_with (normal_eval n) st e

/-! ## Byte emitter and code generator -/

/-- The function `jit_write`: store the bytes at `jit_pos`, advancing it. There
is no bound check in the source; the stores are inside the arena exactly when
the cursor afterwards is at most `ARENA_SIZE`. -/
def jit_write (st : State) : List Nat → State
  | [] => st
  | b :: bs =>
    jit_write { st with jit_mem := fun i => if i = st.jit_pos then b else st.jit_mem i,
                        jit_pos := st.jit_pos + 1 } bs

/-- The four bytes `x & 0xFF`, `(x >> 8) & 0xFF`, `(x >> 16) & 0xFF`,
`(x >> 24) & 0xFF` of an `int`. -/
def lendian_bytes (x : Int) : List Nat :=
  [(x % 256).toNat, (x / 256 % 256).toNat, (x / 65536 % 256).toNat, (x / 16777216 % 256).toNat]

/-- The function `write_lendian`. -/
def write_lendian (st : State) (x : Int) : State := jit_write st (lendian_bytes x)

/-- The function `fixup_lendian`: overwrite the four bytes at `fixupidx`. -/
def fixup_lendian (st : State) (fixupidx : Nat) (x : Int) : State :=
  { st with jit_mem := fun i =>
      if i = fixupidx + 3 then (x / 16777216 % 256).toNat
      else if i = fixupidx + 2 then (x / 65536 % 256).toNat
      else if i = fixupidx + 1 then (x / 256 % 256).toNat
      else if i = fixupidx then (x % 256).toNat
      else st.jit_mem i }

/-- The function `jit_codegen`. The arguments of `write_lendian` and
`fixup_lendian` are converted to `int` by `wrap32`. -/
def jit_codegen (st : State) : Expr → Except (Err × State) State
  | EXPR_ADD l r =>
    match jit_codegen st l with
    | .error x => .error x
    | .ok s1 =>
      match jit_codegen s1 r with
      | .error x => .error x
      | .ok s2 => .ok (jit_write s2 [0x59, 0x58, 0x48, 0x01, 0xc8, 0x50])
  | EXPR_SUB l r =>
    match jit_codegen st l with
    | .error x => .error x
    | .ok s1 =>
      match jit_codegen s1 r with
      | .error x => .error x
      | .ok s2 => .ok (jit_write s2 [0x59, 0x58, 0x48, 0x29, 0xc8, 0x50])
  | EXPR_LESSER l r =>
    match jit_codegen st l with
    | .error x => .error x
    | .ok s1 =>
      match jit_codegen s1 r with
      | .error x => .error x
      | .ok s2 =>
        .ok (jit_write s2
          [0x59, 0x58, 0x48, 0x39, 0xc8, 0x0f, 0x9c, 0xc0, 0x48, 0x0f, 0xb6, 0xc0, 0x50])
  | EXPR_INT v => .ok (write_lendian (jit_write st [0x68]) (wrap32 v))
  | EXPR_ARG => .ok (jit_write st [0x41, 0x50])
  | EXPR_FUNCDEF fnname fnbody =>
    match jit_codegen { st with funcs := st.funcs ++ [⟨fnname, fnbody, st.jit_pos⟩] } fnbody with
    | .error x => .error x
    | .ok s1 => .ok (jit_write (jit_write s1 [0x58]) [0xc3])
  | EXPR_FUNCCALL fnname callarg =>
    match find_func st.funcs fnname with
    | some f =>
      match jit_codegen (jit_write st [0x41, 0x50]) callarg with
      | .error x => .error x
      | .ok s1 =>
        let s2 := jit_write (jit_write s1 [0x41, 0x58]) [0xe8]
        let s3 := write_lendian s2 (wrap32 ((f.jitidx : Int) - (s2.jit_pos : Int) - 4))
        .ok (jit_write s3 [0x41, 0x58, 0x50])
    | none => .error (Err.undeclared fnname, st)
  | EXPR_IF cond tbranch fbranch =>
    match jit_codegen st cond with
    | .error x => .error x
    | .ok s1 =>
      let s2 := write_lendian
        (jit_write (jit_write (jit_write s1 [0x58]) [0x48, 0x83, 0xf8, 0x00]) [0x0f, 0x84]) 0
      let fixupF := s2.jit_pos
      match jit_codegen s2 tbranch with
      | .error x => .error x
      | .ok s3 =>
        let s4 := write_lendian (jit_write s3 [0xe9]) 0
        let fixupE := s4.jit_pos
        let faddr := s4.jit_pos
        match jit_codegen s4 fbranch with
        | .error x => .error x
        | .ok s5 =>
          let eaddr := s5.jit_pos
          let s6 := fixup_lendian s5 (fixupF - 4) (wrap32 ((faddr : Int) - (fixupF : Int)))
          .ok (fixup_lendian s6 (fixupE - 4) (wrap32 ((eaddr : Int) - (fixupE : Int))))
  | EXPR_NOTHING => .error (Err.assertion, st)

/-! ## The processor on emitted code -/

/-- The part of the x86-64 state that emitted code touches. `pc` is the
instruction pointer as an offset from `jit_mem`; `stack` is the machine stack,
top first, one 64-bit word per element. -/
structure Machine where
  pc : Int
  rax : Int
  rcx : Int
  r8 : Int
  zf : Bool
  sf : Bool
  ovf : Bool
  stack : List Int

/-- Byte `i` of the instruction at `pc`. -/
def fetch (mem : Nat → Nat) (pc : Int) (i : Nat) : Nat := mem (pc.toNat + i)

/-- The little-endian 32-bit immediate at bytes `i .. i+3` of the instruction,
sign-extended. -/
def imm32 (mem : Nat → Nat) (pc : Int) (i : Nat) : Int :=
  wrap32 ((fetch mem pc i : Int) + 256 * fetch mem pc (i + 1) + 65536 * fetch mem pc (i + 2)
    + 16777216 * fetch mem pc (i + 3))

/-- An 8-bit immediate, sign-extended. -/
def imm8 (b : Nat) : Int := if b < 128 then (b : Int) else (b : Int) - 256

/-- Result and flags of `add`: the 64-bit sum with ZF, SF and OF. -/
def alu_add (m : Machine) (a b : Int) : Machine :=
  { m with rax := wrap64 (a + b), zf := decide (wrap64 (a + b) = 0),
           sf := decide (wrap64 (a + b) < 0), ovf := decide (wrap64 (a + b) ≠ a + b) }

/-- Flags of `sub` and `cmp`: ZF, SF and OF of the 64-bit difference. -/
def alu_cmp (m : Machine) (a b : Int) : Machine :=
  { m with zf := decide (wrap64 (a - b) = 0), sf := decide (wrap64 (a - b) < 0),
           ovf := decide (wrap64 (a - b) ≠ a - b) }

/-- One instruction, decoded from the arena at `pc`. Only the encodings that
`jit_codegen` emits have a meaning here; anything else, an instruction pointer
outside the arena, or a pop from the empty stack, gives `none`. -/
def step (mem : Nat → Nat) (m : Machine) : Option Machine :=
  if m.pc < 0 ∨ (ARENA_SIZE : Int) ≤ m.pc then none
  else
    let b0 := fetch mem m.pc 0
    let b1 := fetch mem m.pc 1
    let b2 := fetch mem m.pc 2
    let b3 := fetch mem m.pc 3
    if b0 = 0x50 then some { m with pc := m.pc + 1, stack := m.rax :: m.stack }
    else if b0 = 0x58 then
      match m.stack with
      | v :: s => some { m with pc := m.pc + 1, rax := v, stack := s }
      | [] => none
    else if b0 = 0x59 then
      match m.stack with
      | v :: s => some { m with pc := m.pc + 1, rcx := v, stack := s }
      | [] => none
    else if b0 = 0x68 then
      some { m with pc := m.pc + 5, stack := imm32 mem m.pc 1 :: m.stack }
    else if b0 = 0xc3 then
      match m.stack with
      | v :: s => some { m with pc := v, stack := s }
      | [] => none
    else if b0 = 0xe8 then
      some { m with pc := m.pc + 5 + imm32 mem m.pc 1, stack := (m.pc + 5) :: m.stack }
    else if b0 = 0xe9 then some { m with pc := m.pc + 5 + imm32 mem m.pc 1 }
    else if b0 = 0x41 ∧ b1 = 0x50 then
      some { m with pc := m.pc + 2, stack := m.r8 :: m.stack }
    else if b0 = 0x41 ∧ b1 = 0x58 then
      match m.stack with
      | v :: s => some { m with pc := m.pc + 2, r8 := v, stack := s }
      | [] => none
    else if b0 = 0x48 ∧ b1 = 0x01 ∧ b2 = 0xc8 then
      some { alu_add m m.rax m.rcx with pc := m.pc + 3 }
    else if b0 = 0x48 ∧ b1 = 0x29 ∧ b2 = 0xc8 then
      some { alu_cmp m m.rax m.rcx with pc := m.pc + 3, rax := wrap64 (m.rax - m.rcx) }
    else if b0 = 0x48 ∧ b1 = 0x39 ∧ b2 = 0xc8 then
      some { alu_cmp m m.rax m.rcx with pc := m.pc + 3 }
    else if b0 = 0x48 ∧ b1 = 0x83 ∧ b2 = 0xf8 then
      some { alu_cmp m m.rax (imm8 b3) with pc := m.pc + 4 }
    else if b0 = 0x48 ∧ b1 = 0x0f ∧ b2 = 0xb6 ∧ b3 = 0xc0 then
      some { m with pc := m.pc + 4, rax := m.rax % 256 }
    else if b0 = 0x0f ∧ b1 = 0x9c ∧ b2 = 0xc0 then
      some { m with pc := m.pc + 3,
                    rax := m.rax - m.rax % 256 + (if m.sf ≠ m.ovf then 1 else 0) }
    else if b0 = 0x0f ∧ b1 = 0x84 then
      some { m with pc := if m.zf then m.pc + 6 + imm32 mem m.pc 2 else m.pc + 6 }
    else none

/-- The return address that `call %1` in `jit_call` pushes: an address in the
host program, outside the arena. -/
def HOST_RET : Int := -1

/-- Run emitted code until control returns to the host. -/
def run (mem : Nat → Nat) : Nat → Machine → Except Err Machine
  | 0, _ => .error Err.fuel
  | n + 1, m =>
    if m.pc = HOST_RET then .ok m
    else
      match step mem m with
      | none => .error Err.fault
      | some m1 => run mem n m1

/-- The function `jit_call`: `mov r8, arg; call funcp; mov result, rax`. The
registers that the host leaves undefined start at 0. -/
def jit_call (fuel : Nat) (mem : Nat → Nat) (funcp : Nat) (arg : Int) : Except Err Int :=
  match run mem fuel ⟨funcp, 0, 0, arg, false, false, false, [HOST_RET]⟩ with
  | .error x => .error x
  | .ok m => .ok m.rax

/-! ## Top-level JIT evaluator -/

/-- The function `jit_eval`; in the JIT build the macro `eval` is `jit_eval`,
so the recursive calls of `normal_eval` come back here. -/
def jit_eval : Nat → State → Expr → Result
  | 0, st, _ => .error (Err.fuel, st)
  | _ + 1, st, EXPR_FUNCDEF fnname fnbody =>
    match jit_codegen st (EXPR_FUNCDEF fnname fnbody) with
    | .error x => .error x
    | .ok s1 => .ok (0, s1)
  | n + 1, st, EXPR_FUNCCALL fnname callarg =>
    match find_func st.funcs fnname with
    | some f =>
      match jit_eval n st callarg with
      | .error x => .error x
      | .ok (a, s1) =>
        match jit_call n s1.jit_mem f.jitidx a with
        | .error x => .error (x, s1)
        | .ok result => .ok (result, s1)
    | none => .error (Err.undeclared fnname, st)
  | n + 1, st, e => normal_eval_with (jit_eval n) st e

/-! ## States used in examples -/

/-- The table after `sq = . + .` in the interpreter. -/
def sq_state : State := ⟨[⟨"sq", EXPR_ADD EXPR_ARG EXPR_ARG, 0⟩], 0, fun _ => 0, 0⟩

/-- The table after `f = . + 1` and `g = f.(f.(.))` in the interpreter. -/
def fg_state : State :=
  ⟨[⟨"f", EXPR_ADD EXPR_ARG (EXPR_INT 1), 0⟩,
    ⟨"g", EXPR_FUNCCALL "f" (EXPR_FUNCCALL "f" EXPR_ARG), 0⟩], 0, fun _ => 0, 0⟩

/-! ## Programs as lists of trees -/

/-- The tree contains no `EXPR_FUNCDEF` node. -/
def no_funcdef : Expr → Bool
  | EXPR_ADD l r => no_funcdef l && no_funcdef r
  | EXPR_SUB l r => no_funcdef l && no_funcdef r
  | EXPR_LESSER l r => no_funcdef l && no_funcdef r
  | EXPR_INT _ => true
  | EXPR_ARG => true
  | EXPR_FUNCDEF _ _ => false
  | EXPR_FUNCCALL _ a => no_funcdef a
  | EXPR_IF c t f => no_funcdef c && no_funcdef t && no_funcdef f
  | EXPR_NOTHING => true

/-- Height of a tree (leaves have height 0). -/
def Expr.height : Expr → Nat
  | EXPR_ADD l r => max l.height r.height + 1
  | EXPR_SUB l r => max l.height r.height + 1
  | EXPR_LESSER l r => max l.height r.height + 1
  | EXPR_INT _ => 0
  | EXPR_ARG => 0
  | EXPR_FUNCDEF _ b => b.height + 1
  | EXPR_FUNCCALL _ a => a.height + 1
  | EXPR_IF c t f => max c.height (max t.height f.height) + 1
  | EXPR_NOTHING => 0

/-- The loop of `main` on the trees that `parse` would return one after the
other: stop at `EXPR_NOTHING`, otherwise evaluate with `eval` and print the
value. The result is the list of printed values and the fatal exit, if any. -/
def run_exprs (eval : State → Expr → Result) : State → List Expr → List Int × Option Err
  | _, [] => ([], none)
  | st, e :: es =>
    if e = EXPR_NOTHING then ([], none)
    else
      match eval st e with
      | .ok (v, s1) => (v :: (run_exprs eval s1 es).1, (run_exprs eval s1 es).2)
      | .error (x, _) => ([], some x)

/-- The table after `f = 1` and `f = 2` in the interpreter. -/
def ff_state : State := ⟨[⟨"f", EXPR_INT 1, 0⟩, ⟨"f", EXPR_INT 2, 0⟩], 0, fun _ => 0, 0⟩

/-! ## Operator chains, for statements about the parser -/

/-- The three infix operators. -/
inductive BinOp where
  | plus
  | minus
  | lesser
  deriving DecidableEq

/-- The character of an operator. -/
def BinOp.char : BinOp → Char
  | .plus => '+'
  | .minus => '-'
  | .lesser => '<'

/-- The tree node of an operator. -/
def BinOp.node : BinOp → Expr → Expr → Expr
  | .plus => EXPR_ADD
  | .minus => EXPR_SUB
  | .lesser => EXPR_LESSER

/-- A run of `n` spaces. -/
def spaces (n : Nat) : List Char := List.replicate n ' '

/-- One step `op p` of an operator chain: the operator, the digits of the
literal, and the number of spaces written before each of the two. -/
structure ChainItem where
  sp_op : Nat
  op : BinOp
  sp_lit : Nat
  digits : List Char

/-- The text `op_1 p_1 ... op_k p_k` followed by `tail`. -/
def chain_text : List ChainItem → List Char → List Char
  | [], tail => tail
  | it :: more, tail =>
    spaces it.sp_op ++ (it.op.char :: (spaces it.sp_lit ++ (it.digits ++ chain_text more tail)))

/-- The left-nested tree `((l op_1 p_1) op_2 p_2) ... op_k p_k`, each literal
with the value that `lex` gives it. -/
def chain_tree : Expr → List ChainItem → Expr
  | l, [] => l
  | l, it :: more => chain_tree (it.op.node l (EXPR_INT (strtoll it.digits))) more

/-- A literal that fits the token buffer of `lex`: a non-empty run of at most
255 decimal digits. -/
def is_literal (ds : List Char) : Prop :=
  ds ≠ [] ∧ ds.length ≤ 255 ∧ ∀ c ∈ ds, c.isDigit = true

instance (ds : List Char) : Decidable (is_literal ds) := by
  unfold is_literal; infer_instance

/-! ## Vocabulary for the correctness of compiled functions -/

/-- The range of `int64_t`. -/
def in_range64 (v : Int) : Prop := -(2 : Int) ^ 63 ≤ v ∧ v < (2 : Int) ^ 63

instance (v : Int) : Decidable (in_range64 v) := by
  unfold in_range64; infer_instance

/-- The function bodies of C1: literals `0 ≤ n < 2^31`, `Arg`, `Add`, `Sub`,
`Lesser`, `If`, and calls to functions whose name is in `names`. -/
def in_fragment (names : List String) : Expr → Bool
  | EXPR_ADD l r => in_fragment names l && in_fragment names r
  | EXPR_SUB l r => in_fragment names l && in_fragment names r
  | EXPR_LESSER l r => in_fragment names l && in_fragment names r
  | EXPR_INT v => decide (0 ≤ v) && decide (v < 2 ^ 31)
  | EXPR_ARG => true
  | EXPR_FUNCDEF _ _ => false
  | EXPR_FUNCCALL fnname a => decide (fnname ∈ names) && in_fragment names a
  | EXPR_IF c t f => in_fragment names c && in_fragment names t && in_fragment names f
  | EXPR_NOTHING => false

/-- A list of top-level definitions `name = body` in which every body is in
the fragment and calls only functions defined before it or itself; `names` are
the functions defined before the list. -/
def defs_in_fragment : List String → List (String × Expr) → Bool
  | _, [] => true
  | names, d :: ds =>
    in_fragment (names ++ [d.1]) d.2 && defs_in_fragment (names ++ [d.1]) ds

/-- Number of bytes that `jit_codegen` emits for an expression of the fragment. -/
def code_size : Expr → Nat
  | EXPR_ADD l r => code_size l + code_size r + 6
  | EXPR_SUB l r => code_size l + code_size r + 6
  | EXPR_LESSER l r => code_size l + code_size r + 13
  | EXPR_INT _ => 5
  | EXPR_ARG => 2
  | EXPR_FUNCDEF _ b => code_size b + 2
  | EXPR_FUNCCALL _ a => code_size a + 12
  | EXPR_IF c t f => code_size c + code_size t + code_size f + 16
  | EXPR_NOTHING => 0

/-- Number of bytes emitted for a list of top-level definitions. -/
def defs_code_size : List (String × Expr) → Nat
  | [] => 0
  | d :: ds => code_size d.2 + 2 + defs_code_size ds

/-- The program `name_1 = body_1`, ..., `name_k = body_k`, `fnname.a`. -/
def def_call_program (defs : List (String × Expr)) (fnname : String) (a : Int) : List Expr :=
  defs.map (fun d => EXPR_FUNCDEF d.1 d.2) ++ [EXPR_FUNCCALL fnname (EXPR_INT a)]

/-- The balanced sum of `2 ^ n` copies of `.`, as written with parentheses:
`.`, `(.) + (.)`, `((.) + (.)) + ((.) + (.))`, ... -/
def big_tree : Nat → Expr
  | 0 => EXPR_ARG
  | n + 1 => EXPR_ADD (big_tree n) (big_tree n)

/-- The bytes `bs` are stored in `mem` from offset `p` on. -/
def bytes_at (mem : Nat → Nat) (p : Nat) (bs : List Nat) : Prop :=
  ∀ k, k < bs.length → mem (p + k) = bs.getD k 0

/-- The bytes `[p, q)` of `mem` are the code of `e` as `jit_codegen` emits it
at cursor `p` against the table `funcs`, jump fixups applied. -/
def code_at (mem : Nat → Nat) (funcs : List Function) : Expr → Nat → Nat → Prop
  | EXPR_ADD l r, p, q =>
    ∃ p1 p2, code_at mem funcs l p p1 ∧ code_at mem funcs r p1 p2 ∧
      bytes_at mem p2 [0x59, 0x58, 0x48, 0x01, 0xc8, 0x50] ∧ q = p2 + 6
  | EXPR_SUB l r, p, q =>
    ∃ p1 p2, code_at mem funcs l p p1 ∧ code_at mem funcs r p1 p2 ∧
      bytes_at mem p2 [0x59, 0x58, 0x48, 0x29, 0xc8, 0x50] ∧ q = p2 + 6
  | EXPR_LESSER l r, p, q =>
    ∃ p1 p2, code_at mem funcs l p p1 ∧ code_at mem funcs r p1 p2 ∧
      bytes_at mem p2
        [0x59, 0x58, 0x48, 0x39, 0xc8, 0x0f, 0x9c, 0xc0, 0x48, 0x0f, 0xb6, 0xc0, 0x50] ∧
      q = p2 + 13
  | EXPR_INT v, p, q => bytes_at mem p (0x68 :: lendian_bytes (wrap32 v)) ∧ q = p + 5
  | EXPR_ARG, p, q => bytes_at mem p [0x41, 0x50] ∧ q = p + 2
  | EXPR_FUNCDEF _ _, _, _ => False
  | EXPR_FUNCCALL fnname a, p, q =>
    ∃ f p1, find_func funcs fnname = some f ∧ bytes_at mem p [0x41, 0x50] ∧
      code_at mem funcs a (p + 2) p1 ∧
      bytes_at mem p1 ([0x41, 0x58, 0xe8]
        ++ lendian_bytes (wrap32 ((f.jitidx : Int) - ((p1 + 3 : Nat) : Int) - 4))
        ++ [0x41, 0x58, 0x50]) ∧
      q = p1 + 10
  | EXPR_IF c t f, p, q =>
    ∃ p1 p2, code_at mem funcs c p p1 ∧
      bytes_at mem p1 ([0x58, 0x48, 0x83, 0xf8, 0x00, 0x0f, 0x84]
        ++ lendian_bytes (wrap32 (((p2 + 5 : Nat) : Int) - ((p1 + 11 : Nat) : Int)))) ∧
      code_at mem funcs t (p1 + 11) p2 ∧
      bytes_at mem p2 (0xe9 :: lendian_bytes (wrap32 ((q : Int) - ((p2 + 5 : Nat) : Int)))) ∧
      code_at mem funcs f (p2 + 5) q
  | EXPR_NOTHING, _, _ => False

/-- Every function of the table has a body of the fragment whose code, followed
by `pop rax; ret`, lies in the arena at the function's `jitidx`, below `pos`. -/
def compiled (mem : Nat → Nat) (funcs : List Function) (pos : Nat) : Prop :=
  ∀ f ∈ funcs, in_fragment (funcs.map Function.name) f.fnexpr = true ∧
    ∃ q, code_at mem funcs f.fnexpr f.jitidx q ∧ bytes_at mem q [0x58, 0xc3] ∧ q + 2 ≤ pos

/-- Two tables list the same names with the same bodies (the offsets may differ). -/
def tables_agree (fi fj : List Function) : Prop :=
  fi.map (fun f => (f.name, f.fnexpr)) = fj.map (fun f => (f.name, f.fnexpr))

/-- Exactly `n` instructions. -/
def steps (mem : Nat → Nat) : Nat → Machine → Option Machine
  | 0, m => some m
  | n + 1, m =>
    match step mem m with
    | none => none
    | some m1 => steps mem n m1

/-- The processor gets from `m` to `m1` in some number of instructions. -/
def Reaches (mem : Nat → Nat) (m m1 : Machine) : Prop := ∃ n, steps mem n m = some m1

/-! ## Base-10 value of a digit run -/

/-- The base-10 value of a run of decimal digits. -/
def decimal_value (ds : List Char) : Nat := ds.foldl (fun acc c => acc * 10 + digitVal c) 0

/-! ## The driver -/

/-- The function `main`: parse one expression from standard input, stop at
`EXPR_NOTHING`, otherwise evaluate it with `eval` and print the value. `pfuel`
bounds the recursion of `parse`, the first argument the number of expressions.
The result is the list of printed values and the fatal exit, if any. -/
def main (eval : State → Expr → Result) (pfuel : Nat) :
    Nat → State → List Char → List Int × Option Err
  | 0, _, _ => ([], some Err.fuel)
  | n + 1, st, inp =>
    match parse pfuel inp with
    | .error x => ([], some x)
    | .ok (e, r) =>
      if e = EXPR_NOTHING then ([], none)
      else
        match eval st e with
        | .ok (v, s1) => (v :: (main eval pfuel n s1 r).1, (main eval pfuel n s1 r).2)
        | .error (x, _) => ([], some x)

/-- What `main` writes to standard output when it reaches the end of input:
each value in base 10 followed by a space, then a newline. -/
def stdout_text (vals : List Int) : String :=
  String.join (vals.map (fun v => toString v ++ " ")) ++ "\n"


/-- A parsing outcome that is final for the input `inp`: a tree together with
unread input no longer than `inp`, or the fatal exit of a failed `assert`. -/
def parse_done (inp : List Char) (res : PResult) : Prop :=
  (∃ e r, res = .ok (e, r) ∧ r.length ≤ inp.length) ∨ res = .error Err.assertion


/-- The outcome `a` with some recursion budget is kept by the outcome `b` with a
larger one: `a` ran out of budget, or the two are equal. -/
def fuel_le (a b : PResult) : Prop := a = .error Err.fuel ∨ a = b


/-- The state of the JIT build after the definition `sq = . + .` on the initial
state. -/
def sq_jit_state : State :=
  match jit_codegen State.init (EXPR_FUNCDEF "sq" (EXPR_ADD EXPR_ARG EXPR_ARG)) with
  | .ok s => s
  | .error (_, s) => s


/-- The straight-line expressions of C17: literals `0 ≤ n < 2^31`, `Arg`, `Add`,
`Sub` and `Lesser`. -/
def straight_line : Expr → Bool
  | EXPR_ADD l r => straight_line l && straight_line r
  | EXPR_SUB l r => straight_line l && straight_line r
  | EXPR_LESSER l r => straight_line l && straight_line r
  | EXPR_INT v => decide (0 ≤ v) && decide (v < 2 ^ 31)
  | EXPR_ARG => true
  | _ => false


/-! ## Abstract operand stack -/

/-- What one instruction does to the depth of the operand stack and to the
flow of control, as C14 counts it: a push is `next 1`, a pop `next (-1)`, a call
followed by the return of the callee `next 0`, with the length of the
instruction; `jmp` and `je` carry their target; `ret` leaves the code. -/
inductive Effect where
  | next (delta : Int) (len : Nat)
  | jump (target : Int)
  | branch (target : Int)
  | leave
  | unknown
  deriving DecidableEq

/-- The effect of the instruction at offset `pc`, decoded as `step` decodes it. -/
def effect (mem : Nat → Nat) (pc : Nat) : Effect :=
  let b0 := mem pc
  let b1 := mem (pc + 1)
  let b2 := mem (pc + 2)
  let b3 := mem (pc + 3)
  if b0 = 0x50 then .next 1 1
  else if b0 = 0x58 then .next (-1) 1
  else if b0 = 0x59 then .next (-1) 1
  else if b0 = 0x68 then .next 1 5
  else if b0 = 0xc3 then .leave
  else if b0 = 0xe8 then .next 0 5
  else if b0 = 0xe9 then .jump ((pc : Int) + 5 + imm32 mem pc 1)
  else if b0 = 0x41 ∧ b1 = 0x50 then .next 1 2
  else if b0 = 0x41 ∧ b1 = 0x58 then .next (-1) 2
  else if b0 = 0x48 ∧ b1 = 0x01 ∧ b2 = 0xc8 then .next 0 3
  else if b0 = 0x48 ∧ b1 = 0x29 ∧ b2 = 0xc8 then .next 0 3
  else if b0 = 0x48 ∧ b1 = 0x39 ∧ b2 = 0xc8 then .next 0 3
  else if b0 = 0x48 ∧ b1 = 0x83 ∧ b2 = 0xf8 then .next 0 4
  else if b0 = 0x48 ∧ b1 = 0x0f ∧ b2 = 0xb6 ∧ b3 = 0xc0 then .next 0 4
  else if b0 = 0x0f ∧ b1 = 0x9c ∧ b2 = 0xc0 then .next 0 3
  else if b0 = 0x0f ∧ b1 = 0x84 then .branch ((pc : Int) + 6 + imm32 mem pc 2)
  else .unknown

/-- Symbolic execution on the abstract operand stack: follow every path from
offset `pc`, entered with depth `d`, until it arrives at offset `stop`. The
result is `some r` when every path arrives there with the same depth `r` (both
arms of a `je` are followed), and `none` when a path meets a `ret`, an unknown
encoding or a jump to a negative offset first, when two paths arrive with
different depths, or when the bound on the number of instructions runs out. -/
def stack_depth (mem : Nat → Nat) (stop : Nat) : Nat → Nat → Int → Option Int
  | 0, _, _ => none
  | fuel + 1, pc, d =>
    if pc = stop then some d
    else
      match effect mem pc with
      | .next delta len => stack_depth mem stop fuel (pc + len) (d + delta)
      | .jump t => if 0 ≤ t then stack_depth mem stop fuel t.toNat d else none
      | .branch t =>
        if 0 ≤ t then
          match stack_depth mem stop fuel (pc + 6) d, stack_depth mem stop fuel t.toNat d with
          | some r1, some r2 => if r1 = r2 then some r1 else none
          | _, _ => none
        else none
      | .leave => none
      | .unknown => none

/-! # Theorems -/

/-! ## Inversion of the interpreter's cases -/

theorem nev_add_ok {eval : State → Expr → Result} {st : State} {l r : Expr} {v : Int}
    {s2 : State} :
    normal_eval_with eval st (EXPR_ADD l r) = .ok (v, s2) ↔
      ∃ a s1 b, eval st l = .ok (a, s1) ∧ eval s1 r = .ok (b, s2) ∧ v = wrap64 (a + b) := by
  simp only [normal_eval_with]
  constructor
  · intro h
    split at h
    · simp at h
    · rename_i a s1 h1
      split at h
      · simp at h
      · rename_i b s3 h2
        simp only [Except.ok.injEq, Prod.mk.injEq] at h
        obtain ⟨hv, hs⟩ := h
        subst hs
        exact ⟨a, s1, b, h1, h2, hv.symm⟩
  · rintro ⟨a, s1, b, h1, h2, hv⟩
    simp [h1, h2, hv]

theorem nev_sub_ok {eval : State → Expr → Result} {st : State} {l r : Expr} {v : Int}
    {s2 : State} :
    normal_eval_with eval st (EXPR_SUB l r) = .ok (v, s2) ↔
      ∃ a s1 b, eval st l = .ok (a, s1) ∧ eval s1 r = .ok (b, s2) ∧ v = wrap64 (a - b) := by
  simp only [normal_eval_with]
  constructor
  · intro h
    split at h
    · simp at h
    · rename_i a s1 h1
      split at h
      · simp at h
      · rename_i b s3 h2
        simp only [Except.ok.injEq, Prod.mk.injEq] at h
        obtain ⟨hv, hs⟩ := h
        subst hs
        exact ⟨a, s1, b, h1, h2, hv.symm⟩
  · rintro ⟨a, s1, b, h1, h2, hv⟩
    simp [h1, h2, hv]

theorem nev_lesser_ok {eval : State → Expr → Result} {st : State} {l r : Expr} {v : Int}
    {s2 : State} :
    normal_eval_with eval st (EXPR_LESSER l r) = .ok (v, s2) ↔
      ∃ a s1 b, eval st l = .ok (a, s1) ∧ eval s1 r = .ok (b, s2) ∧ v = (if a < b then 1 else 0) := by
  simp only [normal_eval_with]
  constructor
  · intro h
    split at h
    · simp at h
    · rename_i a s1 h1
      split at h
      · simp at h
      · rename_i b s3 h2
        simp only [Except.ok.injEq, Prod.mk.injEq] at h
        obtain ⟨hv, hs⟩ := h
        subst hs
        exact ⟨a, s1, b, h1, h2, hv.symm⟩
  · rintro ⟨a, s1, b, h1, h2, hv⟩
    simp [h1, h2, hv]

theorem nev_call_ok {eval : State → Expr → Result} {st : State} {fnname : String} {arg : Expr}
    {v : Int} {s3 : State} :
    normal_eval_with eval st (EXPR_FUNCCALL fnname arg) = .ok (v, s3) ↔
      ∃ f a s1 s2, find_func st.funcs fnname = some f ∧ eval st arg = .ok (a, s1) ∧
        eval { s1 with funcarg := a } f.fnexpr = .ok (v, s2) ∧
        s3 = { s2 with funcarg := st.funcarg } := by
  simp only [normal_eval_with]
  constructor
  · intro h
    split at h
    · rename_i f hf
      split at h
      · simp at h
      · rename_i a s1 h1
        split at h
        · simp at h
        · rename_i b s2 h2
          simp only [Except.ok.injEq, Prod.mk.injEq] at h
          obtain ⟨hv, hs⟩ := h
          subst hv
          exact ⟨f, a, s1, s2, hf, h1, h2, hs.symm⟩
    · simp at h
  · rintro ⟨f, a, s1, s2, hf, h1, h2, hs⟩
    simp [hf, h1, h2, hs]

theorem nev_if_ok {eval : State → Expr → Result} {st : State} {c t f : Expr} {v : Int}
    {s2 : State} :
    normal_eval_with eval st (EXPR_IF c t f) = .ok (v, s2) ↔
      ∃ cv s1, eval st c = .ok (cv, s1) ∧
        ((cv ≠ 0 ∧ eval s1 t = .ok (v, s2)) ∨ (cv = 0 ∧ eval s1 f = .ok (v, s2))) := by
  simp only [normal_eval_with]
  constructor
  · intro h
    split at h
    · simp at h
    · rename_i cv s1 h1
      by_cases hc : cv = 0
      · simp [hc] at h; exact ⟨cv, s1, h1, Or.inr ⟨hc, h⟩⟩
      · simp [hc] at h; exact ⟨cv, s1, h1, Or.inl ⟨hc, h⟩⟩
  · rintro ⟨cv, s1, h1, h | h⟩
    · simp [h1, h.1, h.2]
    · simp [h1, h.1, h.2]

/-! ## Function lookup -/

theorem find_func_first (pre post : List Function) (f : Function) (fnname : String)
    (hpre : ∀ g ∈ pre, g.name ≠ fnname) (hf : f.name = fnname) :
    find_func (pre ++ f :: post) fnname = some f := by
  induction pre with
  | nil => simp [find_func, hf]
  | cons g gs ih =>
    have hg : g.name ≠ fnname := hpre g (List.mem_cons_self _ _)
    have ih2 := ih (fun x hx => hpre x (List.mem_cons_of_mem _ hx))
    simp [find_func, hg, ih2]

theorem find_func_none {fs : List Function} {fnname : String} :
    find_func fs fnname = none ↔ ∀ g ∈ fs, g.name ≠ fnname := by
  induction fs with
  | nil => simp [find_func]
  | cons g gs ih =>
    by_cases hg : g.name = fnname
    · simp [find_func, hg]
    · simp [find_func, hg, ih]

theorem find_func_append {fs : List Function} {fnname : String} {f : Function}
    (h : find_func fs fnname = some f) (more : List Function) :
    find_func (fs ++ more) fnname = some f := by
  induction fs with
  | nil => simp [find_func] at h
  | cons g gs ih =>
    by_cases hg : g.name = fnname
    · simp [find_func, hg] at h ⊢; exact h
    · simp [find_func, hg] at h ⊢; exact ih h

/-! ## C3: the call rule of the interpreter -/

/-- C3. In the interpreter, a call `FuncCall(name, arg)` evaluated with `.` bound
to `st.funcarg`, on a table whose first entry named `name` is `f`: when `arg`
evaluates (with `.` unchanged) to `v` and the body of `f` evaluates with `.`
bound to `v` to `result`, the call evaluates to `result`, and `.` is bound as
before the call. -/
theorem normal_eval_funccall (fuel : Nat) (st s1 s2 : State) (pre post : List Function)
    (f : Function) (fnname : String) (callarg : Expr) (v result : Int)
    (htable : st.funcs = pre ++ f :: post) (hpre : ∀ g ∈ pre, g.name ≠ fnname)
    (hname : f.name = fnname)
    (harg : normal_eval fuel st callarg = .ok (v, s1))
    (hbody : normal_eval fuel { s1 with funcarg := v } f.fnexpr = .ok (result, s2)) :
    normal_eval (fuel + 1) st (EXPR_FUNCCALL fnname callarg)
      = .ok (result, { s2 with funcarg := st.funcarg }) := by
  have hf : find_func st.funcs fnname = some f := by
    rw [htable]; exact find_func_first pre post f fnname hpre hname
  simp only [normal_eval]
  exact nev_call_ok.mpr ⟨f, v, s1, s2, hf, harg, hbody, rfl⟩

/-- Witness for C3: with `sq` defined as `Add(Arg, Arg)`, `sq.5` evaluates to 10. -/
theorem normal_eval_funccall_witness :
    normal_eval 3 sq_state (EXPR_FUNCCALL "sq" (EXPR_INT 5))
      = .ok (10, { ({ sq_state with funcarg := 5 } : State) with funcarg := sq_state.funcarg }) :=
  normal_eval_funccall 2 sq_state sq_state { sq_state with funcarg := 5 } [] []
    ⟨"sq", EXPR_ADD EXPR_ARG EXPR_ARG, 0⟩ "sq" (EXPR_INT 5) 5 10 rfl
    (fun _ h => absurd h (List.not_mem_nil _)) rfl rfl rfl

/-! ## C4: the interpreter restores `funcarg` -/

theorem normal_eval_funcarg_aux (fuel : Nat) :
    ∀ (st : State) (e : Expr) (v : Int) (st1 : State),
    normal_eval fuel st e = .ok (v, st1) → st1.funcarg = st.funcarg := by
  induction fuel with
  | zero => intro st e v st1 h; simp [normal_eval] at h
  | succ n ih =>
    intro st e v st1 h
    simp only [normal_eval] at h
    cases e with
    | EXPR_ADD l r =>
      obtain ⟨a, s1, b, h1, h2, _⟩ := nev_add_ok.mp h
      rw [ih _ _ _ _ h2, ih _ _ _ _ h1]
    | EXPR_SUB l r =>
      obtain ⟨a, s1, b, h1, h2, _⟩ := nev_sub_ok.mp h
      rw [ih _ _ _ _ h2, ih _ _ _ _ h1]
    | EXPR_LESSER l r =>
      obtain ⟨a, s1, b, h1, h2, _⟩ := nev_lesser_ok.mp h
      rw [ih _ _ _ _ h2, ih _ _ _ _ h1]
    | EXPR_INT i => simp [normal_eval_with] at h; rw [← h.2]
    | EXPR_ARG => simp [normal_eval_with] at h; rw [← h.2]
    | EXPR_FUNCDEF fnname b => simp [normal_eval_with] at h; rw [← h.2]
    | EXPR_FUNCCALL fnname arg =>
      obtain ⟨f, a, s1, s2, _, _, _, hs⟩ := nev_call_ok.mp h
      rw [hs]
    | EXPR_IF c t f =>
      obtain ⟨cv, s1, h1, h2 | h2⟩ := nev_if_ok.mp h
      · rw [ih _ _ _ _ h2.2, ih _ _ _ _ h1]
      · rw [ih _ _ _ _ h2.2, ih _ _ _ _ h1]
    | EXPR_NOTHING => simp [normal_eval_with] at h

/-! ## C6: only the taken branch of `if` is evaluated -/

/-- C6. Branch isolation: when the condition evaluates to `c` in state `s1`,
`If(cond, t, f)` has exactly the outcome (value and state, or fatal exit) of
evaluating `t` from `s1` if `c` is nonzero, and of evaluating `f` from `s1` if
`c` is zero; the other branch does not enter the result. -/
theorem normal_eval_if (fuel : Nat) (st s1 : State) (cond t f : Expr) (c : Int)
    (hcond : normal_eval fuel st cond = .ok (c, s1)) :
    (c ≠ 0 → normal_eval (fuel + 1) st (EXPR_IF cond t f) = normal_eval fuel s1 t) ∧
    (c = 0 → normal_eval (fuel + 1) st (EXPR_IF cond t f) = normal_eval fuel s1 f) := by
  constructor
  · intro hc
    simp [normal_eval, normal_eval_with, hcond, hc]
  · intro hc
    simp [normal_eval, normal_eval_with, hcond, hc]

/-- Witness for C6: `if 1 2 (g.0)` is 2 and `if 0 (g.0) 3` is 3 on the empty
table, although `g.0` alone is a fatal error. -/
theorem normal_eval_if_witness :
    (normal_eval 2 State.init (EXPR_IF (EXPR_INT 1) (EXPR_INT 2) (EXPR_FUNCCALL "g" (EXPR_INT 0)))
      = normal_eval 1 State.init (EXPR_INT 2)) ∧
    (normal_eval 2 State.init (EXPR_IF (EXPR_INT 0) (EXPR_FUNCCALL "g" (EXPR_INT 0)) (EXPR_INT 3))
      = normal_eval 1 State.init (EXPR_INT 3)) :=
  ⟨(normal_eval_if 1 State.init State.init (EXPR_INT 1) (EXPR_INT 2)
      (EXPR_FUNCCALL "g" (EXPR_INT 0)) 1 rfl).1 (by decide),
   (normal_eval_if 1 State.init State.init (EXPR_INT 0) (EXPR_FUNCCALL "g" (EXPR_INT 0))
      (EXPR_INT 3) 0 rfl).2 rfl⟩

/-! ## C2: without definitions the JIT build is the interpreter -/

theorem eval_agree_aux (n : Nat) : ∀ (st : State) (e : Expr), st.funcs = [] →
    no_funcdef e = true →
    jit_eval n st e = normal_eval n st e ∧
      ∀ v s1, normal_eval n st e = .ok (v, s1) → s1.funcs = [] := by
  induction n with
  | zero => intro st e _ _; simp [jit_eval, normal_eval]
  | succ n ih =>
    intro st e hst he
    cases e with
    | EXPR_ADD l r =>
      simp only [no_funcdef, Bool.and_eq_true] at he
      simp only [jit_eval, normal_eval, normal_eval_with]
      obtain ⟨e1, f1⟩ := ih st l hst he.1
      rw [e1]
      cases h1 : normal_eval n st l with
      | error x => simp
      | ok p =>
        obtain ⟨a, s1⟩ := p
        obtain ⟨e2, f2⟩ := ih s1 r (f1 a s1 h1) he.2
        simp only []
        rw [e2]
        cases h2 : normal_eval n s1 r with
        | error x => simp
        | ok q =>
          obtain ⟨b, s2⟩ := q
          simp only [true_and]
          intro v s3 h
          simp only [Except.ok.injEq, Prod.mk.injEq] at h
          rw [← h.2]; exact f2 b s2 h2
    | EXPR_SUB l r =>
      simp only [no_funcdef, Bool.and_eq_true] at he
      simp only [jit_eval, normal_eval, normal_eval_with]
      obtain ⟨e1, f1⟩ := ih st l hst he.1
      rw [e1]
      cases h1 : normal_eval n st l with
      | error x => simp
      | ok p =>
        obtain ⟨a, s1⟩ := p
        obtain ⟨e2, f2⟩ := ih s1 r (f1 a s1 h1) he.2
        simp only []
        rw [e2]
        cases h2 : normal_eval n s1 r with
        | error x => simp
        | ok q =>
          obtain ⟨b, s2⟩ := q
          simp only [true_and]
          intro v s3 h
          simp only [Except.ok.injEq, Prod.mk.injEq] at h
          rw [← h.2]; exact f2 b s2 h2
    | EXPR_LESSER l r =>
      simp only [no_funcdef, Bool.and_eq_true] at he
      simp only [jit_eval, normal_eval, normal_eval_with]
      obtain ⟨e1, f1⟩ := ih st l hst he.1
      rw [e1]
      cases h1 : normal_eval n st l with
      | error x => simp
      | ok p =>
        obtain ⟨a, s1⟩ := p
        obtain ⟨e2, f2⟩ := ih s1 r (f1 a s1 h1) he.2
        simp only []
        rw [e2]
        cases h2 : normal_eval n s1 r with
        | error x => simp
        | ok q =>
          obtain ⟨b, s2⟩ := q
          simp only [true_and]
          intro v s3 h
          simp only [Except.ok.injEq, Prod.mk.injEq] at h
          rw [← h.2]; exact f2 b s2 h2
    | EXPR_INT i =>
      simp only [jit_eval, normal_eval, normal_eval_with, true_and]
      intro v s1 h
      simp only [Except.ok.injEq, Prod.mk.injEq] at h
      rw [← h.2]; exact hst
    | EXPR_ARG =>
      simp only [jit_eval, normal_eval, normal_eval_with, true_and]
      intro v s1 h
      simp only [Except.ok.injEq, Prod.mk.injEq] at h
      rw [← h.2]; exact hst
    | EXPR_FUNCDEF fnname b => simp [no_funcdef] at he
    | EXPR_FUNCCALL fnname arg =>
      simp [jit_eval, normal_eval, normal_eval_with, hst, find_func]
    | EXPR_IF c t f =>
      simp only [no_funcdef, Bool.and_eq_true] at he
      obtain ⟨⟨hc, ht⟩, hf⟩ := he
      simp only [jit_eval, normal_eval, normal_eval_with]
      obtain ⟨e1, f1⟩ := ih st c hst hc
      rw [e1]
      cases h1 : normal_eval n st c with
      | error x => simp
      | ok p =>
        obtain ⟨cv, s1⟩ := p
        simp only []
        by_cases hcv : cv = 0
        · simp only [hcv, ne_eq, not_true_eq_false, ite_false]
          exact ih s1 f (f1 cv s1 h1) hf
        · simp only [hcv, ne_eq, not_false_eq_true, ite_true]
          exact ih s1 t (f1 cv s1 h1) ht
    | EXPR_NOTHING => simp [jit_eval, normal_eval, normal_eval_with]

theorem normal_eval_enough_fuel (n : Nat) : ∀ (st : State) (e : Expr), st.funcs = [] →
    no_funcdef e = true → e.height < n → ∀ s, normal_eval n st e ≠ .error (Err.fuel, s) := by
  induction n with
  | zero => intro st e _ _ h; omega
  | succ n ih =>
    intro st e hst he hh s
    cases e with
    | EXPR_ADD l r =>
      simp only [no_funcdef, Bool.and_eq_true] at he
      simp only [Expr.height] at hh
      simp only [normal_eval, normal_eval_with]
      cases h1 : normal_eval n st l with
      | error x =>
        simp only [ne_eq, Except.error.injEq]
        intro hx; exact ih st l hst he.1 (by omega) s (by rw [h1, hx])
      | ok p =>
        obtain ⟨a, s1⟩ := p
        have hs1 := (eval_agree_aux n st l hst he.1).2 a s1 h1
        simp only []
        cases h2 : normal_eval n s1 r with
        | error x =>
          simp only [ne_eq, Except.error.injEq]
          intro hx; exact ih s1 r hs1 he.2 (by omega) s (by rw [h2, hx])
        | ok q => simp
    | EXPR_SUB l r =>
      simp only [no_funcdef, Bool.and_eq_true] at he
      simp only [Expr.height] at hh
      simp only [normal_eval, normal_eval_with]
      cases h1 : normal_eval n st l with
      | error x =>
        simp only [ne_eq, Except.error.injEq]
        intro hx; exact ih st l hst he.1 (by omega) s (by rw [h1, hx])
      | ok p =>
        obtain ⟨a, s1⟩ := p
        have hs1 := (eval_agree_aux n st l hst he.1).2 a s1 h1
        simp only []
        cases h2 : normal_eval n s1 r with
        | error x =>
          simp only [ne_eq, Except.error.injEq]
          intro hx; exact ih s1 r hs1 he.2 (by omega) s (by rw [h2, hx])
        | ok q => simp
    | EXPR_LESSER l r =>
      simp only [no_funcdef, Bool.and_eq_true] at he
      simp only [Expr.height] at hh
      simp only [normal_eval, normal_eval_with]
      cases h1 : normal_eval n st l with
      | error x =>
        simp only [ne_eq, Except.error.injEq]
        intro hx; exact ih st l hst he.1 (by omega) s (by rw [h1, hx])
      | ok p =>
        obtain ⟨a, s1⟩ := p
        have hs1 := (eval_agree_aux n st l hst he.1).2 a s1 h1
        simp only []
        cases h2 : normal_eval n s1 r with
        | error x =>
          simp only [ne_eq, Except.error.injEq]
          intro hx; exact ih s1 r hs1 he.2 (by omega) s (by rw [h2, hx])
        | ok q => simp
    | EXPR_INT i => simp [normal_eval, normal_eval_with]
    | EXPR_ARG => simp [normal_eval, normal_eval_with]
    | EXPR_FUNCDEF fnname b => simp [no_funcdef] at he
    | EXPR_FUNCCALL fnname arg => simp [normal_eval, normal_eval_with, hst, find_func]
    | EXPR_IF c t f =>
      simp only [no_funcdef, Bool.and_eq_true] at he
      obtain ⟨⟨hc, ht⟩, hf⟩ := he
      simp only [Expr.height] at hh
      simp only [normal_eval, normal_eval_with]
      cases h1 : normal_eval n st c with
      | error x =>
        simp only [ne_eq, Except.error.injEq]
        intro hx; exact ih st c hst hc (by omega) s (by rw [h1, hx])
      | ok p =>
        obtain ⟨cv, s1⟩ := p
        have hs1 := (eval_agree_aux n st c hst hc).2 cv s1 h1
        simp only []
        by_cases hcv : cv = 0
        · simp only [hcv, ne_eq, not_true_eq_false, ite_false]
          exact ih s1 f hs1 hf (by omega) s
        · simp only [hcv, ne_eq, not_false_eq_true, ite_true]
          exact ih s1 t hs1 ht (by omega) s
    | EXPR_NOTHING => simp [normal_eval, normal_eval_with]

theorem run_exprs_agree (fuel : Nat) : ∀ (prog : List Expr) (st : State), st.funcs = [] →
    (∀ e ∈ prog, no_funcdef e = true) → (∀ e ∈ prog, e.height < fuel) →
    run_exprs (jit_eval fuel) st prog = run_exprs (normal_eval fuel) st prog ∧
      (run_exprs (normal_eval fuel) st prog).2 ≠ some Err.fuel := by
  intro prog
  induction prog with
  | nil => intro st _ _ _; simp [run_exprs]
  | cons e es ih =>
    intro st hst hnf hh
    have he := hnf e (List.mem_cons_self _ _)
    have hhe := hh e (List.mem_cons_self _ _)
    simp only [run_exprs]
    by_cases hn : e = EXPR_NOTHING
    · simp [hn]
    · simp only [hn, if_false]
      obtain ⟨e1, f1⟩ := eval_agree_aux fuel st e hst he
      rw [e1]
      cases h1 : normal_eval fuel st e with
      | error x =>
        obtain ⟨x1, x2⟩ := x
        simp only [ne_eq, Option.some.injEq, true_and]
        intro hx
        exact normal_eval_enough_fuel fuel st e hst he hhe x2 (by rw [h1, hx])
      | ok p =>
        obtain ⟨v, s1⟩ := p
        obtain ⟨e2, f2⟩ := ih s1 (f1 v s1 h1) (fun x hx => hnf x (List.mem_cons_of_mem _ hx))
          (fun x hx => hh x (List.mem_cons_of_mem _ hx))
        simp only []
        rw [e2]
        exact ⟨rfl, f2⟩

/-- C2. For every program without a `FuncDef` node, started on the empty
table, the JIT build's evaluator `jit_eval` and the interpreter's `normal_eval`
print the same values and end in the same fatal exit, if any; with recursion
bound above the height of the trees neither outcome is an exhausted bound. -/
theorem jit_eval_eq_normal_eval_of_no_funcdef (prog : List Expr)
    (hprog : ∀ e ∈ prog, no_funcdef e = true) :
    ∃ N, ∀ fuel, N ≤ fuel →
      run_exprs (jit_eval fuel) State.init prog = run_exprs (normal_eval fuel) State.init prog ∧
        (run_exprs (normal_eval fuel) State.init prog).2 ≠ some Err.fuel := by
  refine ⟨(prog.map Expr.height).sum + 1, fun fuel hfuel => ?_⟩
  refine run_exprs_agree fuel prog State.init rfl hprog (fun e he => ?_)
  have : e.height ≤ (prog.map Expr.height).sum :=
    List.single_le_sum (fun _ _ => Nat.zero_le _) _ (List.mem_map_of_mem _ he)
  omega

/-- Witness for C2: the program `1 + 2`, `(2 + 3) < (1 + 5)`, `f.0`. -/
theorem jit_eval_eq_normal_eval_of_no_funcdef_witness :
    ∃ N, ∀ fuel, N ≤ fuel →
      run_exprs (jit_eval fuel) State.init
          [EXPR_ADD (EXPR_INT 1) (EXPR_INT 2),
           EXPR_LESSER (EXPR_ADD (EXPR_INT 2) (EXPR_INT 3)) (EXPR_ADD (EXPR_INT 1) (EXPR_INT 5)),
           EXPR_FUNCCALL "f" (EXPR_INT 0)]
        = run_exprs (normal_eval fuel) State.init
          [EXPR_ADD (EXPR_INT 1) (EXPR_INT 2),
           EXPR_LESSER (EXPR_ADD (EXPR_INT 2) (EXPR_INT 3)) (EXPR_ADD (EXPR_INT 1) (EXPR_INT 5)),
           EXPR_FUNCCALL "f" (EXPR_INT 0)] ∧
        (run_exprs (normal_eval fuel) State.init
          [EXPR_ADD (EXPR_INT 1) (EXPR_INT 2),
           EXPR_LESSER (EXPR_ADD (EXPR_INT 2) (EXPR_INT 3)) (EXPR_ADD (EXPR_INT 1) (EXPR_INT 5)),
           EXPR_FUNCCALL "f" (EXPR_INT 0)]).2 ≠ some Err.fuel :=
  jit_eval_eq_normal_eval_of_no_funcdef _ (by decide)

/-! ## C7: first match wins -/

/-- C7. On a table in which `f` is the entry of smallest index named `fnname`
(all entries before it carry other names), a call `FuncCall(fnname, callarg)` is
resolved to `f`: `normal_eval` evaluates the body of `f`, `jit_eval` calls the
code at `f.jitidx`, and `jit_codegen` emits a call whose displacement is
computed from `f.jitidx`, whatever entries follow `f`. -/
theorem first_match_wins (fuel : Nat) (st : State) (pre post : List Function) (f : Function)
    (fnname : String) (callarg : Expr)
    (htable : st.funcs = pre ++ f :: post) (hpre : ∀ g ∈ pre, g.name ≠ fnname)
    (hname : f.name = fnname) :
    normal_eval (fuel + 1) st (EXPR_FUNCCALL fnname callarg)
      = (match normal_eval fuel st callarg with
        | .error x => .error x
        | .ok (v, s1) =>
          match normal_eval fuel { s1 with funcarg := v } f.fnexpr with
          | .error x => .error x
          | .ok (result, s2) => (.ok (result, { s2 with funcarg := st.funcarg }) : Result)) ∧
    jit_eval (fuel + 1) st (EXPR_FUNCCALL fnname callarg)
      = (match jit_eval fuel st callarg with
        | .error x => .error x
        | .ok (a, s1) =>
          match jit_call fuel s1.jit_mem f.jitidx a with
          | .error x => .error (x, s1)
          | .ok result => (.ok (result, s1) : Result)) ∧
    jit_codegen st (EXPR_FUNCCALL fnname callarg)
      = (match jit_codegen (jit_write st [0x41, 0x50]) callarg with
        | .error x => .error x
        | .ok s1 =>
          (.ok (jit_write
            (write_lendian (jit_write (jit_write s1 [0x41, 0x58]) [0xe8])
              (wrap32 ((f.jitidx : Int)
                - ((jit_write (jit_write s1 [0x41, 0x58]) [0xe8]).jit_pos : Int) - 4)))
            [0x41, 0x58, 0x50]) : Except (Err × State) State)) := by
  have hf : find_func st.funcs fnname = some f := by
    rw [htable]; exact find_func_first pre post f fnname hpre hname
  refine ⟨?_, ?_, ?_⟩
  · simp only [normal_eval, normal_eval_with, hf]
  · simp only [jit_eval, hf]
  · simp only [jit_codegen, hf]

/-- Witness for C7: after `f = 1` and a later `f = 2`, `f.0` yields 1, in the
interpreter and in the JIT build. -/
theorem first_match_wins_witness :
    normal_eval 2 ff_state (EXPR_FUNCCALL "f" (EXPR_INT 0)) = .ok (1, ff_state) ∧
    run_exprs (normal_eval 3) State.init
      [EXPR_FUNCDEF "f" (EXPR_INT 1), EXPR_FUNCDEF "f" (EXPR_INT 2),
       EXPR_FUNCCALL "f" (EXPR_INT 0)] = ([0, 0, 1], none) ∧
    run_exprs (jit_eval 5) State.init
      [EXPR_FUNCDEF "f" (EXPR_INT 1), EXPR_FUNCDEF "f" (EXPR_INT 2),
       EXPR_FUNCCALL "f" (EXPR_INT 0)] = ([0, 0, 1], none) :=
  ⟨(first_match_wins 1 ff_state [] [⟨"f", EXPR_INT 2, 0⟩] ⟨"f", EXPR_INT 1, 0⟩ "f" (EXPR_INT 0)
      rfl (fun _ h => absurd h (List.not_mem_nil _)) rfl).1.trans rfl,
   by decide, by decide⟩

/-! ## The byte emitter -/

@[simp] theorem jit_write_funcs (st : State) (bs : List Nat) :
    (jit_write st bs).funcs = st.funcs := by
  induction bs generalizing st with
  | nil => rfl
  | cons b bs ih => simp only [jit_write]; rw [ih]

@[simp] theorem jit_write_funcarg (st : State) (bs : List Nat) :
    (jit_write st bs).funcarg = st.funcarg := by
  induction bs generalizing st with
  | nil => rfl
  | cons b bs ih => simp only [jit_write]; rw [ih]

@[simp] theorem jit_write_pos (st : State) (bs : List Nat) :
    (jit_write st bs).jit_pos = st.jit_pos + bs.length := by
  induction bs generalizing st with
  | nil => rfl
  | cons b bs ih => simp only [jit_write]; rw [ih]; simp only [List.length_cons]; omega

theorem jit_write_mem_lt (st : State) (bs : List Nat) (i : Nat) (h : i < st.jit_pos) :
    (jit_write st bs).jit_mem i = st.jit_mem i := by
  induction bs generalizing st with
  | nil => rfl
  | cons b bs ih =>
    simp only [jit_write]
    rw [ih _ (by simp only []; omega)]
    simp only []
    rw [if_neg (by omega)]

theorem jit_write_mem_ge (st : State) (bs : List Nat) (i : Nat)
    (h : st.jit_pos + bs.length ≤ i) : (jit_write st bs).jit_mem i = st.jit_mem i := by
  induction bs generalizing st with
  | nil => rfl
  | cons b bs ih =>
    simp only [List.length_cons] at h
    simp only [jit_write]
    rw [ih _ (by simp only []; omega)]
    simp only []
    rw [if_neg (by omega)]

theorem jit_write_mem_at (st : State) (bs : List Nat) (k : Nat) (h : k < bs.length) :
    (jit_write st bs).jit_mem (st.jit_pos + k) = bs.getD k 0 := by
  induction bs generalizing st k with
  | nil => simp at h
  | cons b bs ih =>
    simp only [jit_write]
    cases k with
    | zero =>
      rw [jit_write_mem_lt _ _ _ (by simp only []; omega)]
      simp
    | succ k =>
      simp only [List.length_cons] at h
      have := ih { st with jit_mem := fun i => if i = st.jit_pos then b else st.jit_mem i,
                           jit_pos := st.jit_pos + 1 } k (by omega)
      simp only [] at this
      rw [show st.jit_pos + (k + 1) = st.jit_pos + 1 + k by omega, this]
      simp

@[simp] theorem lendian_bytes_length (x : Int) : (lendian_bytes x).length = 4 := rfl

@[simp] theorem write_lendian_funcs (st : State) (x : Int) :
    (write_lendian st x).funcs = st.funcs := by simp [write_lendian]

@[simp] theorem write_lendian_funcarg (st : State) (x : Int) :
    (write_lendian st x).funcarg = st.funcarg := by simp [write_lendian]

@[simp] theorem write_lendian_pos (st : State) (x : Int) :
    (write_lendian st x).jit_pos = st.jit_pos + 4 := by simp [write_lendian]

theorem write_lendian_mem_lt (st : State) (x : Int) (i : Nat) (h : i < st.jit_pos) :
    (write_lendian st x).jit_mem i = st.jit_mem i := jit_write_mem_lt st _ i h

@[simp] theorem fixup_lendian_funcs (st : State) (k : Nat) (x : Int) :
    (fixup_lendian st k x).funcs = st.funcs := rfl

@[simp] theorem fixup_lendian_funcarg (st : State) (k : Nat) (x : Int) :
    (fixup_lendian st k x).funcarg = st.funcarg := rfl

@[simp] theorem fixup_lendian_pos (st : State) (k : Nat) (x : Int) :
    (fixup_lendian st k x).jit_pos = st.jit_pos := rfl

theorem fixup_lendian_mem_lt (st : State) (k : Nat) (x : Int) (i : Nat) (h : i < k) :
    (fixup_lendian st k x).jit_mem i = st.jit_mem i := by
  simp only [fixup_lendian]
  rw [if_neg (by omega), if_neg (by omega), if_neg (by omega), if_neg (by omega)]

theorem fixup_lendian_mem_ge (st : State) (k : Nat) (x : Int) (i : Nat) (h : k + 4 ≤ i) :
    (fixup_lendian st k x).jit_mem i = st.jit_mem i := by
  simp only [fixup_lendian]
  rw [if_neg (by omega), if_neg (by omega), if_neg (by omega), if_neg (by omega)]

/-! ## Frame of the code generator -/

/-- What `jit_codegen` leaves alone: the table only grows at its end, `funcarg`
is untouched, the cursor does not move back, and the bytes below the cursor at
entry keep their values. -/
theorem jit_codegen_frame (e : Expr) : ∀ (st s1 : State), jit_codegen st e = .ok s1 →
    (∃ more, s1.funcs = st.funcs ++ more) ∧ s1.funcarg = st.funcarg ∧
      st.jit_pos ≤ s1.jit_pos ∧ ∀ i, i < st.jit_pos → s1.jit_mem i = st.jit_mem i := by
  induction e with
  | EXPR_ADD l r ihl ihr | EXPR_SUB l r ihl ihr | EXPR_LESSER l r ihl ihr =>
    intro st s1 h
    simp only [jit_codegen] at h
    split at h
    · simp at h
    · rename_i sa ha
      split at h
      · simp at h
      · rename_i sb hb
        simp only [Except.ok.injEq] at h
        obtain ⟨⟨m1, f1⟩, a1, p1, q1⟩ := ihl _ _ ha
        obtain ⟨⟨m2, f2⟩, a2, p2, q2⟩ := ihr _ _ hb
        subst h
        refine ⟨⟨m1 ++ m2, by simp [f1, f2]⟩, by simp [a1, a2], by simp; omega, ?_⟩
        intro i hi
        rw [jit_write_mem_lt _ _ _ (by omega), q2 i (by omega), q1 i hi]
  | EXPR_INT v =>
    intro st s1 h
    simp only [jit_codegen, Except.ok.injEq] at h
    subst h
    refine ⟨⟨[], by simp⟩, by simp, by simp; omega, ?_⟩
    intro i hi
    rw [write_lendian_mem_lt _ _ _ (by simp; omega), jit_write_mem_lt _ _ _ hi]
  | EXPR_ARG =>
    intro st s1 h
    simp only [jit_codegen, Except.ok.injEq] at h
    subst h
    exact ⟨⟨[], by simp⟩, by simp, by simp, fun i hi => jit_write_mem_lt _ _ _ hi⟩
  | EXPR_FUNCDEF fnname b ih =>
    intro st s1 h
    simp only [jit_codegen] at h
    split at h
    · simp at h
    · rename_i sa ha
      simp only [Except.ok.injEq] at h
      obtain ⟨⟨m1, f1⟩, a1, p1, q1⟩ := ih _ _ ha
      subst h
      simp only [] at f1 a1 p1 q1
      refine ⟨⟨⟨fnname, b, st.jit_pos⟩ :: m1, by simp [f1]⟩, by simp [a1], by simp; omega, ?_⟩
      intro i hi
      rw [jit_write_mem_lt _ _ _ (by simp; omega), jit_write_mem_lt _ _ _ (by omega), q1 i hi]
  | EXPR_FUNCCALL fnname a ih =>
    intro st s1 h
    simp only [jit_codegen] at h
    split at h
    · rename_i f hf
      split at h
      · simp at h
      · rename_i sa ha
        simp only [Except.ok.injEq] at h
        obtain ⟨⟨m1, f1⟩, a1, p1, q1⟩ := ih _ _ ha
        simp only [jit_write_funcs, jit_write_funcarg, jit_write_pos, List.length_cons,
          List.length_nil] at f1 a1 p1 q1
        subst h
        refine ⟨⟨m1, by simp [f1]⟩, by simp [a1], by simp; omega, ?_⟩
        intro i hi
        rw [jit_write_mem_lt _ _ _ (by simp; omega), write_lendian_mem_lt _ _ _ (by simp; omega),
          jit_write_mem_lt _ _ _ (by simp; omega), jit_write_mem_lt _ _ _ (by omega),
          q1 i (by omega), jit_write_mem_lt _ _ _ hi]
    · simp at h
  | EXPR_IF c t f ihc iht ihf =>
    intro st s1 h
    simp only [jit_codegen] at h
    split at h
    · simp at h
    · rename_i sa ha
      split at h
      · simp at h
      · rename_i sb hb
        split at h
        · simp at h
        · rename_i sc hc
          simp only [Except.ok.injEq] at h
          obtain ⟨⟨m1, f1⟩, a1, p1, q1⟩ := ihc _ _ ha
          obtain ⟨⟨m2, f2⟩, a2, p2, q2⟩ := iht _ _ hb
          obtain ⟨⟨m3, f3⟩, a3, p3, q3⟩ := ihf _ _ hc
          simp only [jit_write_funcs, jit_write_funcarg, jit_write_pos, write_lendian_funcs,
            write_lendian_funcarg, write_lendian_pos, List.length_cons,
            List.length_nil] at f2 a2 p2 q2 f3 a3 p3 q3
          subst h
          refine ⟨⟨m1 ++ m2 ++ m3, by simp [f1, f2, f3]⟩, by simp [a1, a2, a3],
            by simp; omega, ?_⟩
          intro i hi
          simp only [jit_write_pos, write_lendian_pos, List.length_cons, List.length_nil]
          rw [fixup_lendian_mem_lt _ _ _ _ (by omega), fixup_lendian_mem_lt _ _ _ _ (by omega),
            q3 i (by omega), write_lendian_mem_lt _ _ _ (by simp; omega),
            jit_write_mem_lt _ _ _ (by omega), q2 i (by omega),
            write_lendian_mem_lt _ _ _ (by simp; omega), jit_write_mem_lt _ _ _ (by simp; omega),
            jit_write_mem_lt _ _ _ (by simp; omega), jit_write_mem_lt _ _ _ (by omega), q1 i hi]
  | EXPR_NOTHING => intro st s1 h; simp [jit_codegen] at h

/-! ## The table only grows -/

theorem nev_funcs_ext {eval : State → Expr → Result}
    (heval : ∀ st e v s1, eval st e = .ok (v, s1) → ∃ more, s1.funcs = st.funcs ++ more)
    (st : State) (e : Expr) (v : Int) (s1 : State)
    (h : normal_eval_with eval st e = .ok (v, s1)) : ∃ more, s1.funcs = st.funcs ++ more := by
  cases e with
  | EXPR_ADD l r =>
    obtain ⟨a, sa, b, h1, h2, _⟩ := nev_add_ok.mp h
    obtain ⟨m1, e1⟩ := heval _ _ _ _ h1
    obtain ⟨m2, e2⟩ := heval _ _ _ _ h2
    exact ⟨m1 ++ m2, by rw [e2, e1, List.append_assoc]⟩
  | EXPR_SUB l r =>
    obtain ⟨a, sa, b, h1, h2, _⟩ := nev_sub_ok.mp h
    obtain ⟨m1, e1⟩ := heval _ _ _ _ h1
    obtain ⟨m2, e2⟩ := heval _ _ _ _ h2
    exact ⟨m1 ++ m2, by rw [e2, e1, List.append_assoc]⟩
  | EXPR_LESSER l r =>
    obtain ⟨a, sa, b, h1, h2, _⟩ := nev_lesser_ok.mp h
    obtain ⟨m1, e1⟩ := heval _ _ _ _ h1
    obtain ⟨m2, e2⟩ := heval _ _ _ _ h2
    exact ⟨m1 ++ m2, by rw [e2, e1, List.append_assoc]⟩
  | EXPR_INT i =>
    simp only [normal_eval_with, Except.ok.injEq, Prod.mk.injEq] at h
    exact ⟨[], by rw [← h.2]; simp⟩
  | EXPR_ARG =>
    simp only [normal_eval_with, Except.ok.injEq, Prod.mk.injEq] at h
    exact ⟨[], by rw [← h.2]; simp⟩
  | EXPR_FUNCDEF fnname b =>
    simp only [normal_eval_with, Except.ok.injEq, Prod.mk.injEq] at h
    exact ⟨[⟨fnname, b, 0⟩], by rw [← h.2]⟩
  | EXPR_FUNCCALL fnname arg =>
    obtain ⟨f, a, sa, sb, _, h1, h2, hs⟩ := nev_call_ok.mp h
    obtain ⟨m1, e1⟩ := heval _ _ _ _ h1
    obtain ⟨m2, e2⟩ := heval _ _ _ _ h2
    simp only [] at e2
    exact ⟨m1 ++ m2, by rw [hs]; simp only []; rw [e2, e1, List.append_assoc]⟩
  | EXPR_IF c t f =>
    obtain ⟨cv, sa, h1, h2 | h2⟩ := nev_if_ok.mp h
    · obtain ⟨m1, e1⟩ := heval _ _ _ _ h1
      obtain ⟨m2, e2⟩ := heval _ _ _ _ h2.2
      exact ⟨m1 ++ m2, by rw [e2, e1, List.append_assoc]⟩
    · obtain ⟨m1, e1⟩ := heval _ _ _ _ h1
      obtain ⟨m2, e2⟩ := heval _ _ _ _ h2.2
      exact ⟨m1 ++ m2, by rw [e2, e1, List.append_assoc]⟩
  | EXPR_NOTHING => simp [normal_eval_with] at h

theorem normal_eval_funcs_ext (n : Nat) : ∀ (st : State) (e : Expr) (v : Int) (s1 : State),
    normal_eval n st e = .ok (v, s1) → ∃ more, s1.funcs = st.funcs ++ more := by
  induction n with
  | zero => intro st e v s1 h; simp [normal_eval] at h
  | succ n ih => intro st e v s1 h; exact nev_funcs_ext ih st e v s1 h

theorem jit_eval_funcs_ext (n : Nat) : ∀ (st : State) (e : Expr) (v : Int) (s1 : State),
    jit_eval n st e = .ok (v, s1) → ∃ more, s1.funcs = st.funcs ++ more := by
  induction n with
  | zero => intro st e v s1 h; simp [jit_eval] at h
  | succ n ih =>
    intro st e v s1 h
    cases e with
    | EXPR_FUNCDEF fnname b =>
      simp only [jit_eval] at h
      split at h
      · simp at h
      · rename_i sa ha
        simp only [Except.ok.injEq, Prod.mk.injEq] at h
        rw [← h.2]
        exact (jit_codegen_frame _ _ _ ha).1
    | EXPR_FUNCCALL fnname arg =>
      simp only [jit_eval] at h
      split at h
      · split at h
        · simp at h
        · rename_i a sa ha
          split at h
          · simp at h
          · simp only [Except.ok.injEq, Prod.mk.injEq] at h
            rw [← h.2]
            exact ih _ _ _ _ ha
      · simp at h
    | EXPR_ADD l r => exact nev_funcs_ext ih st _ v s1 (by simpa only [jit_eval] using h)
    | EXPR_SUB l r => exact nev_funcs_ext ih st _ v s1 (by simpa only [jit_eval] using h)
    | EXPR_LESSER l r => exact nev_funcs_ext ih st _ v s1 (by simpa only [jit_eval] using h)
    | EXPR_INT i => exact nev_funcs_ext ih st _ v s1 (by simpa only [jit_eval] using h)
    | EXPR_ARG => exact nev_funcs_ext ih st _ v s1 (by simpa only [jit_eval] using h)
    | EXPR_IF c t f => exact nev_funcs_ext ih st _ v s1 (by simpa only [jit_eval] using h)
    | EXPR_NOTHING => exact nev_funcs_ext ih st _ v s1 (by simpa only [jit_eval] using h)

theorem jit_codegen_no_funcdef (e : Expr) : ∀ (st s1 : State), no_funcdef e = true →
    jit_codegen st e = .ok s1 → s1.funcs = st.funcs := by
  induction e with
  | EXPR_ADD l r ihl ihr | EXPR_SUB l r ihl ihr | EXPR_LESSER l r ihl ihr =>
    intro st s1 he h
    simp only [no_funcdef, Bool.and_eq_true] at he
    simp only [jit_codegen] at h
    split at h
    · simp at h
    · rename_i sa ha
      split at h
      · simp at h
      · rename_i sb hb
        simp only [Except.ok.injEq] at h
        subst h
        simp [ihl _ _ he.1 ha, ihr _ _ he.2 hb]
  | EXPR_INT v => intro st s1 _ h; simp only [jit_codegen, Except.ok.injEq] at h; subst h; simp
  | EXPR_ARG => intro st s1 _ h; simp only [jit_codegen, Except.ok.injEq] at h; subst h; simp
  | EXPR_FUNCDEF fnname b ih => intro st s1 he; simp [no_funcdef] at he
  | EXPR_FUNCCALL fnname a ih =>
    intro st s1 he h
    simp only [no_funcdef] at he
    simp only [jit_codegen] at h
    split at h
    · split at h
      · simp at h
      · rename_i sa ha
        simp only [Except.ok.injEq] at h
        subst h
        simp [ih _ _ he ha]
    · simp at h
  | EXPR_IF c t f ihc iht ihf =>
    intro st s1 he h
    simp only [no_funcdef, Bool.and_eq_true] at he
    simp only [jit_codegen] at h
    split at h
    · simp at h
    · rename_i sa ha
      split at h
      · simp at h
      · rename_i sb hb
        split at h
        · simp at h
        · rename_i sc hc
          simp only [Except.ok.injEq] at h
          subst h
          simp [ihc _ _ he.1.1 ha, iht _ _ he.1.2 hb, ihf _ _ he.2 hc]
  | EXPR_NOTHING => intro st s1 _ h; simp [jit_codegen] at h

/-! ## C4: dot-preservation within the table's capacity -/

/-- Dot-preservation, the property of C4, for evaluations inside the table: for
every expression, table and value of `funcarg`, whenever `normal_eval` returns
a value and the table then has at most the 1000 entries of `funcs`, every
definition evaluated on the way was stored inside the array (the table at entry
is an initial segment of the table at the end), and `funcarg` has the value it
had before the evaluation. A definition at `funcnum = 1000` is outside this
statement: its store `funcs[1000]` is past the end of the array. -/
theorem normal_eval_funcarg (fuel : Nat) (st : State) (e : Expr) (v : Int) (st1 : State)
    (h : normal_eval fuel st e = .ok (v, st1)) (hcap : st1.funcs.length ≤ FUNCS_SIZE) :
    st.funcs.length ≤ FUNCS_SIZE ∧ st1.funcarg = st.funcarg := by
  obtain ⟨more, hm⟩ := normal_eval_funcs_ext fuel st e v st1 h
  refine ⟨?_, normal_eval_funcarg_aux fuel st e v st1 h⟩
  rw [hm, List.length_append] at hcap
  omega

/-- The witness of C4: `g.10` evaluates to 12 and leaves `funcarg` as it was. -/
theorem normal_eval_funcarg_witness :
    normal_eval 6 fg_state (EXPR_FUNCCALL "g" (EXPR_INT 10)) = .ok (12, fg_state) ∧
      fg_state.funcs.length ≤ FUNCS_SIZE ∧ fg_state.funcarg = fg_state.funcarg :=
  ⟨rfl, normal_eval_funcarg 6 fg_state (EXPR_FUNCCALL "g" (EXPR_INT 10)) 12 fg_state rfl
    (by decide)⟩

/-! ## C8: definitions -/

/-- C8, as the code has it; every part is for stores inside `funcs` and inside
the arena. In the interpreter a definition on a table of fewer than 1000
entries returns 0 and appends exactly the entry `(fnname, fnbody)` at index
`funcnum`. In the JIT build `jit_eval` returns 0 whenever `jit_codegen`
succeeds on the body with the table within its 1000 entries and the code
within the arena; then the entry at index `funcnum` is
`(fnname, fnbody, jit_pos at registration)`, and it is the only entry appended
when the body contains no `FuncDef`. Whenever `normal_eval`, `jit_eval` or
`jit_codegen` returns within those bounds, the table before is an initial
segment of the table after. -/
theorem funcdef_appends (fuel : Nat) (st : State) (fnname : String) (fnbody : Expr) :
    (st.funcs.length < FUNCS_SIZE →
      normal_eval (fuel + 1) st (EXPR_FUNCDEF fnname fnbody)
        = .ok (0, { st with funcs := st.funcs ++ [⟨fnname, fnbody, 0⟩] })) ∧
    (∀ s, jit_codegen { st with funcs := st.funcs ++ [⟨fnname, fnbody, st.jit_pos⟩] } fnbody
        = .ok s →
      s.funcs.length ≤ FUNCS_SIZE → s.jit_pos + 2 ≤ ARENA_SIZE →
      jit_eval (fuel + 1) st (EXPR_FUNCDEF fnname fnbody)
        = .ok (0, jit_write (jit_write s [0x58]) [0xc3])) ∧
    (∀ v s1, jit_eval (fuel + 1) st (EXPR_FUNCDEF fnname fnbody) = .ok (v, s1) →
      s1.funcs.length ≤ FUNCS_SIZE → s1.jit_pos ≤ ARENA_SIZE →
      v = 0 ∧ ∃ more, s1.funcs = st.funcs ++ ⟨fnname, fnbody, st.jit_pos⟩ :: more ∧
        (no_funcdef fnbody = true → more = [])) ∧
    (∀ e v s1, normal_eval fuel st e = .ok (v, s1) → s1.funcs.length ≤ FUNCS_SIZE →
      ∃ more, s1.funcs = st.funcs ++ more) ∧
    (∀ e v s1, jit_eval fuel st e = .ok (v, s1) → s1.funcs.length ≤ FUNCS_SIZE →
      s1.jit_pos ≤ ARENA_SIZE → ∃ more, s1.funcs = st.funcs ++ more) ∧
    (∀ e s1, jit_codegen st e = .ok s1 → s1.funcs.length ≤ FUNCS_SIZE →
      s1.jit_pos ≤ ARENA_SIZE → ∃ more, s1.funcs = st.funcs ++ more) := by
  refine ⟨fun _ => rfl, ?_, ?_, fun e v s1 h _ => normal_eval_funcs_ext fuel st e v s1 h,
    fun e v s1 h _ _ => jit_eval_funcs_ext fuel st e v s1 h,
    fun e s1 h _ _ => (jit_codegen_frame e st s1 h).1⟩
  · intro s hs _ _
    simp only [jit_eval, jit_codegen, hs]
  · intro v s1 h _ _
    simp only [jit_eval, jit_codegen] at h
    split at h
    · simp at h
    · rename_i sa ha
      split at ha
      · simp at ha
      · rename_i sb hb
        simp only [Except.ok.injEq] at ha
        simp only [Except.ok.injEq, Prod.mk.injEq] at h
        obtain ⟨m, hm⟩ := (jit_codegen_frame _ _ _ hb).1
        simp only [] at hm
        refine ⟨h.1.symm, m, ?_, ?_⟩
        · rw [← h.2, ← ha]; simp [hm]
        · intro hnf
          have := jit_codegen_no_funcdef _ _ _ hnf hb
          simp only [] at this
          rw [this] at hm
          have h2 := congrArg List.length hm
          simp only [List.length_append, List.length_cons, List.length_nil] at h2
          exact List.eq_nil_of_length_eq_zero (by omega)

/-- Witness for C8: `sq = . + .` on the initial state in the JIT build returns
0 and the table becomes the one entry `sq` with offset 0. -/
theorem funcdef_appends_witness :
    ∃ more, (jit_write (jit_write (jit_write (jit_write (jit_write
        { State.init with funcs := State.init.funcs
            ++ [⟨"sq", EXPR_ADD EXPR_ARG EXPR_ARG, State.init.jit_pos⟩] }
        [0x41, 0x50]) [0x41, 0x50]) [0x59, 0x58, 0x48, 0x01, 0xc8, 0x50]) [0x58]) [0xc3]).funcs
      = State.init.funcs ++ ⟨"sq", EXPR_ADD EXPR_ARG EXPR_ARG, State.init.jit_pos⟩ :: more ∧
        (no_funcdef (EXPR_ADD EXPR_ARG EXPR_ARG) = true → more = []) :=
  ((funcdef_appends 0 State.init "sq" (EXPR_ADD EXPR_ARG EXPR_ARG)).2.2.1 0 _ rfl
    (by decide) (by decide)).2

/-- Counterexample to C8 as stated: in the JIT build the definition
`f = g.1` on the empty table is a fatal error instead of returning 0, and the
definition `h = (g = 1)` appends two entries. -/
theorem funcdef_jit_counterexample :
    (∃ s, jit_eval 1 State.init (EXPR_FUNCDEF "f" (EXPR_FUNCCALL "g" (EXPR_INT 1)))
      = .error (Err.undeclared "g", s)) ∧
    (∃ s, jit_eval 1 State.init (EXPR_FUNCDEF "h" (EXPR_FUNCDEF "g" (EXPR_INT 1))) = .ok (0, s) ∧
      s.funcs.length = 2) :=
  ⟨⟨_, rfl⟩, ⟨_, rfl, rfl⟩⟩

/-! ## C9: the undeclared-function error -/

theorem run_error (mem : Nat → Nat) (n : Nat) : ∀ (m : Machine) (x : Err),
    run mem n m = .error x → x = Err.fuel ∨ x = Err.fault := by
  induction n with
  | zero => intro m x h; simp only [run, Except.error.injEq] at h; exact Or.inl h.symm
  | succ n ih =>
    intro m x h
    simp only [run] at h
    split at h
    · simp at h
    · split at h
      · simp only [Except.error.injEq] at h; exact Or.inr h.symm
      · exact ih _ _ h

theorem jit_call_error (fuel : Nat) (mem : Nat → Nat) (funcp : Nat) (arg : Int) (x : Err)
    (h : jit_call fuel mem funcp arg = .error x) : x = Err.fuel ∨ x = Err.fault := by
  simp only [jit_call] at h
  split at h
  · rename_i y hy
    simp only [Except.error.injEq] at h
    subst h
    exact run_error _ _ _ _ hy
  · simp at h

theorem nev_not_undeclared {eval : State → Expr → Result} (fnname : String)
    (hext : ∀ st e v s1, eval st e = .ok (v, s1) → ∃ more, s1.funcs = st.funcs ++ more)
    (heval : ∀ st e, (∃ f, find_func st.funcs fnname = some f) →
      ∀ s, eval st e ≠ .error (Err.undeclared fnname, s))
    (st : State) (e : Expr) (hst : ∃ f, find_func st.funcs fnname = some f) (s : State) :
    normal_eval_with eval st e ≠ .error (Err.undeclared fnname, s) := by
  have keep : ∀ (sa sb : State) (e1 : Expr) (v : Int),
      (∃ f, find_func sa.funcs fnname = some f) → eval sa e1 = .ok (v, sb) →
      ∃ f, find_func sb.funcs fnname = some f := by
    intro sa sb e1 v ⟨f, hf⟩ h
    obtain ⟨m, hm⟩ := hext _ _ _ _ h
    exact ⟨f, by rw [hm]; exact find_func_append hf m⟩
  intro h
  cases e with
  | EXPR_ADD l r | EXPR_SUB l r | EXPR_LESSER l r =>
    simp only [normal_eval_with] at h
    split at h
    · rename_i x hx
      simp only [Except.error.injEq] at h
      exact heval st l hst s (by rw [hx, h])
    · rename_i a sa ha
      split at h
      · rename_i x hx
        simp only [Except.error.injEq] at h
        exact heval sa r (keep _ _ _ _ hst ha) s (by rw [hx, h])
      · simp at h
  | EXPR_INT i => simp [normal_eval_with] at h
  | EXPR_ARG => simp [normal_eval_with] at h
  | EXPR_FUNCDEF g b => simp [normal_eval_with] at h
  | EXPR_FUNCCALL g arg =>
    simp only [normal_eval_with] at h
    split at h
    · rename_i f hf
      split at h
      · rename_i x hx
        simp only [Except.error.injEq] at h
        exact heval st arg hst s (by rw [hx, h])
      · rename_i a sa ha
        split at h
        · rename_i x hx
          simp only [Except.error.injEq] at h
          exact heval { sa with funcarg := a } f.fnexpr (keep st sa arg a hst ha) s
            (by rw [hx, h])
        · simp at h
    · rename_i hnone
      simp only [Except.error.injEq, Prod.mk.injEq, Err.undeclared.injEq] at h
      obtain ⟨f, hf⟩ := hst
      rw [h.1, hf] at hnone
      simp at hnone
  | EXPR_IF c t f =>
    simp only [normal_eval_with] at h
    split at h
    · rename_i x hx
      simp only [Except.error.injEq] at h
      exact heval st c hst s (by rw [hx, h])
    · rename_i cv sa ha
      split at h
      · exact heval sa t (keep _ _ _ _ hst ha) s h
      · exact heval sa f (keep _ _ _ _ hst ha) s h
  | EXPR_NOTHING => simp [normal_eval_with] at h

theorem normal_eval_not_undeclared (fnname : String) (n : Nat) : ∀ (st : State) (e : Expr),
    (∃ f, find_func st.funcs fnname = some f) →
    ∀ s, normal_eval n st e ≠ .error (Err.undeclared fnname, s) := by
  induction n with
  | zero => intro st e _ s h; simp [normal_eval] at h
  | succ n ih =>
    intro st e hst s
    exact nev_not_undeclared fnname (normal_eval_funcs_ext n) ih st e hst s

theorem jit_codegen_not_undeclared (fnname : String) (e : Expr) : ∀ (st : State),
    (∃ f, find_func st.funcs fnname = some f) →
    ∀ s, jit_codegen st e ≠ .error (Err.undeclared fnname, s) := by
  have keep : ∀ (sa sb : State) (e1 : Expr),
      (∃ f, find_func sa.funcs fnname = some f) → jit_codegen sa e1 = .ok sb →
      ∃ f, find_func sb.funcs fnname = some f := by
    intro sa sb e1 ⟨f, hf⟩ h
    obtain ⟨m, hm⟩ := (jit_codegen_frame _ _ _ h).1
    exact ⟨f, by rw [hm]; exact find_func_append hf m⟩
  induction e with
  | EXPR_ADD l r ihl ihr | EXPR_SUB l r ihl ihr | EXPR_LESSER l r ihl ihr =>
    intro st hst s h
    simp only [jit_codegen] at h
    split at h
    · rename_i x hx
      simp only [Except.error.injEq] at h
      exact ihl st hst s (by rw [hx, h])
    · rename_i sa ha
      split at h
      · rename_i x hx
        simp only [Except.error.injEq] at h
        exact ihr sa (keep _ _ _ hst ha) s (by rw [hx, h])
      · simp at h
  | EXPR_INT i => intro st _ s h; simp [jit_codegen] at h
  | EXPR_ARG => intro st _ s h; simp [jit_codegen] at h
  | EXPR_FUNCDEF g b ih =>
    intro st hst s h
    simp only [jit_codegen] at h
    split at h
    · rename_i x hx
      simp only [Except.error.injEq] at h
      obtain ⟨f, hf⟩ := hst
      exact ih { st with funcs := st.funcs ++ [⟨g, b, st.jit_pos⟩] }
        ⟨f, find_func_append hf _⟩ s (by rw [hx, h])
    · simp at h
  | EXPR_FUNCCALL g arg ih =>
    intro st hst s h
    simp only [jit_codegen] at h
    split at h
    · split at h
      · rename_i x hx
        simp only [Except.error.injEq] at h
        exact ih (jit_write st [0x41, 0x50]) (by simpa using hst) s (by rw [hx, h])
      · simp at h
    · rename_i hnone
      simp only [Except.error.injEq, Prod.mk.injEq, Err.undeclared.injEq] at h
      obtain ⟨f, hf⟩ := hst
      rw [h.1, hf] at hnone
      simp at hnone
  | EXPR_IF c t f ihc iht ihf =>
    intro st hst s h
    simp only [jit_codegen] at h
    split at h
    · rename_i x hx
      simp only [Except.error.injEq] at h
      exact ihc st hst s (by rw [hx, h])
    · rename_i sa ha
      have hsa := keep _ _ _ hst ha
      split at h
      · rename_i x hx
        simp only [Except.error.injEq] at h
        exact iht (write_lendian
          (jit_write (jit_write (jit_write sa [0x58]) [0x48, 0x83, 0xf8, 0x00]) [0x0f, 0x84]) 0)
          (by simpa using hsa) s (by rw [hx, h])
      · rename_i sb hb
        have hsb := keep _ _ _ (by simpa using hsa) hb
        split at h
        · rename_i x hx
          simp only [Except.error.injEq] at h
          exact ihf (write_lendian (jit_write sb [0xe9]) 0) (by simpa using hsb) s
            (by rw [hx, h])
        · simp at h
  | EXPR_NOTHING => intro st _ s h; simp [jit_codegen] at h

theorem jit_eval_not_undeclared (fnname : String) (n : Nat) : ∀ (st : State) (e : Expr),
    (∃ f, find_func st.funcs fnname = some f) →
    ∀ s, jit_eval n st e ≠ .error (Err.undeclared fnname, s) := by
  induction n with
  | zero => intro st e _ s h; simp [jit_eval] at h
  | succ n ih =>
    intro st e hst s
    have gen := nev_not_undeclared fnname (jit_eval_funcs_ext n) ih st
    cases e with
    | EXPR_FUNCDEF g b =>
      intro h
      simp only [jit_eval] at h
      split at h
      · rename_i x hx
        simp only [Except.error.injEq] at h
        exact jit_codegen_not_undeclared fnname _ st hst s (by rw [hx, h])
      · simp at h
    | EXPR_FUNCCALL g arg =>
      intro h
      simp only [jit_eval] at h
      split at h
      · split at h
        · rename_i x hx
          simp only [Except.error.injEq] at h
          exact ih st arg hst s (by rw [hx, h])
        · rename_i a sa ha
          split at h
          · rename_i x hx
            simp only [Except.error.injEq, Prod.mk.injEq] at h
            rcases jit_call_error _ _ _ _ _ hx with hx2 | hx2 <;> rw [hx2] at h <;> simp at h
          · simp at h
      · rename_i hnone
        simp only [Except.error.injEq, Prod.mk.injEq, Err.undeclared.injEq] at h
        obtain ⟨f, hf⟩ := hst
        rw [h.1, hf] at hnone
        simp at hnone
    | EXPR_ADD l r => simpa only [jit_eval] using gen _ hst s
    | EXPR_SUB l r => simpa only [jit_eval] using gen _ hst s
    | EXPR_LESSER l r => simpa only [jit_eval] using gen _ hst s
    | EXPR_INT i => simpa only [jit_eval] using gen _ hst s
    | EXPR_ARG => simpa only [jit_eval] using gen _ hst s
    | EXPR_IF c t f => simpa only [jit_eval] using gen _ hst s
    | EXPR_NOTHING => simpa only [jit_eval] using gen _ hst s

/-- C9. A call `FuncCall(fnname, callarg)` ends in the fatal error
`undeclared fnname function` exactly when no table entry is named `fnname` when
the node is reached, in `normal_eval`, `jit_eval` and `jit_codegen` alike. In
the error case the exit happens in the state in which the node was reached
(table, `funcarg`, arena and `jit_pos` untouched, `callarg` neither evaluated
nor compiled); when an entry is named `fnname`, no outcome of the node is that
error. -/
theorem undeclared_iff (fuel : Nat) (st : State) (fnname : String) (callarg : Expr) :
    ((∀ g ∈ st.funcs, g.name ≠ fnname) →
      normal_eval (fuel + 1) st (EXPR_FUNCCALL fnname callarg)
          = .error (Err.undeclared fnname, st) ∧
        jit_eval (fuel + 1) st (EXPR_FUNCCALL fnname callarg)
          = .error (Err.undeclared fnname, st) ∧
        jit_codegen st (EXPR_FUNCCALL fnname callarg) = .error (Err.undeclared fnname, st)) ∧
    ((∃ g ∈ st.funcs, g.name = fnname) → ∀ s,
      normal_eval (fuel + 1) st (EXPR_FUNCCALL fnname callarg)
          ≠ .error (Err.undeclared fnname, s) ∧
        jit_eval (fuel + 1) st (EXPR_FUNCCALL fnname callarg)
          ≠ .error (Err.undeclared fnname, s) ∧
        jit_codegen st (EXPR_FUNCCALL fnname callarg) ≠ .error (Err.undeclared fnname, s)) := by
  constructor
  · intro habs
    have hnone := find_func_none.mpr habs
    refine ⟨?_, ?_, ?_⟩
    · simp only [normal_eval, normal_eval_with, hnone]
    · simp only [jit_eval, hnone]
    · simp only [jit_codegen, hnone]
  · rintro ⟨g, hg, hname⟩ s
    have hsome : ∃ f, find_func st.funcs fnname = some f := by
      cases hf : find_func st.funcs fnname with
      | none => exact absurd hname (find_func_none.mp hf g hg)
      | some f => exact ⟨f, rfl⟩
    exact ⟨normal_eval_not_undeclared fnname _ st _ hsome s,
      jit_eval_not_undeclared fnname _ st _ hsome s,
      jit_codegen_not_undeclared fnname _ st hsome s⟩

/-- Witness for C9: `g.(f = 1)` on the empty table is the error `undeclared g`
in the initial state (the definition in the argument is not registered), and
`sq.(g.0)` on the table holding only `sq` does not end in `undeclared sq`. -/
theorem undeclared_iff_witness :
    (normal_eval 1 State.init (EXPR_FUNCCALL "g" (EXPR_FUNCDEF "f" (EXPR_INT 1)))
        = .error (Err.undeclared "g", State.init) ∧
      jit_eval 1 State.init (EXPR_FUNCCALL "g" (EXPR_FUNCDEF "f" (EXPR_INT 1)))
        = .error (Err.undeclared "g", State.init) ∧
      jit_codegen State.init (EXPR_FUNCCALL "g" (EXPR_FUNCDEF "f" (EXPR_INT 1)))
        = .error (Err.undeclared "g", State.init)) ∧
    (normal_eval 1 sq_state (EXPR_FUNCCALL "sq" (EXPR_FUNCCALL "g" (EXPR_INT 0)))
        ≠ .error (Err.undeclared "sq", sq_state) ∧
      jit_eval 1 sq_state (EXPR_FUNCCALL "sq" (EXPR_FUNCCALL "g" (EXPR_INT 0)))
        ≠ .error (Err.undeclared "sq", sq_state) ∧
      jit_codegen sq_state (EXPR_FUNCCALL "sq" (EXPR_FUNCCALL "g" (EXPR_INT 0)))
        ≠ .error (Err.undeclared "sq", sq_state)) :=
  ⟨(undeclared_iff 0 State.init "g" (EXPR_FUNCDEF "f" (EXPR_INT 1))).1
      (fun _ h => absurd h (List.not_mem_nil _)),
   (undeclared_iff 0 sq_state "sq" (EXPR_FUNCCALL "g" (EXPR_INT 0))).2
      ⟨⟨"sq", EXPR_ADD EXPR_ARG EXPR_ARG, 0⟩, List.mem_cons_self _ _, rfl⟩ sq_state⟩

/-! ## The lexer on spaces, operators and literals -/

theorem lex_spaces (n : Nat) (rest : List Char) : lex (spaces n ++ rest) = lex rest := by
  induction n with
  | zero => rfl
  | succ n ih =>
    have : spaces (n + 1) ++ rest = ' ' :: (spaces n ++ rest) := by
      simp [spaces, List.replicate_succ]
    rw [this]
    simp only [lex, if_true]
    exact ih

theorem lex_op (n : Nat) (op : BinOp) (rest : List Char) :
    lex (spaces n ++ (op.char :: rest)) =
      (match op with
        | .plus => TOKEN_PLUS
        | .minus => TOKEN_MINUS
        | .lesser => TOKEN_LESSER, rest) := by
  rw [lex_spaces]
  cases op <;> rfl

theorem lex_newline (n : Nat) (rest : List Char) :
    lex (spaces n ++ ('\n' :: rest)) = (TOKEN_NOTHING, rest) := by
  rw [lex_spaces]; rfl

theorem lex_run_all (p : Char → Bool) (ds : List Char) : ∀ (m : Nat) (rest : List Char),
    (∀ c ∈ ds, p c = true) → ds.length ≤ m →
    (∀ c r, rest = c :: r → p c = false ∧ c ≠ '\xff') →
    lex_run p m (ds ++ rest) = (ds, rest) := by
  induction ds with
  | nil =>
    intro m rest _ _ hrest
    cases m with
    | zero => rfl
    | succ m =>
      cases rest with
      | nil => rfl
      | cons c r => simp [lex_run, (hrest c r rfl).1, (hrest c r rfl).2]
  | cons d ds ih =>
    intro m rest hd hlen hrest
    cases m with
    | zero => simp at hlen
    | succ m =>
      simp only [List.length_cons, Nat.add_le_add_iff_right] at hlen
      have h1 : p d = true := hd d (List.mem_cons_self _ _)
      have h2 := ih m rest (fun c hc => hd c (List.mem_cons_of_mem _ hc)) hlen hrest
      simp [lex_run, h1, h2]

theorem lex_intlit (n : Nat) (ds rest : List Char) (hlit : is_literal ds)
    (hrest : ∀ c r, rest = c :: r → c.isDigit = false ∧ c ≠ '\xff') :
    lex (spaces n ++ (ds ++ rest)) = (TOKEN_INTLIT (strtoll ds), rest) := by
  obtain ⟨hne, hlen, hd⟩ := hlit
  rw [lex_spaces]
  cases ds with
  | nil => exact absurd rfl hne
  | cons d ds =>
    have h1 : d.isDigit = true := hd d (List.mem_cons_self _ _)
    have hrun := lex_run_all Char.isDigit ds 254 rest
      (fun c hc => hd c (List.mem_cons_of_mem _ hc))
      (by simp only [List.length_cons] at hlen; omega) hrest
    have ne : ∀ c : Char, c.isDigit = false → d ≠ c := by
      intro c hc hdc; rw [hdc, hc] at h1; exact Bool.noConfusion h1
    rw [List.cons_append]
    simp only [lex, if_neg (ne ' ' (by decide)), if_neg (ne ';' (by decide)),
      if_neg (ne '\n' (by decide)), if_neg (ne '+' (by decide)), if_neg (ne '-' (by decide)),
      if_neg (ne '<' (by decide)), if_neg (ne '=' (by decide)), if_neg (ne '.' (by decide)),
      if_neg (ne '(' (by decide)), if_neg (ne ')' (by decide)), h1, if_true, hrun]

theorem chain_text_head (chain : List ChainItem) (n : Nat) (rest : List Char) :
    ∀ c r, chain_text chain (spaces n ++ ('\n' :: rest)) = c :: r →
      c.isDigit = false ∧ c ≠ '\xff' := by
  intro c r h
  cases chain with
  | nil =>
    cases n with
    | zero =>
      simp only [chain_text, spaces, List.replicate_zero, List.nil_append,
        List.cons.injEq] at h
      rw [← h.1]; decide
    | succ n =>
      simp only [chain_text, spaces, List.replicate_succ, List.cons_append,
        List.cons.injEq] at h
      rw [← h.1]; decide
  | cons it more =>
    cases hs : it.sp_op with
    | zero =>
      simp only [chain_text, hs, spaces, List.replicate_zero, List.nil_append,
        List.cons.injEq] at h
      rw [← h.1]
      cases it.op <;> decide
    | succ k =>
      simp only [chain_text, hs, spaces, List.replicate_succ, List.cons_append,
        List.cons.injEq] at h
      rw [← h.1]; decide

/-! ## C5: one precedence level, left-associative -/

theorem parse_intlit_literal (fuel n : Nat) (ds rest : List Char) (hlit : is_literal ds)
    (hrest : ∀ c r, rest = c :: r → c.isDigit = false ∧ c ≠ '\xff') :
    parse_intlit (fuel + 1) (spaces n ++ (ds ++ rest)) = .ok (EXPR_INT (strtoll ds), rest) := by
  simp only [parse_intlit, lex_intlit n ds rest hlit hrest]

theorem parse_loop_chain (chain : List ChainItem) : ∀ (fuel : Nat) (l : Expr) (n : Nat)
    (rest : List Char), chain.length + 2 ≤ fuel → (∀ it ∈ chain, is_literal it.digits) →
    parse_loop fuel l (chain_text chain (spaces n ++ ('\n' :: rest)))
      = .ok (chain_tree l chain, rest) := by
  induction chain with
  | nil =>
    intro fuel l n rest hfuel _
    obtain ⟨k, rfl⟩ : ∃ k, fuel = k + 1 := ⟨fuel - 1, by simp only [List.length_nil] at hfuel; omega⟩
    simp only [chain_text, parse_loop, lex_newline, chain_tree]
  | cons it more ih =>
    intro fuel l n rest hfuel hlit
    simp only [List.length_cons] at hfuel
    obtain ⟨k, rfl⟩ : ∃ k, fuel = k + 2 := ⟨fuel - 2, by omega⟩
    have h1 := parse_intlit_literal k it.sp_lit it.digits
      (chain_text more (spaces n ++ ('\n' :: rest))) (hlit it (List.mem_cons_self _ _))
      (chain_text_head more n rest)
    have h2 := ih (k + 1) (it.op.node l (EXPR_INT (strtoll it.digits))) n rest (by omega)
      (fun x hx => hlit x (List.mem_cons_of_mem _ hx))
    simp only [chain_text, chain_tree]
    rw [parse_loop, lex_op]
    cases hop : it.op <;> simp only [hop, BinOp.node] at h2 ⊢ <;> rw [h1] <;> exact h2

theorem wrap64_sub_wrap64 (x c : Int) : wrap64 (wrap64 x - c) = wrap64 (x - c) := by
  simp only [wrap64]; omega

/-- C5, as the code has it. For every `k ≥ 0`, operators `op_1 .. op_k` from
`+ - <` and literals `p_0 .. p_k`, each a run of 1 to 255 digits, the input
`p_0 op_1 p_1 ... op_k p_k` followed by a newline (any number of spaces before
each token) parses to the left-nested tree `((p_0 op_1 p_1) op_2 p_2) ... op_k p_k`
and leaves the text after the newline unread. For `a - b - c` that tree is
`Sub(Sub(Int a, Int b), Int c)` and it evaluates to `(a - b) - c` in wrap-around
64-bit arithmetic, `a`, `b`, `c` being the values `lex` gives the literals. -/
theorem parse_left_assoc (fuel s0 sN : Nat) (p0 : List Char) (chain : List ChainItem)
    (rest : List Char) (hfuel : chain.length + 3 ≤ fuel) (h0 : is_literal p0)
    (hchain : ∀ it ∈ chain, is_literal it.digits) :
    parse fuel (spaces s0 ++ (p0 ++ chain_text chain (spaces sN ++ ('\n' :: rest))))
      = .ok (chain_tree (EXPR_INT (strtoll p0)) chain, rest) ∧
    (∀ (st : State) (b c : ChainItem), chain = [b, c] → b.op = BinOp.minus →
      c.op = BinOp.minus →
      chain_tree (EXPR_INT (strtoll p0)) chain
        = EXPR_SUB (EXPR_SUB (EXPR_INT (strtoll p0)) (EXPR_INT (strtoll b.digits)))
            (EXPR_INT (strtoll c.digits)) ∧
      normal_eval 3 st (chain_tree (EXPR_INT (strtoll p0)) chain)
        = .ok (wrap64 (strtoll p0 - strtoll b.digits - strtoll c.digits), st)) := by
  constructor
  · obtain ⟨k, rfl⟩ : ∃ k, fuel = k + 2 := ⟨fuel - 2, by omega⟩
    have h1 := parse_intlit_literal k s0 p0 (chain_text chain (spaces sN ++ ('\n' :: rest))) h0
      (chain_text_head chain sN rest)
    have h2 := parse_loop_chain chain (k + 1) (EXPR_INT (strtoll p0)) sN rest (by omega) hchain
    rw [parse, h1]
    exact h2
  · intro st b c hbc hb hc
    subst hbc
    simp only [chain_tree, hb, hc, BinOp.node, normal_eval, normal_eval_with,
      wrap64_sub_wrap64, true_and]

/-- Witness for C5: `3 - 1 - 1` parses to `Sub(Sub(Int 3, Int 1), Int 1)`, which
evaluates to 1. -/
theorem parse_left_assoc_witness :
    parse 5 "3 - 1 - 1\n".toList
        = .ok (EXPR_SUB (EXPR_SUB (EXPR_INT 3) (EXPR_INT 1)) (EXPR_INT 1), []) ∧
      normal_eval 3 State.init (EXPR_SUB (EXPR_SUB (EXPR_INT 3) (EXPR_INT 1)) (EXPR_INT 1))
        = .ok (1, State.init) :=
  ⟨(parse_left_assoc 5 0 0 ['3'] [⟨1, BinOp.minus, 1, ['1']⟩, ⟨1, BinOp.minus, 1, ['1']⟩] [] (by decide)
      (by decide) (by decide)).1,
   ((parse_left_assoc 5 0 0 ['3'] [⟨1, BinOp.minus, 1, ['1']⟩, ⟨1, BinOp.minus, 1, ['1']⟩] []
      (by decide) (by decide) (by decide)).2 State.init _ _ rfl rfl rfl).2⟩

set_option maxRecDepth 100000 in
/-- Counterexample to C5 as stated: for `k = 0` and a literal `p_0` of 256
digits followed by a newline, `parse` does not return `Int p_0` but ends in the
failed assertion of its loop, because `lex` cuts the digit run after 255
characters and the loop then reads a literal where it wants an operator. -/
theorem parse_long_literal_counterexample :
    parse 5 (List.replicate 256 '1' ++ ['\n']) = .error Err.assertion := by
  rfl

/-! ## C10: an identifier followed by neither `=` nor `.` -/

/-- C10. When `parse_intlit` reads an identifier other than `if` and the token
after it is neither `=` nor `.`, it ends in the fatal `assert(false)`; so does
the `parse` that called it, and no tree is returned. -/
theorem parse_misuse_fatal (fuel : Nat) (inp r1 r2 : List Char) (t : String) (tok : Token)
    (hlex : lex inp = (TOKEN_IDENT t, r1)) (hif : t ≠ "if") (hnext : lex r1 = (tok, r2))
    (heq : tok ≠ TOKEN_EQ) (hdot : tok ≠ TOKEN_DOT) :
    parse_intlit (fuel + 1) inp = .error Err.assertion ∧
      parse (fuel + 2) inp = .error Err.assertion := by
  have h1 : parse_intlit (fuel + 1) inp = .error Err.assertion := by
    simp only [parse_intlit, hlex, hif, if_false, hnext]
    cases tok <;> simp_all
  exact ⟨h1, by rw [parse, h1]⟩

/-- Witness for C10: the input `x + 1`. -/
theorem parse_misuse_fatal_witness :
    parse_intlit 1 "x + 1\n".toList = .error Err.assertion ∧
      parse 2 "x + 1\n".toList = .error Err.assertion :=
  parse_misuse_fatal 0 "x + 1\n".toList " + 1\n".toList " 1\n".toList "x" TOKEN_PLUS
    (by decide) (by decide) (by decide) (by decide) (by decide)

/-- The byte 0xFF right after an identifier is dropped by `lex`, so the token
after `x` in `x\xff= 1` is `=` and the line is the definition `x = 1`; C10 is
about inputs where that next token is neither `=` nor `.`. -/
theorem lex_ident_byte_ff :
    lex "x\xff= 1\n".toList = (TOKEN_IDENT "x", "= 1\n".toList) ∧
    parse 5 "x\xff= 1\n".toList = .ok (EXPR_FUNCDEF "x" (EXPR_INT 1), []) := by
  refine ⟨by decide, by rfl⟩

/-! ## The processor, one instruction at a time -/

theorem step_push_rax (mem : Nat → Nat) (m : Machine) (p : Nat)
    (hpc : m.pc = (p : Int)) (hp : p < ARENA_SIZE) (h0 : mem p = 0x50) :
    step mem m = some { m with pc := (p : Int) + 1, stack := m.rax :: m.stack } := by
  simp [step, fetch, hpc, h0, hp]

theorem step_pop_rax (mem : Nat → Nat) (m : Machine) (p : Nat) (v : Int) (s : List Int)
    (hpc : m.pc = (p : Int)) (hp : p < ARENA_SIZE) (h0 : mem p = 0x58) (hs : m.stack = v :: s) :
    step mem m = some { m with pc := (p : Int) + 1, rax := v, stack := s } := by
  simp [step, fetch, hpc, h0, hp, hs]

theorem step_pop_rcx (mem : Nat → Nat) (m : Machine) (p : Nat) (v : Int) (s : List Int)
    (hpc : m.pc = (p : Int)) (hp : p < ARENA_SIZE) (h0 : mem p = 0x59) (hs : m.stack = v :: s) :
    step mem m = some { m with pc := (p : Int) + 1, rcx := v, stack := s } := by
  simp [step, fetch, hpc, h0, hp, hs]

theorem step_push_imm (mem : Nat → Nat) (m : Machine) (p : Nat)
    (hpc : m.pc = (p : Int)) (hp : p < ARENA_SIZE) (h0 : mem p = 0x68) :
    step mem m = some { m with pc := (p : Int) + 5, stack := imm32 mem p 1 :: m.stack } := by
  simp [step, fetch, hpc, h0, hp]

theorem step_ret (mem : Nat → Nat) (m : Machine) (p : Nat) (v : Int) (s : List Int)
    (hpc : m.pc = (p : Int)) (hp : p < ARENA_SIZE) (h0 : mem p = 0xc3) (hs : m.stack = v :: s) :
    step mem m = some { m with pc := v, stack := s } := by
  simp [step, fetch, hpc, h0, hp, hs]

theorem step_call (mem : Nat → Nat) (m : Machine) (p : Nat)
    (hpc : m.pc = (p : Int)) (hp : p < ARENA_SIZE) (h0 : mem p = 0xe8) :
    step mem m = some { m with pc := (p : Int) + 5 + imm32 mem p 1,
                               stack := ((p : Int) + 5) :: m.stack } := by
  simp [step, fetch, hpc, h0, hp]

theorem step_jmp (mem : Nat → Nat) (m : Machine) (p : Nat)
    (hpc : m.pc = (p : Int)) (hp : p < ARENA_SIZE) (h0 : mem p = 0xe9) :
    step mem m = some { m with pc := (p : Int) + 5 + imm32 mem p 1 } := by
  simp [step, fetch, hpc, h0, hp]

theorem step_push_r8 (mem : Nat → Nat) (m : Machine) (p : Nat)
    (hpc : m.pc = (p : Int)) (hp : p < ARENA_SIZE) (h0 : mem p = 0x41) (h1 : mem (p + 1) = 0x50) :
    step mem m = some { m with pc := (p : Int) + 2, stack := m.r8 :: m.stack } := by
  simp [step, fetch, hpc, h0, h1, hp]

theorem step_pop_r8 (mem : Nat → Nat) (m : Machine) (p : Nat) (v : Int) (s : List Int)
    (hpc : m.pc = (p : Int)) (hp : p < ARENA_SIZE) (h0 : mem p = 0x41) (h1 : mem (p + 1) = 0x58)
    (hs : m.stack = v :: s) :
    step mem m = some { m with pc := (p : Int) + 2, r8 := v, stack := s } := by
  simp [step, fetch, hpc, h0, h1, hp, hs]

theorem step_add (mem : Nat → Nat) (m : Machine) (p : Nat)
    (hpc : m.pc = (p : Int)) (hp : p < ARENA_SIZE) (h0 : mem p = 0x48) (h1 : mem (p + 1) = 0x01)
    (h2 : mem (p + 2) = 0xc8) :
    step mem m = some { alu_add m m.rax m.rcx with pc := (p : Int) + 3 } := by
  simp [step, fetch, hpc, h0, h1, h2, hp]

theorem step_sub (mem : Nat → Nat) (m : Machine) (p : Nat)
    (hpc : m.pc = (p : Int)) (hp : p < ARENA_SIZE) (h0 : mem p = 0x48) (h1 : mem (p + 1) = 0x29)
    (h2 : mem (p + 2) = 0xc8) :
    step mem m = some { alu_cmp m m.rax m.rcx with pc := (p : Int) + 3,
                                                   rax := wrap64 (m.rax - m.rcx) } := by
  simp [step, fetch, hpc, h0, h1, h2, hp]

theorem step_cmp (mem : Nat → Nat) (m : Machine) (p : Nat)
    (hpc : m.pc = (p : Int)) (hp : p < ARENA_SIZE) (h0 : mem p = 0x48) (h1 : mem (p + 1) = 0x39)
    (h2 : mem (p + 2) = 0xc8) :
    step mem m = some { alu_cmp m m.rax m.rcx with pc := (p : Int) + 3 } := by
  simp [step, fetch, hpc, h0, h1, h2, hp]

theorem step_cmp_imm (mem : Nat → Nat) (m : Machine) (p : Nat)
    (hpc : m.pc = (p : Int)) (hp : p < ARENA_SIZE) (h0 : mem p = 0x48) (h1 : mem (p + 1) = 0x83)
    (h2 : mem (p + 2) = 0xf8) (b : Nat) (h3 : mem (p + 3) = b) :
    step mem m = some { alu_cmp m m.rax (imm8 b) with pc := (p : Int) + 4 } := by
  simp [step, fetch, hpc, h0, h1, h2, h3, hp]

theorem step_movzx (mem : Nat → Nat) (m : Machine) (p : Nat)
    (hpc : m.pc = (p : Int)) (hp : p < ARENA_SIZE) (h0 : mem p = 0x48) (h1 : mem (p + 1) = 0x0f)
    (h2 : mem (p + 2) = 0xb6) (h3 : mem (p + 3) = 0xc0) :
    step mem m = some { m with pc := (p : Int) + 4, rax := m.rax % 256 } := by
  simp [step, fetch, hpc, h0, h1, h2, h3, hp]

theorem step_setl (mem : Nat → Nat) (m : Machine) (p : Nat)
    (hpc : m.pc = (p : Int)) (hp : p < ARENA_SIZE) (h0 : mem p = 0x0f) (h1 : mem (p + 1) = 0x9c)
    (h2 : mem (p + 2) = 0xc0) :
    step mem m = some { m with pc := (p : Int) + 3,
                               rax := m.rax - m.rax % 256 + (if m.sf ≠ m.ovf then 1 else 0) } := by
  simp [step, fetch, hpc, h0, h1, h2, hp]

theorem step_je (mem : Nat → Nat) (m : Machine) (p : Nat)
    (hpc : m.pc = (p : Int)) (hp : p < ARENA_SIZE) (h0 : mem p = 0x0f) (h1 : mem (p + 1) = 0x84) :
    step mem m
      = some { m with pc := if m.zf then (p : Int) + 6 + imm32 mem p 2 else (p : Int) + 6 } := by
  simp [step, fetch, hpc, h0, h1, hp]

/-! ## Runs of several instructions -/

theorem Reaches.refl (mem : Nat → Nat) (m : Machine) : Reaches mem m m := ⟨0, rfl⟩

theorem Reaches.head {mem : Nat → Nat} {m m1 m2 : Machine} (h : step mem m = some m1)
    (h2 : Reaches mem m1 m2) : Reaches mem m m2 := by
  obtain ⟨n, hn⟩ := h2
  exact ⟨n + 1, by simp only [steps, h, hn]⟩

theorem Reaches.trans {mem : Nat → Nat} {m m1 m2 : Machine} (h1 : Reaches mem m m1)
    (h2 : Reaches mem m1 m2) : Reaches mem m m2 := by
  obtain ⟨n, hn⟩ := h1
  induction n generalizing m with
  | zero => simp only [steps, Option.some.injEq] at hn; subst hn; exact h2
  | succ n ih =>
    simp only [steps] at hn
    cases hs : step mem m with
    | none => simp [hs] at hn
    | some m3 => rw [hs] at hn; exact Reaches.head hs (ih hn)

theorem arena_size_eq : ARENA_SIZE = 1048576 := rfl

theorem wrap32_lendian (mem : Nat → Nat) (p i : Nat) (x : Int)
    (h : bytes_at mem (p + i) (lendian_bytes x)) : imm32 mem p i = wrap32 x := by
  have h0 := h 0 (by simp)
  have h1 := h 1 (by simp)
  have h2 := h 2 (by simp)
  have h3 := h 3 (by simp)
  simp only [lendian_bytes, List.getD_cons_zero, List.getD_cons_succ, Nat.add_zero] at h0 h1 h2 h3
  simp only [imm32, fetch, Int.toNat_ofNat]
  rw [h0, show p + (i + 1) = p + i + 1 by omega, h1, show p + (i + 2) = p + i + 2 by omega, h2,
    show p + (i + 3) = p + i + 3 by omega, h3]
  simp only [wrap32]
  omega

theorem bytes_at_drop (mem : Nat → Nat) (p : Nat) (pre bs : List Nat)
    (h : bytes_at mem p (pre ++ bs)) : bytes_at mem (p + pre.length) bs := by
  intro k hk
  have := h (pre.length + k) (by simp; omega)
  rw [Nat.add_assoc, this, List.getD_append_right _ _ _ _ (by omega)]
  simp

theorem bytes_at_take (mem : Nat → Nat) (p : Nat) (pre bs : List Nat)
    (h : bytes_at mem p (pre ++ bs)) : bytes_at mem p pre := by
  intro k hk
  have := h k (by simp; omega)
  rw [this, List.getD_append _ _ _ _ hk]

theorem block_add (mem : Nat → Nat) (m : Machine) (p : Nat) (a b : Int) (s : List Int)
    (hb : bytes_at mem p [0x59, 0x58, 0x48, 0x01, 0xc8, 0x50]) (hq : p + 6 ≤ ARENA_SIZE)
    (hpc : m.pc = (p : Int)) (hs : m.stack = b :: a :: s) :
    ∃ m1, Reaches mem m m1 ∧ m1.pc = ((p + 6 : Nat) : Int) ∧ m1.r8 = m.r8 ∧
      m1.stack = wrap64 (a + b) :: s := by
  have h0 := hb 0 (by simp)
  have h1 := hb 1 (by simp)
  have h2 := hb 2 (by simp)
  have h3 := hb 3 (by simp)
  have h4 := hb 4 (by simp)
  have h5 := hb 5 (by simp)
  simp only [List.getD_cons_zero, List.getD_cons_succ, Nat.add_zero] at h0 h1 h2 h3 h4 h5
  refine ⟨_, Reaches.head (step_pop_rcx mem m p b (a :: s) hpc (by omega) h0 hs)
    (Reaches.head (step_pop_rax mem _ (p + 1) a s (by simp) (by omega) h1 rfl)
    (Reaches.head (step_add mem _ (p + 2) (by simp; omega) (by omega) h2 h3 h4)
    (Reaches.head (step_push_rax mem _ (p + 5) (by simp [alu_add]; omega) (by omega) h5)
    (Reaches.refl _ _)))), ?_, ?_, ?_⟩
  · simp; omega
  · simp [alu_add]
  · simp [alu_add]

theorem block_sub (mem : Nat → Nat) (m : Machine) (p : Nat) (a b : Int) (s : List Int)
    (hb : bytes_at mem p [0x59, 0x58, 0x48, 0x29, 0xc8, 0x50]) (hq : p + 6 ≤ ARENA_SIZE)
    (hpc : m.pc = (p : Int)) (hs : m.stack = b :: a :: s) :
    ∃ m1, Reaches mem m m1 ∧ m1.pc = ((p + 6 : Nat) : Int) ∧ m1.r8 = m.r8 ∧
      m1.stack = wrap64 (a - b) :: s := by
  have h0 := hb 0 (by simp)
  have h1 := hb 1 (by simp)
  have h2 := hb 2 (by simp)
  have h3 := hb 3 (by simp)
  have h4 := hb 4 (by simp)
  have h5 := hb 5 (by simp)
  simp only [List.getD_cons_zero, List.getD_cons_succ, Nat.add_zero] at h0 h1 h2 h3 h4 h5
  refine ⟨_, Reaches.head (step_pop_rcx mem m p b (a :: s) hpc (by omega) h0 hs)
    (Reaches.head (step_pop_rax mem _ (p + 1) a s (by simp) (by omega) h1 rfl)
    (Reaches.head (step_sub mem _ (p + 2) (by simp; omega) (by omega) h2 h3 h4)
    (Reaches.head (step_push_rax mem _ (p + 5) (by simp [alu_cmp]; omega) (by omega) h5)
    (Reaches.refl _ _)))), ?_, ?_, ?_⟩
  · simp; omega
  · simp [alu_cmp]
  · simp [alu_cmp]

theorem setl_value (a b : Int) (ha : in_range64 a) (hb : in_range64 b) (x : Int) :
    (x - x % 256 +
      (if decide (wrap64 (a - b) < 0) ≠ decide (wrap64 (a - b) ≠ a - b) then 1 else 0)) % 256
      = if a < b then 1 else 0 := by
  obtain ⟨ha1, ha2⟩ := ha
  obtain ⟨hb1, hb2⟩ := hb
  have e : (if decide (wrap64 (a - b) < 0) ≠ decide (wrap64 (a - b) ≠ a - b) then (1 : Int) else 0)
      = if a < b then 1 else 0 := by
    simp only [wrap64]
    by_cases h : a < b
    · have h1 : ((a - b + 2 ^ 63) % 2 ^ 64 - 2 ^ 63 < 0) ↔ ¬ ((a - b + 2 ^ 63) % 2 ^ 64 - 2 ^ 63 ≠ a - b) := by
        constructor <;> intro _ <;> omega
      simp only [h, if_true, ne_eq, decide_eq_decide, h1]
      simp
    · have h1 : ((a - b + 2 ^ 63) % 2 ^ 64 - 2 ^ 63 < 0) ↔ ((a - b + 2 ^ 63) % 2 ^ 64 - 2 ^ 63 ≠ a - b) := by
        constructor <;> intro _ <;> omega
      simp only [h, if_false, ne_eq, decide_eq_decide, h1]
      simp
  rw [e]
  split <;> omega

theorem block_lesser (mem : Nat → Nat) (m : Machine) (p : Nat) (a b : Int) (s : List Int)
    (hb : bytes_at mem p
      [0x59, 0x58, 0x48, 0x39, 0xc8, 0x0f, 0x9c, 0xc0, 0x48, 0x0f, 0xb6, 0xc0, 0x50])
    (hq : p + 13 ≤ ARENA_SIZE) (hpc : m.pc = (p : Int)) (hs : m.stack = b :: a :: s)
    (ha : in_range64 a) (hbr : in_range64 b) :
    ∃ m1, Reaches mem m m1 ∧ m1.pc = ((p + 13 : Nat) : Int) ∧ m1.r8 = m.r8 ∧
      m1.stack = (if a < b then 1 else 0) :: s := by
  have h0 := hb 0 (by simp)
  have h1 := hb 1 (by simp)
  have h2 := hb 2 (by simp)
  have h3 := hb 3 (by simp)
  have h4 := hb 4 (by simp)
  have h5 := hb 5 (by simp)
  have h6 := hb 6 (by simp)
  have h7 := hb 7 (by simp)
  have h8 := hb 8 (by simp)
  have h9 := hb 9 (by simp)
  have h10 := hb 10 (by simp)
  have h11 := hb 11 (by simp)
  have h12 := hb 12 (by simp)
  simp only [List.getD_cons_zero, List.getD_cons_succ, Nat.add_zero] at h0 h1 h2 h3 h4 h5 h6
  simp only [List.getD_cons_zero, List.getD_cons_succ] at h7 h8 h9 h10 h11 h12
  refine ⟨_, Reaches.head (step_pop_rcx mem m p b (a :: s) hpc (by omega) h0 hs)
    (Reaches.head (step_pop_rax mem _ (p + 1) a s (by simp) (by omega) h1 rfl)
    (Reaches.head (step_cmp mem _ (p + 2) (by simp; omega) (by omega) h2 h3 h4)
    (Reaches.head (step_setl mem _ (p + 5) (by simp [alu_cmp]; omega) (by omega) h5 h6 h7)
    (Reaches.head (step_movzx mem _ (p + 8) (by simp; omega) (by omega) h8 h9 h10 h11)
    (Reaches.head (step_push_rax mem _ (p + 12) (by simp; omega) (by omega) h12)
    (Reaches.refl _ _)))))), ?_, ?_, ?_⟩
  · simp; omega
  · simp [alu_cmp]
  · simp only [alu_cmp, List.cons.injEq, and_true]
    exact setl_value a b ha hbr _

theorem block_int (mem : Nat → Nat) (m : Machine) (p : Nat) (v : Int)
    (hb : bytes_at mem p (0x68 :: lendian_bytes (wrap32 v))) (hq : p + 5 ≤ ARENA_SIZE)
    (hpc : m.pc = (p : Int)) (hv0 : 0 ≤ v) (hv1 : v < 2 ^ 31) :
    ∃ m1, Reaches mem m m1 ∧ m1.pc = ((p + 5 : Nat) : Int) ∧ m1.r8 = m.r8 ∧
      m1.stack = v :: m.stack := by
  have h0 := hb 0 (by simp)
  simp only [List.getD_cons_zero, Nat.add_zero] at h0
  have himm : imm32 mem p 1 = v := by
    rw [wrap32_lendian mem p 1 (wrap32 v) (bytes_at_drop mem p [0x68] _ hb)]
    simp only [wrap32]; omega
  refine ⟨_, Reaches.head (step_push_imm mem m p hpc (by omega) h0) (Reaches.refl _ _),
    ?_, ?_, ?_⟩
  · simp
  · simp
  · simp [himm]

theorem block_push_r8 (mem : Nat → Nat) (m : Machine) (p : Nat)
    (hb : bytes_at mem p [0x41, 0x50]) (hq : p + 2 ≤ ARENA_SIZE) (hpc : m.pc = (p : Int)) :
    ∃ m1, Reaches mem m m1 ∧ m1.pc = ((p + 2 : Nat) : Int) ∧ m1.r8 = m.r8 ∧
      m1.stack = m.r8 :: m.stack := by
  have h0 := hb 0 (by simp)
  have h1 := hb 1 (by simp)
  simp only [List.getD_cons_zero, List.getD_cons_succ, Nat.add_zero] at h0 h1
  refine ⟨_, Reaches.head (step_push_r8 mem m p hpc (by omega) h0 h1) (Reaches.refl _ _),
    ?_, ?_, ?_⟩ <;> simp

theorem wrap32_wrap32_small (d : Int) (h1 : -(2 : Int) ^ 31 ≤ d) (h2 : d < 2 ^ 31) :
    wrap32 (wrap32 d) = d := by
  simp only [wrap32]; omega

theorem imm32_lendian (mem : Nat → Nat) (pc : Int) (p i : Nat) (x : Int) (hpc : pc = (p : Int))
    (h : bytes_at mem (p + i) (lendian_bytes x)) : imm32 mem pc i = wrap32 x := by
  rw [hpc]; exact wrap32_lendian mem p i x h

theorem block_call_enter (mem : Nat → Nat) (m : Machine) (p1 k : Nat) (a : Int) (s : List Int)
    (hb : bytes_at mem p1 ([0x41, 0x58, 0xe8]
        ++ lendian_bytes (wrap32 ((k : Int) - ((p1 + 3 : Nat) : Int) - 4))
        ++ [0x41, 0x58, 0x50]))
    (hq : p1 + 10 ≤ ARENA_SIZE) (hk : k ≤ ARENA_SIZE) (hpc : m.pc = (p1 : Int))
    (hs : m.stack = a :: s) :
    ∃ m1, Reaches mem m m1 ∧ m1.pc = (k : Int) ∧ m1.r8 = a ∧
      m1.stack = ((p1 + 7 : Nat) : Int) :: s := by
  have hA := bytes_at_take mem p1 _ _ hb
  have hL := bytes_at_drop mem p1 _ _ hA
  have h3 := bytes_at_take mem p1 _ _ hA
  have h0 := h3 0 (by simp)
  have h1 := h3 1 (by simp)
  have h2 := h3 2 (by simp)
  simp only [List.getD_cons_zero, List.getD_cons_succ, Nat.add_zero] at h0 h1 h2
  have himm : imm32 mem ((p1 + 2 : Nat) : Int) 1 = (k : Int) - ((p1 + 3 : Nat) : Int) - 4 := by
    rw [imm32_lendian mem _ (p1 + 2) 1 _ rfl (by simpa [Nat.add_assoc] using hL)]
    have := arena_size_eq
    exact wrap32_wrap32_small _ (by push_cast; omega) (by push_cast; omega)
  refine ⟨_, Reaches.head (step_pop_r8 mem m p1 a s hpc (by omega) h0 h1 hs)
    (Reaches.head (step_call mem _ (p1 + 2) (by simp) (by omega) h2) (Reaches.refl _ _)),
    ?_, ?_, ?_⟩
  · show ((p1 + 2 : Nat) : Int) + 5 + imm32 mem ((p1 + 2 : Nat) : Int) 1 = k
    rw [himm]; push_cast; omega
  · simp
  · simp; omega

theorem block_call_leave (mem : Nat → Nat) (m : Machine) (q : Nat) (v ret : Int) (s : List Int)
    (hb : bytes_at mem q [0x58, 0xc3]) (hq : q + 2 ≤ ARENA_SIZE) (hpc : m.pc = (q : Int))
    (hs : m.stack = v :: ret :: s) :
    ∃ m1, Reaches mem m m1 ∧ m1.pc = ret ∧ m1.r8 = m.r8 ∧ m1.rax = v ∧ m1.stack = s := by
  have h0 := hb 0 (by simp)
  have h1 := hb 1 (by simp)
  simp only [List.getD_cons_zero, List.getD_cons_succ, Nat.add_zero] at h0 h1
  refine ⟨_, Reaches.head (step_pop_rax mem m q v (ret :: s) hpc (by omega) h0 hs)
    (Reaches.head (step_ret mem _ (q + 1) ret s (by simp) (by omega) h1 rfl) (Reaches.refl _ _)),
    ?_, ?_, ?_, ?_⟩ <;> simp

theorem block_call_resume (mem : Nat → Nat) (m : Machine) (p1 : Nat) (x : Int) (r : Int)
    (s : List Int)
    (hb : bytes_at mem p1 ([0x41, 0x58, 0xe8] ++ lendian_bytes x ++ [0x41, 0x58, 0x50]))
    (hq : p1 + 10 ≤ ARENA_SIZE) (hpc : m.pc = ((p1 + 7 : Nat) : Int)) (hs : m.stack = r :: s) :
    ∃ m1, Reaches mem m m1 ∧ m1.pc = ((p1 + 10 : Nat) : Int) ∧ m1.r8 = r ∧
      m1.stack = m.rax :: s := by
  have hB := bytes_at_drop mem p1 _ _ hb
  simp only [List.length_append, List.length_cons, List.length_nil, lendian_bytes_length] at hB
  have h0 := hB 0 (by simp)
  have h1 := hB 1 (by simp)
  have h2 := hB 2 (by simp)
  simp only [List.getD_cons_zero, List.getD_cons_succ, Nat.add_zero] at h0 h1 h2
  refine ⟨_, Reaches.head (step_pop_r8 mem m (p1 + 7) r s hpc (by omega) h0 h1 hs)
    (Reaches.head (step_push_rax mem _ (p1 + 9) (by simp; omega) (by omega) h2)
      (Reaches.refl _ _)), ?_, ?_, ?_⟩
  · simp; omega
  · simp
  · simp

theorem block_if_head (mem : Nat → Nat) (m : Machine) (p1 p2 : Nat) (cv : Int) (s : List Int)
    (hb : bytes_at mem p1 ([0x58, 0x48, 0x83, 0xf8, 0x00, 0x0f, 0x84]
        ++ lendian_bytes (wrap32 (((p2 + 5 : Nat) : Int) - ((p1 + 11 : Nat) : Int)))))
    (hq : p1 + 11 ≤ ARENA_SIZE) (hp2 : p2 + 5 ≤ ARENA_SIZE) (hpc : m.pc = (p1 : Int))
    (hs : m.stack = cv :: s) (hcv : in_range64 cv) :
    ∃ m1, Reaches mem m m1 ∧
      m1.pc = (if cv = 0 then ((p2 + 5 : Nat) : Int) else ((p1 + 11 : Nat) : Int)) ∧
      m1.r8 = m.r8 ∧ m1.stack = s := by
  have hA := bytes_at_take mem p1 _ _ hb
  have hL := bytes_at_drop mem p1 _ _ hb
  have h0 := hA 0 (by simp)
  have h1 := hA 1 (by simp)
  have h2 := hA 2 (by simp)
  have h3 := hA 3 (by simp)
  have h4 := hA 4 (by simp)
  have h5 := hA 5 (by simp)
  have h6 := hA 6 (by simp)
  simp only [List.getD_cons_zero, List.getD_cons_succ, Nat.add_zero] at h0 h1 h2 h3 h4 h5 h6
  have himm : imm32 mem ((p1 + 5 : Nat) : Int) 2
      = ((p2 + 5 : Nat) : Int) - ((p1 + 11 : Nat) : Int) := by
    rw [imm32_lendian mem _ (p1 + 5) 2 _ rfl (by simpa [Nat.add_assoc] using hL)]
    have := arena_size_eq
    exact wrap32_wrap32_small _ (by push_cast; omega) (by push_cast; omega)
  have hz : decide (wrap64 (cv - imm8 0) = 0) = decide (cv = 0) := by
    obtain ⟨c1, c2⟩ := hcv
    have : wrap64 (cv - imm8 0) = cv := by simp only [wrap64, imm8]; simp; omega
    rw [this]
  refine ⟨_, Reaches.head (step_pop_rax mem m p1 cv s hpc (by omega) h0 hs)
    (Reaches.head (step_cmp_imm mem _ (p1 + 1) (by simp) (by omega) h1 h2 h3 0 h4)
    (Reaches.head (step_je mem _ (p1 + 5) (by simp [alu_cmp]; omega) (by omega) h5 h6)
    (Reaches.refl _ _))), ?_, ?_, ?_⟩
  · show (if decide (wrap64 (cv - imm8 0) = 0) = true
        then ((p1 + 5 : Nat) : Int) + 6 + imm32 mem ((p1 + 5 : Nat) : Int) 2
        else ((p1 + 5 : Nat) : Int) + 6) = _
    rw [hz, himm]
    by_cases hc : cv = 0
    · simp only [hc, decide_True, if_true]; push_cast; omega
    · simp only [hc, decide_False, if_false]; push_cast; omega
  · simp [alu_cmp]
  · simp [alu_cmp]

theorem block_jmp (mem : Nat → Nat) (m : Machine) (p2 q : Nat)
    (hb : bytes_at mem p2 (0xe9 :: lendian_bytes (wrap32 ((q : Int) - ((p2 + 5 : Nat) : Int)))))
    (hq : p2 + 5 ≤ ARENA_SIZE) (hq2 : q ≤ ARENA_SIZE) (hpc : m.pc = (p2 : Int)) :
    ∃ m1, Reaches mem m m1 ∧ m1.pc = (q : Int) ∧ m1.r8 = m.r8 ∧ m1.stack = m.stack := by
  have h0 := hb 0 (by simp)
  simp only [List.getD_cons_zero, Nat.add_zero] at h0
  have himm : imm32 mem (p2 : Int) 1 = (q : Int) - ((p2 + 5 : Nat) : Int) := by
    rw [imm32_lendian mem _ p2 1 _ rfl (bytes_at_drop mem p2 [0xe9] _ hb)]
    have := arena_size_eq
    exact wrap32_wrap32_small _ (by push_cast; omega) (by push_cast; omega)
  refine ⟨_, Reaches.head (step_jmp mem m p2 hpc (by omega) h0) (Reaches.refl _ _), ?_, ?_, ?_⟩
  · show (p2 : Int) + 5 + imm32 mem (p2 : Int) 1 = q
    rw [himm]; push_cast; omega
  · simp
  · simp

/-! ## Compiled code against the interpreter -/

theorem code_at_le (mem : Nat → Nat) (funcs : List Function) (e : Expr) :
    ∀ p q, code_at mem funcs e p q → p ≤ q := by
  induction e with
  | EXPR_ADD l r ihl ihr | EXPR_SUB l r ihl ihr | EXPR_LESSER l r ihl ihr =>
    intro p q h
    obtain ⟨p1, p2, h1, h2, _, hq⟩ := h
    have := ihl _ _ h1
    have := ihr _ _ h2
    omega
  | EXPR_INT v => intro p q h; obtain ⟨_, hq⟩ := h; omega
  | EXPR_ARG => intro p q h; obtain ⟨_, hq⟩ := h; omega
  | EXPR_FUNCDEF g b ih => intro p q h; exact absurd h (by simp [code_at])
  | EXPR_FUNCCALL g a ih =>
    intro p q h
    obtain ⟨f, p1, _, _, h1, _, hq⟩ := h
    have := ih _ _ h1
    omega
  | EXPR_IF c t f ihc iht ihf =>
    intro p q h
    obtain ⟨p1, p2, h1, _, h2, _, h3⟩ := h
    have := ihc _ _ h1
    have := iht _ _ h2
    have := ihf _ _ h3
    omega
  | EXPR_NOTHING => intro p q h; exact absurd h (by simp [code_at])

theorem wrap64_in_range (x : Int) : in_range64 (wrap64 x) := by
  simp only [in_range64, wrap64]; omega

theorem find_func_mem {fs : List Function} {fnname : String} {f : Function}
    (h : find_func fs fnname = some f) : f ∈ fs := by
  induction fs with
  | nil => simp [find_func] at h
  | cons g gs ih =>
    by_cases hg : g.name = fnname
    · simp [find_func, hg] at h; simp [h]
    · simp [find_func, hg] at h; simp [ih h]

theorem find_func_name {fs : List Function} {fnname : String} {f : Function}
    (h : find_func fs fnname = some f) : f.name = fnname := by
  induction fs with
  | nil => simp [find_func] at h
  | cons g gs ih =>
    by_cases hg : g.name = fnname
    · simp [find_func, hg] at h; rw [← h]; exact hg
    · simp [find_func, hg] at h; exact ih h

theorem tables_agree_find : ∀ (fi fj : List Function) (fnname : String) (f : Function),
    tables_agree fi fj → find_func fi fnname = some f →
    ∃ g, find_func fj fnname = some g ∧ g.fnexpr = f.fnexpr := by
  intro fi
  induction fi with
  | nil => intro fj fnname f _ h; simp [find_func] at h
  | cons a as ih =>
    intro fj fnname f hag h
    cases fj with
    | nil => simp [tables_agree] at hag
    | cons b bs =>
      simp only [tables_agree, List.map_cons, List.cons.injEq, Prod.mk.injEq] at hag
      obtain ⟨⟨hn, he⟩, htl⟩ := hag
      by_cases ha : a.name = fnname
      · simp only [find_func, ha, if_true, Option.some.injEq] at h
        refine ⟨b, by simp [find_func, ← hn, ha], ?_⟩
        rw [← h, he]
      · simp only [find_func, ha, if_false] at h
        obtain ⟨g, hg, hge⟩ := ih bs fnname f htl h
        exact ⟨g, by simp [find_func, ← hn, ha, hg], hge⟩

theorem state_funcarg_restore (st : State) (a : Int) :
    ({ ({ st with funcarg := a } : State) with funcarg := st.funcarg } : State) = st := by
  cases st; rfl

theorem lesser_in_range (a b : Int) : in_range64 (if a < b then 1 else 0) := by
  unfold in_range64; split <;> omega

theorem simulation (mem : Nat → Nat) (funcs : List Function) (pos : Nat)
    (hc : compiled mem funcs pos) (hpos : pos ≤ ARENA_SIZE) (n : Nat) :
    ∀ (st : State) (e : Expr) (v : Int) (st1 : State), tables_agree st.funcs funcs →
      in_fragment (funcs.map Function.name) e = true → in_range64 st.funcarg →
      normal_eval n st e = .ok (v, st1) →
      st1 = st ∧ in_range64 v ∧
        ∀ (p q : Nat) (m : Machine), code_at mem funcs e p q → q ≤ ARENA_SIZE →
          m.pc = (p : Int) → m.r8 = st.funcarg →
          ∃ m1, Reaches mem m m1 ∧ m1.pc = (q : Int) ∧ m1.r8 = m.r8 ∧
            m1.stack = v :: m.stack := by
  induction n with
  | zero => intro st e v st1 _ _ _ h; simp [normal_eval] at h
  | succ n ih =>
    intro st e v st1 hag he hfa h
    simp only [normal_eval] at h
    cases e with
    | EXPR_ADD l r =>
      simp only [in_fragment, Bool.and_eq_true] at he
      obtain ⟨a, s1, b, h1, h2, hv⟩ := nev_add_ok.mp h
      obtain ⟨e1, ra, sl⟩ := ih st l a s1 hag he.1 hfa h1
      subst e1
      obtain ⟨e2, rb, sr⟩ := ih s1 r b st1 hag he.2 hfa h2
      subst e2
      refine ⟨rfl, by rw [hv]; exact wrap64_in_range _, ?_⟩
      intro p q m hcode hq hpc hr8
      obtain ⟨p1, p2, cl, cr, hb, hq2⟩ := hcode
      have le2 := code_at_le _ _ _ _ _ cr
      obtain ⟨m1, r1, pc1, r81, st1'⟩ := sl p p1 m cl (by omega) hpc hr8
      obtain ⟨m2, r2, pc2, r82, st2'⟩ := sr p1 p2 m1 cr (by omega) pc1 (by rw [r81, hr8])
      obtain ⟨m3, r3, pc3, r83, st3'⟩ := block_add mem m2 p2 a b m.stack hb (by omega) pc2
        (by rw [st2', st1'])
      exact ⟨m3, (r1.trans r2).trans r3, by rw [pc3, hq2], by rw [r83, r82, r81],
        by rw [st3', hv]⟩
    | EXPR_SUB l r =>
      simp only [in_fragment, Bool.and_eq_true] at he
      obtain ⟨a, s1, b, h1, h2, hv⟩ := nev_sub_ok.mp h
      obtain ⟨e1, ra, sl⟩ := ih st l a s1 hag he.1 hfa h1
      subst e1
      obtain ⟨e2, rb, sr⟩ := ih s1 r b st1 hag he.2 hfa h2
      subst e2
      refine ⟨rfl, by rw [hv]; exact wrap64_in_range _, ?_⟩
      intro p q m hcode hq hpc hr8
      obtain ⟨p1, p2, cl, cr, hb, hq2⟩ := hcode
      have le2 := code_at_le _ _ _ _ _ cr
      obtain ⟨m1, r1, pc1, r81, st1'⟩ := sl p p1 m cl (by omega) hpc hr8
      obtain ⟨m2, r2, pc2, r82, st2'⟩ := sr p1 p2 m1 cr (by omega) pc1 (by rw [r81, hr8])
      obtain ⟨m3, r3, pc3, r83, st3'⟩ := block_sub mem m2 p2 a b m.stack hb (by omega) pc2
        (by rw [st2', st1'])
      exact ⟨m3, (r1.trans r2).trans r3, by rw [pc3, hq2], by rw [r83, r82, r81],
        by rw [st3', hv]⟩
    | EXPR_LESSER l r =>
      simp only [in_fragment, Bool.and_eq_true] at he
      obtain ⟨a, s1, b, h1, h2, hv⟩ := nev_lesser_ok.mp h
      obtain ⟨e1, ra, sl⟩ := ih st l a s1 hag he.1 hfa h1
      subst e1
      obtain ⟨e2, rb, sr⟩ := ih s1 r b st1 hag he.2 hfa h2
      subst e2
      refine ⟨rfl, by rw [hv]; exact lesser_in_range a b, ?_⟩
      intro p q m hcode hq hpc hr8
      obtain ⟨p1, p2, cl, cr, hb, hq2⟩ := hcode
      have le2 := code_at_le _ _ _ _ _ cr
      obtain ⟨m1, r1, pc1, r81, st1'⟩ := sl p p1 m cl (by omega) hpc hr8
      obtain ⟨m2, r2, pc2, r82, st2'⟩ := sr p1 p2 m1 cr (by omega) pc1 (by rw [r81, hr8])
      obtain ⟨m3, r3, pc3, r83, st3'⟩ := block_lesser mem m2 p2 a b m.stack hb (by omega) pc2
        (by rw [st2', st1']) ra rb
      exact ⟨m3, (r1.trans r2).trans r3, by rw [pc3, hq2], by rw [r83, r82, r81],
        by rw [st3', hv]⟩
    | EXPR_INT i =>
      simp only [in_fragment, Bool.and_eq_true, decide_eq_true_eq] at he
      simp only [normal_eval_with, Except.ok.injEq, Prod.mk.injEq] at h
      obtain ⟨hv, hs⟩ := h
      subst hv hs
      refine ⟨rfl, ⟨by omega, by omega⟩, ?_⟩
      intro p q m hcode hq hpc hr8
      obtain ⟨hb, hq2⟩ := hcode
      obtain ⟨m1, r1, pc1, r81, st1'⟩ := block_int mem m p i hb (by omega) hpc he.1 he.2
      exact ⟨m1, r1, by rw [pc1, hq2], r81, st1'⟩
    | EXPR_ARG =>
      simp only [normal_eval_with, Except.ok.injEq, Prod.mk.injEq] at h
      obtain ⟨hv, hs⟩ := h
      subst hv hs
      refine ⟨rfl, hfa, ?_⟩
      intro p q m hcode hq hpc hr8
      obtain ⟨hb, hq2⟩ := hcode
      obtain ⟨m1, r1, pc1, r81, st1'⟩ := block_push_r8 mem m p hb (by omega) hpc
      exact ⟨m1, r1, by rw [pc1, hq2], r81, by rw [st1', hr8]⟩
    | EXPR_FUNCDEF g b => simp [in_fragment] at he
    | EXPR_FUNCCALL g arg =>
      simp only [in_fragment, Bool.and_eq_true, decide_eq_true_eq] at he
      obtain ⟨fi, a, s1, s2, hf, h1, h2, hs⟩ := nev_call_ok.mp h
      obtain ⟨e1, ra, sa⟩ := ih st arg a s1 hag he.2 hfa h1
      subst e1
      obtain ⟨fj, hfj, hbody⟩ := tables_agree_find _ _ _ _ hag hf
      obtain ⟨hfrag, qb, cb, hret, hqb⟩ := hc fj (find_func_mem hfj)
      rw [← hbody] at h2
      obtain ⟨e2, rv, sb⟩ := ih { s1 with funcarg := a } fj.fnexpr v s2 hag hfrag ra h2
      subst e2
      refine ⟨hs.trans (state_funcarg_restore s1 a), rv, ?_⟩
      intro p q m hcode hq hpc hr8
      obtain ⟨f, p1, hf2, hb0, ca, hb1, hq2⟩ := hcode
      rw [hfj] at hf2
      simp only [Option.some.injEq] at hf2
      subst hf2
      have le1 := code_at_le _ _ _ _ _ ca
      have le2 := code_at_le _ _ _ _ _ cb
      obtain ⟨m1, r1, pc1, r81, st1'⟩ := block_push_r8 mem m p hb0 (by omega) hpc
      obtain ⟨m2, r2, pc2, r82, st2'⟩ := sa (p + 2) p1 m1 ca (by omega) pc1 (by rw [r81, hr8])
      obtain ⟨m3, r3, pc3, r83, st3'⟩ := block_call_enter mem m2 p1 fj.jitidx a (m.r8 :: m.stack)
        hb1 (by omega) (by omega) pc2 (by rw [st2', st1'])
      obtain ⟨m4, r4, pc4, r84, st4'⟩ := sb fj.jitidx qb m3 cb (by omega) pc3 r83
      obtain ⟨m5, r5, pc5, r85, rax5, st5'⟩ := block_call_leave mem m4 qb v _ (m.r8 :: m.stack)
        hret (by omega) pc4 (by rw [st4', st3'])
      obtain ⟨m6, r6, pc6, r86, st6'⟩ := block_call_resume mem m5 p1 _ m.r8 m.stack hb1
        (by omega) pc5 st5'
      exact ⟨m6, ((((r1.trans r2).trans r3).trans r4).trans r5).trans r6, by rw [pc6, hq2], r86,
        by rw [st6', rax5]⟩
    | EXPR_IF c t f =>
      simp only [in_fragment, Bool.and_eq_true] at he
      obtain ⟨⟨hec, het⟩, hef⟩ := he
      obtain ⟨cv, s1, h1, h2⟩ := nev_if_ok.mp h
      obtain ⟨e1, rc, sc⟩ := ih st c cv s1 hag hec hfa h1
      subst e1
      have key : ∀ (br : Expr), in_fragment (funcs.map Function.name) br = true →
          normal_eval n s1 br = .ok (v, st1) → st1 = s1 ∧ in_range64 v :=
        fun br hbr hb => ⟨(ih s1 br v st1 hag hbr hfa hb).1, (ih s1 br v st1 hag hbr hfa hb).2.1⟩
      have hres : st1 = s1 ∧ in_range64 v := by
        rcases h2 with h2 | h2
        · exact key t het h2.2
        · exact key f hef h2.2
      refine ⟨hres.1, hres.2, ?_⟩
      intro p q m hcode hq hpc hr8
      obtain ⟨p1, p2, cc, hb1, ct, hb2, cf⟩ := hcode
      have le1 := code_at_le _ _ _ _ _ cc
      have le2 := code_at_le _ _ _ _ _ ct
      have le3 := code_at_le _ _ _ _ _ cf
      obtain ⟨m1, r1, pc1, r81, st1'⟩ := sc p p1 m cc (by omega) hpc hr8
      obtain ⟨m2, r2, pc2, r82, st2'⟩ := block_if_head mem m1 p1 p2 cv m.stack hb1 (by omega)
        (by omega) pc1 st1' rc
      rcases h2 with ⟨hcv, h2⟩ | ⟨hcv, h2⟩
      · rw [if_neg hcv] at pc2
        obtain ⟨_, _, st⟩ := ih s1 t v st1 hag het hfa h2
        obtain ⟨m3, r3, pc3, r83, st3'⟩ := st (p1 + 11) p2 m2 ct (by omega) pc2
          (by rw [r82, r81, hr8])
        obtain ⟨m4, r4, pc4, r84, st4'⟩ := block_jmp mem m3 p2 q hb2 (by omega) hq pc3
        exact ⟨m4, ((r1.trans r2).trans r3).trans r4, pc4, by rw [r84, r83, r82, r81],
          by rw [st4', st3', st2']⟩
      · rw [if_pos hcv] at pc2
        obtain ⟨_, _, sf⟩ := ih s1 f v st1 hag hef hfa h2
        obtain ⟨m3, r3, pc3, r83, st3'⟩ := sf (p2 + 5) q m2 cf hq pc2 (by rw [r82, r81, hr8])
        exact ⟨m3, (r1.trans r2).trans r3, pc3, by rw [r83, r82, r81], by rw [st3', st2']⟩
    | EXPR_NOTHING => simp [in_fragment] at he

/-! ## The code generator emits `code_at` -/

theorem jit_write_append (st : State) (a b : List Nat) :
    jit_write (jit_write st a) b = jit_write st (a ++ b) := by
  induction a generalizing st with
  | nil => rfl
  | cons x xs ih => rw [List.cons_append]; simp only [jit_write]; rw [ih]

theorem bytes_at_jit_write (st : State) (bs : List Nat) :
    bytes_at (jit_write st bs).jit_mem st.jit_pos bs :=
  fun k hk => jit_write_mem_at st bs k hk

theorem bytes_at_congr (mem mem1 : Nat → Nat) (p : Nat) (bs : List Nat)
    (h : ∀ i, p ≤ i → i < p + bs.length → mem1 i = mem i) (hb : bytes_at mem p bs) :
    bytes_at mem1 p bs := by
  intro k hk
  rw [h (p + k) (by omega) (by omega)]
  exact hb k hk

theorem code_at_congr (funcs : List Function) (e : Expr) : ∀ (mem mem1 : Nat → Nat) (p q : Nat),
    (∀ i, p ≤ i → i < q → mem1 i = mem i) → code_at mem funcs e p q →
    code_at mem1 funcs e p q := by
  induction e with
  | EXPR_ADD l r ihl ihr | EXPR_SUB l r ihl ihr | EXPR_LESSER l r ihl ihr =>
    intro mem mem1 p q h hc
    obtain ⟨p1, p2, h1, h2, hb, hq⟩ := hc
    have le1 := code_at_le _ _ _ _ _ h1
    have le2 := code_at_le _ _ _ _ _ h2
    exact ⟨p1, p2, ihl _ _ _ _ (fun i hi hi2 => h i hi (by omega)) h1,
      ihr _ _ _ _ (fun i hi hi2 => h i (by omega) (by omega)) h2,
      bytes_at_congr _ _ _ _ (fun i hi hi2 => h i (by omega)
        (by simp only [List.length_cons, List.length_nil] at hi2; omega)) hb, hq⟩
  | EXPR_INT v =>
    intro mem mem1 p q h hc
    obtain ⟨hb, hq⟩ := hc
    exact ⟨bytes_at_congr _ _ _ _ (fun i hi hi2 => h i hi
      (by simp only [List.length_cons, lendian_bytes_length] at hi2; omega)) hb, hq⟩
  | EXPR_ARG =>
    intro mem mem1 p q h hc
    obtain ⟨hb, hq⟩ := hc
    exact ⟨bytes_at_congr _ _ _ _ (fun i hi hi2 => h i hi
      (by simp only [List.length_cons, List.length_nil] at hi2; omega)) hb, hq⟩
  | EXPR_FUNCDEF g b ih => intro mem mem1 p q _ hc; exact absurd hc (by simp [code_at])
  | EXPR_FUNCCALL g a ih =>
    intro mem mem1 p q h hc
    obtain ⟨f, p1, hf, hb0, ha, hb1, hq⟩ := hc
    have le1 := code_at_le _ _ _ _ _ ha
    exact ⟨f, p1, hf,
      bytes_at_congr _ _ _ _ (fun i hi hi2 => h i hi
        (by simp only [List.length_cons, List.length_nil] at hi2; omega)) hb0,
      ih _ _ _ _ (fun i hi hi2 => h i (by omega) (by omega)) ha,
      bytes_at_congr _ _ _ _ (fun i hi hi2 => h i (by omega)
        (by simp only [List.length_append, List.length_cons, List.length_nil,
              lendian_bytes_length] at hi2; omega)) hb1, hq⟩
  | EXPR_IF c t f ihc iht ihf =>
    intro mem mem1 p q h hc
    obtain ⟨p1, p2, h1, hb1, h2, hb2, h3⟩ := hc
    have le1 := code_at_le _ _ _ _ _ h1
    have le2 := code_at_le _ _ _ _ _ h2
    have le3 := code_at_le _ _ _ _ _ h3
    exact ⟨p1, p2, ihc _ _ _ _ (fun i hi hi2 => h i hi (by omega)) h1,
      bytes_at_congr _ _ _ _ (fun i hi hi2 => h i (by omega)
        (by simp only [List.length_append, List.length_cons, List.length_nil,
              lendian_bytes_length] at hi2; omega)) hb1,
      iht _ _ _ _ (fun i hi hi2 => h i (by omega) (by omega)) h2,
      bytes_at_congr _ _ _ _ (fun i hi hi2 => h i (by omega)
        (by simp only [List.length_cons, lendian_bytes_length] at hi2; omega)) hb2,
      ihf _ _ _ _ (fun i hi hi2 => h i (by omega) hi2) h3⟩
  | EXPR_NOTHING => intro mem mem1 p q _ hc; exact absurd hc (by simp [code_at])

theorem fixup_lendian_bytes (st : State) (k : Nat) (x : Int) :
    bytes_at (fixup_lendian st k x).jit_mem k (lendian_bytes x) := by
  intro j hj
  simp only [lendian_bytes_length] at hj
  simp only [fixup_lendian, lendian_bytes]
  rcases (by omega : j = 0 ∨ j = 1 ∨ j = 2 ∨ j = 3) with h | h | h | h <;> subst h <;> simp

theorem mem_names_find {fs : List Function} {fnname : String}
    (h : fnname ∈ fs.map Function.name) : ∃ f, find_func fs fnname = some f := by
  cases hf : find_func fs fnname with
  | some f => exact ⟨f, rfl⟩
  | none =>
    obtain ⟨g, hg, hn⟩ := List.mem_map.mp h
    exact absurd hn (find_func_none.mp hf g hg)

theorem jit_codegen_fragment (e : Expr) : ∀ (st : State),
    in_fragment (st.funcs.map Function.name) e = true →
    ∃ s1, jit_codegen st e = .ok s1 ∧ s1.funcs = st.funcs ∧
      s1.jit_pos = st.jit_pos + code_size e ∧
      code_at s1.jit_mem st.funcs e st.jit_pos s1.jit_pos := by
  induction e with
  | EXPR_ADD l r ihl ihr =>
    intro st he
    simp only [in_fragment, Bool.and_eq_true] at he
    obtain ⟨sa, ha, fa, pa, ca⟩ := ihl st he.1
    obtain ⟨sb, hb, fb, pb, cb⟩ := ihr sa (by rw [fa]; exact he.2)
    have frb := (jit_codegen_frame r sa sb hb).2.2.2
    rw [fa] at cb
    refine ⟨jit_write sb [0x59, 0x58, 0x48, 0x01, 0xc8, 0x50], by simp only [jit_codegen, ha, hb],
      by simp [fa, fb], by simp [pa, pb, code_size]; omega, sa.jit_pos, sb.jit_pos, ?_, ?_,
      bytes_at_jit_write sb _, by simp⟩
    · refine code_at_congr _ _ _ _ _ _ (fun i _ hi2 => ?_) ca
      rw [jit_write_mem_lt _ _ _ (by omega), frb i hi2]
    · refine code_at_congr _ _ _ _ _ _ (fun i _ hi2 => ?_) cb
      rw [jit_write_mem_lt _ _ _ hi2]
  | EXPR_SUB l r ihl ihr =>
    intro st he
    simp only [in_fragment, Bool.and_eq_true] at he
    obtain ⟨sa, ha, fa, pa, ca⟩ := ihl st he.1
    obtain ⟨sb, hb, fb, pb, cb⟩ := ihr sa (by rw [fa]; exact he.2)
    have frb := (jit_codegen_frame r sa sb hb).2.2.2
    rw [fa] at cb
    refine ⟨jit_write sb [0x59, 0x58, 0x48, 0x29, 0xc8, 0x50], by simp only [jit_codegen, ha, hb],
      by simp [fa, fb], by simp [pa, pb, code_size]; omega, sa.jit_pos, sb.jit_pos, ?_, ?_,
      bytes_at_jit_write sb _, by simp⟩
    · refine code_at_congr _ _ _ _ _ _ (fun i _ hi2 => ?_) ca
      rw [jit_write_mem_lt _ _ _ (by omega), frb i hi2]
    · refine code_at_congr _ _ _ _ _ _ (fun i _ hi2 => ?_) cb
      rw [jit_write_mem_lt _ _ _ hi2]
  | EXPR_LESSER l r ihl ihr =>
    intro st he
    simp only [in_fragment, Bool.and_eq_true] at he
    obtain ⟨sa, ha, fa, pa, ca⟩ := ihl st he.1
    obtain ⟨sb, hb, fb, pb, cb⟩ := ihr sa (by rw [fa]; exact he.2)
    have frb := (jit_codegen_frame r sa sb hb).2.2.2
    rw [fa] at cb
    refine ⟨jit_write sb [0x59, 0x58, 0x48, 0x39, 0xc8, 0x0f, 0x9c, 0xc0, 0x48, 0x0f, 0xb6, 0xc0, 0x50], by simp only [jit_codegen, ha, hb],
      by simp [fa, fb], by simp [pa, pb, code_size]; omega, sa.jit_pos, sb.jit_pos, ?_, ?_,
      bytes_at_jit_write sb _, by simp⟩
    · refine code_at_congr _ _ _ _ _ _ (fun i _ hi2 => ?_) ca
      rw [jit_write_mem_lt _ _ _ (by omega), frb i hi2]
    · refine code_at_congr _ _ _ _ _ _ (fun i _ hi2 => ?_) cb
      rw [jit_write_mem_lt _ _ _ hi2]
  | EXPR_INT v =>
    intro st _
    refine ⟨jit_write st (0x68 :: lendian_bytes (wrap32 v)),
      by simp only [jit_codegen, write_lendian, jit_write_append]; rfl, by simp,
      by simp [code_size], bytes_at_jit_write st _, by simp⟩
  | EXPR_ARG =>
    intro st _
    exact ⟨jit_write st [0x41, 0x50], by simp only [jit_codegen], by simp, by simp [code_size],
      bytes_at_jit_write st _, by simp⟩
  | EXPR_FUNCDEF g b ih => intro st he; simp [in_fragment] at he
  | EXPR_FUNCCALL g a ih =>
    intro st he
    simp only [in_fragment, Bool.and_eq_true, decide_eq_true_eq] at he
    obtain ⟨f, hf⟩ := mem_names_find he.1
    obtain ⟨sa, ha, fa, pa, ca⟩ := ih (jit_write st [0x41, 0x50]) (by simpa using he.2)
    have fra := (jit_codegen_frame a _ sa ha).2.2.2
    simp only [jit_write_funcs, jit_write_pos, List.length_cons, List.length_nil, Nat.zero_add,
      Nat.reduceAdd] at fa pa ca fra
    have hpos : (jit_write (jit_write sa [0x41, 0x58]) [0xe8]).jit_pos = sa.jit_pos + 3 := by
      simp
    have hfin : jit_codegen st (EXPR_FUNCCALL g a)
        = .ok (jit_write sa ([0x41, 0x58, 0xe8]
            ++ lendian_bytes (wrap32 ((f.jitidx : Int) - ((sa.jit_pos + 3 : Nat) : Int) - 4))
            ++ [0x41, 0x58, 0x50])) := by
      simp only [jit_codegen, hf, ha]
      rw [hpos]
      simp only [write_lendian, jit_write_append]
      rfl
    refine ⟨_, hfin, by simp [fa], by simp [pa, code_size]; omega, f, sa.jit_pos, hf, ?_, ?_,
      bytes_at_jit_write sa _, by simp⟩
    · refine bytes_at_congr _ _ _ _ (fun i _ hi2 => ?_) (bytes_at_jit_write st [0x41, 0x50])
      simp only [List.length_cons, List.length_nil] at hi2
      rw [jit_write_mem_lt _ _ _ (by omega), fra i (by omega)]
    · refine code_at_congr _ _ _ _ _ _ (fun i _ hi2 => ?_) ca
      rw [jit_write_mem_lt _ _ _ hi2]
  | EXPR_IF c t f ihc iht ihf =>
    intro st he
    simp only [in_fragment, Bool.and_eq_true] at he
    obtain ⟨⟨hec, het⟩, hef⟩ := he
    obtain ⟨sc, hc, fc, pc, cc⟩ := ihc st hec
    obtain ⟨st2, ht, ft, pt, ct⟩ := iht (write_lendian
      (jit_write (jit_write (jit_write sc [0x58]) [0x48, 0x83, 0xf8, 0x00]) [0x0f, 0x84]) 0)
      (by simpa [fc] using het)
    obtain ⟨sf, hf, ff, pf, cf⟩ := ihf (write_lendian (jit_write st2 [0xe9]) 0)
      (by simpa [ft, fc] using hef)
    have frt := (jit_codegen_frame t _ st2 ht).2.2.2
    have frf := (jit_codegen_frame f _ sf hf).2.2.2
    have hhead : write_lendian
        (jit_write (jit_write (jit_write sc [0x58]) [0x48, 0x83, 0xf8, 0x00]) [0x0f, 0x84]) 0
        = jit_write sc ([0x58, 0x48, 0x83, 0xf8, 0x00, 0x0f, 0x84] ++ lendian_bytes 0) := by
      simp only [write_lendian, jit_write_append]; rfl
    have hjmp : write_lendian (jit_write st2 [0xe9]) 0
        = jit_write st2 (0xe9 :: lendian_bytes 0) := by
      simp only [write_lendian, jit_write_append]; rfl
    rw [hhead] at ht ft pt ct frt
    rw [hjmp] at hf ff pf cf frf
    simp only [jit_write_funcs, jit_write_pos, List.length_cons, List.length_nil,
      List.length_append, lendian_bytes_length, Nat.zero_add, Nat.reduceAdd] at ft pt ct frt ff pf cf frf
    rw [fc] at ct
    rw [ft, fc] at cf
    have hfin : jit_codegen st (EXPR_IF c t f)
        = .ok (fixup_lendian (fixup_lendian sf (sc.jit_pos + 7)
            (wrap32 (((st2.jit_pos + 5 : Nat) : Int) - ((sc.jit_pos + 11 : Nat) : Int))))
            (st2.jit_pos + 1) (wrap32 ((sf.jit_pos : Int) - ((st2.jit_pos + 5 : Nat) : Int)))) := by
      simp only [jit_codegen, hc, hhead, ht, hjmp, hf, jit_write_pos, List.length_cons,
        List.length_nil, List.length_append, lendian_bytes_length]
      rfl
    have le2 := code_at_le _ _ _ _ _ ct
    have le3 := code_at_le _ _ _ _ _ cf
    have le1 := code_at_le _ _ _ _ _ cc
    refine ⟨_, hfin, by simp [ff, ft, fc], by simp [pf, pt, pc, code_size]; omega,
      sc.jit_pos, st2.jit_pos, ?_, ?_, ?_, ?_, ?_⟩
    · refine code_at_congr _ _ _ _ _ _ (fun i _ hi2 => ?_) cc
      rw [fixup_lendian_mem_lt _ _ _ _ (by omega), fixup_lendian_mem_lt _ _ _ _ (by omega),
        frf i (by omega), jit_write_mem_lt _ _ _ (by omega), frt i (by omega),
        jit_write_mem_lt _ _ _ hi2]
    · intro k hk
      simp only [List.length_append, List.length_cons, List.length_nil,
        lendian_bytes_length] at hk
      rw [fixup_lendian_mem_lt _ _ _ _ (by omega)]
      by_cases h7 : k < 7
      · rw [fixup_lendian_mem_lt _ _ _ _ (by omega), frf _ (by omega),
          jit_write_mem_lt _ _ _ (by omega), frt _ (by omega)]
        rw [List.getD_append _ _ _ _ (by simpa using h7)]
        have := bytes_at_jit_write sc ([0x58, 0x48, 0x83, 0xf8, 0x00, 0x0f, 0x84] ++ lendian_bytes 0)
          k (by simp; omega)
        rw [this, List.getD_append _ _ _ _ (by simpa using h7)]
      · have := fixup_lendian_bytes sf (sc.jit_pos + 7)
          (wrap32 (((st2.jit_pos + 5 : Nat) : Int) - ((sc.jit_pos + 11 : Nat) : Int)))
          (k - 7) (by simp; omega)
        rw [show sc.jit_pos + k = sc.jit_pos + 7 + (k - 7) by omega, this,
          List.getD_append_right _ _ _ _ (by simp; omega)]
        simp
    · refine code_at_congr _ _ _ _ _ _ (fun i hi hi2 => ?_) ct
      rw [fixup_lendian_mem_lt _ _ _ _ (by omega), fixup_lendian_mem_ge _ _ _ _ (by omega),
        frf i (by omega), jit_write_mem_lt _ _ _ hi2]
    · intro k hk
      simp only [List.length_cons, lendian_bytes_length] at hk
      cases k with
      | zero =>
        rw [Nat.add_zero, fixup_lendian_mem_lt _ _ _ _ (by omega),
          fixup_lendian_mem_ge _ _ _ _ (by omega), frf _ (by omega)]
        exact bytes_at_jit_write st2 (0xe9 :: lendian_bytes 0) 0 (by simp)
      | succ j =>
        have := fixup_lendian_bytes (fixup_lendian sf (sc.jit_pos + 7)
            (wrap32 (((st2.jit_pos + 5 : Nat) : Int) - ((sc.jit_pos + 11 : Nat) : Int))))
          (st2.jit_pos + 1) (wrap32 ((sf.jit_pos : Int) - ((st2.jit_pos + 5 : Nat) : Int)))
          j (by simp; omega)
        rw [show st2.jit_pos + (j + 1) = st2.jit_pos + 1 + j by omega]
        simpa using this
    · refine code_at_congr _ _ _ _ _ _ (fun i hi hi2 => ?_) cf
      rw [fixup_lendian_mem_ge _ _ _ _ (by omega), fixup_lendian_mem_ge _ _ _ _ (by omega)]
  | EXPR_NOTHING => intro st he; simp [in_fragment] at he

/-! ## Definitions keep the table compiled -/

theorem in_fragment_mono (names more : List String) (e : Expr) :
    in_fragment names e = true → in_fragment (names ++ more) e = true := by
  induction e with
  | EXPR_ADD l r ihl ihr | EXPR_SUB l r ihl ihr | EXPR_LESSER l r ihl ihr =>
    intro h
    simp only [in_fragment, Bool.and_eq_true] at h ⊢
    exact ⟨ihl h.1, ihr h.2⟩
  | EXPR_INT v => intro h; simpa only [in_fragment] using h
  | EXPR_ARG => intro _; rfl
  | EXPR_FUNCDEF g b ih => intro h; simp [in_fragment] at h
  | EXPR_FUNCCALL g a ih =>
    intro h
    simp only [in_fragment, Bool.and_eq_true, decide_eq_true_eq] at h ⊢
    exact ⟨List.mem_append_left _ h.1, ih h.2⟩
  | EXPR_IF c t f ihc iht ihf =>
    intro h
    simp only [in_fragment, Bool.and_eq_true] at h ⊢
    exact ⟨⟨ihc h.1.1, iht h.1.2⟩, ihf h.2⟩
  | EXPR_NOTHING => intro h; simp [in_fragment] at h

theorem code_at_funcs_append (mem : Nat → Nat) (funcs more : List Function) (e : Expr) :
    ∀ p q, code_at mem funcs e p q → code_at mem (funcs ++ more) e p q := by
  induction e with
  | EXPR_ADD l r ihl ihr | EXPR_SUB l r ihl ihr | EXPR_LESSER l r ihl ihr =>
    intro p q h
    obtain ⟨p1, p2, h1, h2, hb, hq⟩ := h
    exact ⟨p1, p2, ihl _ _ h1, ihr _ _ h2, hb, hq⟩
  | EXPR_INT v => intro p q h; exact h
  | EXPR_ARG => intro p q h; exact h
  | EXPR_FUNCDEF g b ih => intro p q h; exact absurd h (by simp [code_at])
  | EXPR_FUNCCALL g a ih =>
    intro p q h
    obtain ⟨f, p1, hf, hb0, ha, hb1, hq⟩ := h
    exact ⟨f, p1, find_func_append hf more, hb0, ih _ _ ha, hb1, hq⟩
  | EXPR_IF c t f ihc iht ihf =>
    intro p q h
    obtain ⟨p1, p2, h1, hb1, h2, hb2, h3⟩ := h
    exact ⟨p1, p2, ihc _ _ h1, hb1, iht _ _ h2, hb2, ihf _ _ h3⟩
  | EXPR_NOTHING => intro p q h; exact absurd h (by simp [code_at])

theorem compiled_define (fuel : Nat) (st : State) (g : String) (b : Expr)
    (hc : compiled st.jit_mem st.funcs st.jit_pos)
    (hb : in_fragment (st.funcs.map Function.name ++ [g]) b = true) :
    ∃ s1, jit_eval (fuel + 1) st (EXPR_FUNCDEF g b) = .ok (0, s1) ∧
      s1.funcs = st.funcs ++ [⟨g, b, st.jit_pos⟩] ∧
      s1.jit_pos = st.jit_pos + code_size b + 2 ∧
      compiled s1.jit_mem s1.funcs s1.jit_pos := by
  obtain ⟨sb, hcg, fb, pb, cb⟩ := jit_codegen_fragment b
    { st with funcs := st.funcs ++ [⟨g, b, st.jit_pos⟩] } (by simpa using hb)
  have frb := (jit_codegen_frame b _ sb hcg).2.2.2
  simp only [] at fb pb cb frb
  have le1 := code_at_le _ _ _ _ _ cb
  refine ⟨jit_write sb [0x58, 0xc3], ?_, by simp [fb], by simp [pb], ?_⟩
  · simp only [jit_eval, jit_codegen, hcg, jit_write_append]; rfl
  · intro f hf
    simp only [jit_write_funcs, fb, List.mem_append, List.mem_singleton] at hf
    simp only [jit_write_funcs, fb, jit_write_pos, List.length_cons, List.length_nil]
    rcases hf with hf | hf
    · obtain ⟨hfr, q, cq, hret, hq⟩ := hc f hf
      refine ⟨by simpa using in_fragment_mono _ [g] _ hfr, q, ?_, ?_, by omega⟩
      · refine code_at_funcs_append _ _ _ _ _ _ (code_at_congr _ _ _ _ _ _ (fun i _ hi2 => ?_) cq)
        rw [jit_write_mem_lt _ _ _ (by omega), frb i (by omega)]
      · refine bytes_at_congr _ _ _ _ (fun i _ hi2 => ?_) hret
        simp only [List.length_cons, List.length_nil] at hi2
        rw [jit_write_mem_lt _ _ _ (by omega), frb i (by omega)]
    · subst hf
      refine ⟨by simpa using hb, sb.jit_pos, ?_, bytes_at_jit_write sb _, by omega⟩
      refine code_at_congr _ _ _ _ _ _ (fun i _ hi2 => ?_) cb
      rw [jit_write_mem_lt _ _ _ hi2]

/-! ## From instruction counts to `jit_call` -/

theorem run_of_steps (mem : Nat → Nat) (k : Nat) : ∀ (m m1 : Machine),
    steps mem k m = some m1 → m1.pc = HOST_RET → ∀ fuel, k < fuel → run mem fuel m = .ok m1 := by
  induction k with
  | zero =>
    intro m m1 h hpc fuel hf
    simp only [steps, Option.some.injEq] at h
    subst h
    obtain ⟨j, rfl⟩ : ∃ j, fuel = j + 1 := ⟨fuel - 1, by omega⟩
    simp [run, hpc]
  | succ k ih =>
    intro m m1 h hpc fuel hf
    obtain ⟨j, rfl⟩ : ∃ j, fuel = j + 1 := ⟨fuel - 1, by omega⟩
    simp only [steps] at h
    cases hs : step mem m with
    | none => simp [hs] at h
    | some m2 =>
      rw [hs] at h
      have hne : m.pc ≠ HOST_RET := by
        intro hh
        simp [step, hh, HOST_RET] at hs
      simp only [run, hne, if_false, hs]
      exact ih m2 m1 h hpc j (by omega)

/-! ## C1: compiled functions agree with the interpreter -/

theorem top_call (n : Nat) (si sj : State) (fnname : String) (a v : Int) (s1 : State)
    (hag : tables_agree si.funcs sj.funcs) (hc : compiled sj.jit_mem sj.funcs sj.jit_pos)
    (hpos : sj.jit_pos ≤ ARENA_SIZE) (ha : in_range64 a)
    (h : normal_eval n si (EXPR_FUNCCALL fnname (EXPR_INT a)) = .ok (v, s1)) :
    ∃ N, ∀ fuel, N ≤ fuel →
      jit_eval fuel sj (EXPR_FUNCCALL fnname (EXPR_INT a)) = .ok (v, sj) := by
  cases n with
  | zero => simp [normal_eval] at h
  | succ n =>
    simp only [normal_eval] at h
    obtain ⟨fi, a1, sa, sb, hf, harg, hbody, _⟩ := nev_call_ok.mp h
    cases n with
    | zero => simp [normal_eval] at harg
    | succ n =>
      simp only [normal_eval, normal_eval_with, Except.ok.injEq, Prod.mk.injEq] at harg
      obtain ⟨ha1, hsa⟩ := harg
      subst ha1 hsa
      obtain ⟨fj, hfj, hbe⟩ := tables_agree_find _ _ _ _ hag hf
      obtain ⟨hfrag, qb, cb, hret, hqb⟩ := hc fj (find_func_mem hfj)
      rw [← hbe] at hbody
      obtain ⟨_, _, sim⟩ := simulation sj.jit_mem sj.funcs sj.jit_pos hc hpos (n + 1)
        { si with funcarg := a } fj.fnexpr v sb hag hfrag ha hbody
      obtain ⟨m1, r1, pc1, _, st1⟩ := sim fj.jitidx qb
        ⟨fj.jitidx, 0, 0, a, false, false, false, [HOST_RET]⟩ cb (by omega) rfl rfl
      obtain ⟨m2, r2, pc2, _, rax2, _⟩ := block_call_leave sj.jit_mem m1 qb v HOST_RET [] hret
        (by omega) pc1 st1
      obtain ⟨k, hk⟩ := r1.trans r2
      refine ⟨k + 3, fun fuel hfuel => ?_⟩
      obtain ⟨j, rfl⟩ : ∃ j, fuel = j + 2 := ⟨fuel - 2, by omega⟩
      have hrun := run_of_steps sj.jit_mem k _ m2 hk pc2 (j + 1) (by omega)
      simp only [jit_eval, hfj, normal_eval_with, jit_call, hrun, rax2]

theorem defs_then_call (fnname : String) (a : Int) (ha : in_range64 a) (n : Nat) :
    ∀ (defs : List (String × Expr)) (si sj : State), tables_agree si.funcs sj.funcs →
      compiled sj.jit_mem sj.funcs sj.jit_pos →
      sj.jit_pos + defs_code_size defs ≤ ARENA_SIZE →
      defs_in_fragment (sj.funcs.map Function.name) defs = true →
      (run_exprs (normal_eval n) si (def_call_program defs fnname a)).2 = none →
      ∃ v, run_exprs (normal_eval n) si (def_call_program defs fnname a)
          = (List.replicate defs.length 0 ++ [v], none) ∧
        ∃ N, ∀ fuel, N ≤ fuel →
          run_exprs (jit_eval fuel) sj (def_call_program defs fnname a)
            = (List.replicate defs.length 0 ++ [v], none) := by
  intro defs
  induction defs with
  | nil =>
    intro si sj hag hc hpos _ hterm
    simp only [def_call_program, List.map_nil, List.nil_append, run_exprs] at hterm ⊢
    rw [if_neg (by simp)] at hterm ⊢
    cases hcall : normal_eval n si (EXPR_FUNCCALL fnname (EXPR_INT a)) with
    | error x => rw [hcall] at hterm; simp at hterm
    | ok r =>
      obtain ⟨v, s1⟩ := r
      obtain ⟨N, hN⟩ := top_call n si sj fnname a v s1 hag hc (by simpa [defs_code_size] using hpos)
        ha hcall
      refine ⟨v, by simp, N, fun fuel hfuel => ?_⟩
      rw [if_neg (by simp), hN fuel hfuel]
      simp
  | cons d ds ih =>
    intro si sj hag hc hpos hfrag hterm
    simp only [defs_code_size] at hpos
    simp only [defs_in_fragment, Bool.and_eq_true] at hfrag
    have hprog : def_call_program (d :: ds) fnname a
        = EXPR_FUNCDEF d.1 d.2 :: def_call_program ds fnname a := rfl
    rw [hprog] at hterm ⊢
    simp only [run_exprs] at hterm ⊢
    rw [if_neg (by simp)] at hterm ⊢
    cases n with
    | zero => simp [normal_eval] at hterm
    | succ n =>
      have hdef : normal_eval (n + 1) si (EXPR_FUNCDEF d.1 d.2)
          = .ok (0, { si with funcs := si.funcs ++ [⟨d.1, d.2, 0⟩] }) := rfl
      rw [hdef] at hterm ⊢
      simp only [] at hterm ⊢
      obtain ⟨sj1, hj, fj1, pj1, cj1⟩ := compiled_define 0 sj d.1 d.2 hc hfrag.1
      have hag1 : tables_agree (si.funcs ++ [⟨d.1, d.2, 0⟩]) sj1.funcs := by
        rw [fj1]
        simp only [tables_agree, List.map_append, List.map_cons, List.map_nil] at hag ⊢
        rw [hag]
      obtain ⟨v, hv, N, hN⟩ := ih { si with funcs := si.funcs ++ [⟨d.1, d.2, 0⟩] } sj1 hag1 cj1
        (by rw [pj1]; omega) (by rw [fj1]; simpa using hfrag.2) hterm
      refine ⟨v, by rw [hv]; simp [List.replicate_succ], max N 1, fun fuel hfuel => ?_⟩
      obtain ⟨j, rfl⟩ : ∃ j, fuel = j + 1 := ⟨fuel - 1, by omega⟩
      obtain ⟨sj2, hj2, _, _, _⟩ := compiled_define j sj d.1 d.2 hc hfrag.1
      have hsame : sj2 = sj1 := by
        simp only [jit_eval] at hj hj2
        rw [hj] at hj2
        simp only [Except.ok.injEq, Prod.mk.injEq, true_and] at hj2
        exact hj2.symm
      subst hsame
      rw [if_neg (by simp), hj2]
      simp only []
      rw [hN (j + 1) (by omega)]
      simp [List.replicate_succ]

theorem compiled_init : compiled State.init.jit_mem State.init.funcs State.init.jit_pos :=
  fun _ hf => absurd hf (List.not_mem_nil _)

/-- C1, as the code has it. For every program made of top-level definitions
`name_1 = body_1`, ..., `name_k = body_k` followed by a call `fnname.a`, where
each body is built from `Int` literals `0 ≤ n < 2^31`, `Arg`, `Add`, `Sub`,
`Lesser`, `If` and calls to functions defined before it or to itself, `a` is a
64-bit value, there are at most 1000 definitions (the entries of `funcs`) and
the emitted code fits the arena: if the interpreter's run of
the program ends without a fatal exit, it prints `0` for each definition and a
value `v` for the call, and the JIT build (every definition compiled by
`jit_codegen`, the call executed by `jit_call` on the emitted bytes) prints the
same `0 ... 0 v`, for every recursion and instruction bound from some `N` on. -/
theorem jit_agrees_with_interpreter (defs : List (String × Expr)) (fnname : String) (a : Int)
    (n : Nat) (hfrag : defs_in_fragment [] defs = true) (ha : in_range64 a)
    (hcap : defs.length ≤ FUNCS_SIZE) (harena : defs_code_size defs ≤ ARENA_SIZE)
    (hterm : (run_exprs (normal_eval n) State.init (def_call_program defs fnname a)).2 = none) :
    ∃ v, run_exprs (normal_eval n) State.init (def_call_program defs fnname a)
        = (List.replicate defs.length 0 ++ [v], none) ∧
      ∃ N, ∀ fuel, N ≤ fuel →
        run_exprs (jit_eval fuel) State.init (def_call_program defs fnname a)
          = (List.replicate defs.length 0 ++ [v], none) := by
  have _ := hcap
  exact defs_then_call fnname a ha n defs State.init State.init rfl compiled_init
    (by simpa [State.init] using harena) hfrag hterm

/-- Witness for C1: `sq = . + .` then `sq.5` yields 0 then 10 in both modes. -/
theorem jit_agrees_with_interpreter_witness :
    (∃ v, run_exprs (normal_eval 3) State.init
          (def_call_program [("sq", EXPR_ADD EXPR_ARG EXPR_ARG)] "sq" 5)
        = (List.replicate [("sq", EXPR_ADD EXPR_ARG EXPR_ARG)].length 0 ++ [v], none) ∧
      ∃ N, ∀ fuel, N ≤ fuel →
        run_exprs (jit_eval fuel) State.init
            (def_call_program [("sq", EXPR_ADD EXPR_ARG EXPR_ARG)] "sq" 5)
          = (List.replicate [("sq", EXPR_ADD EXPR_ARG EXPR_ARG)].length 0 ++ [v], none)) ∧
    run_exprs (normal_eval 3) State.init
        (def_call_program [("sq", EXPR_ADD EXPR_ARG EXPR_ARG)] "sq" 5) = ([0, 10], none) ∧
    run_exprs (jit_eval 12) State.init
        (def_call_program [("sq", EXPR_ADD EXPR_ARG EXPR_ARG)] "sq" 5) = ([0, 10], none) :=
  ⟨jit_agrees_with_interpreter [("sq", EXPR_ADD EXPR_ARG EXPR_ARG)] "sq" 5 3 (by decide)
      (by decide) (by decide) (by decide) (by decide),
    by decide, by decide⟩

theorem big_tree_fragment (names : List String) (n : Nat) :
    in_fragment names (big_tree n) = true := by
  induction n with
  | zero => rfl
  | succ n ih => simp only [big_tree, in_fragment, ih, Bool.and_self]

theorem big_tree_code_size (n : Nat) : code_size (big_tree n) + 6 = 8 * 2 ^ n := by
  induction n with
  | zero => rfl
  | succ n ih => simp only [big_tree, code_size, pow_succ]; omega

/-- Counterexample to C1 as stated. After `h = (g = 1)` the body `h.0` is a
call to a function already in the table with a literal argument, yet for
`k = h.0` the call `k.5` yields 0 in the interpreter and 1 in the JIT build,
because the code of `h` is the code of the definition nested in it. -/
theorem jit_disagrees_counterexample :
    in_fragment ["h", "k"] (EXPR_FUNCCALL "h" (EXPR_INT 0)) = true ∧
    run_exprs (normal_eval 10) State.init
      [EXPR_FUNCDEF "h" (EXPR_FUNCDEF "g" (EXPR_INT 1)),
       EXPR_FUNCDEF "k" (EXPR_FUNCCALL "h" (EXPR_INT 0)),
       EXPR_FUNCCALL "k" (EXPR_INT 5)] = ([0, 0, 0], none) ∧
    run_exprs (jit_eval 20) State.init
      [EXPR_FUNCDEF "h" (EXPR_FUNCDEF "g" (EXPR_INT 1)),
       EXPR_FUNCDEF "k" (EXPR_FUNCCALL "h" (EXPR_INT 0)),
       EXPR_FUNCCALL "k" (EXPR_INT 5)] = ([0, 0, 1], none) := by
  refine ⟨by decide, by decide, by decide⟩

/-! ## C11: the value of an integer literal -/

theorem digitVal_lt_ten (c : Char) (h : c.isDigit = true) : digitVal c < 10 := by
  simp only [Char.isDigit, Bool.and_eq_true, decide_eq_true_eq] at h
  obtain ⟨h1, h2⟩ := h
  have a1 : 48 ≤ c.val.toNat := UInt32.le_toNat_of_le (by decide) h1
  have a2 : c.val.toNat ≤ 57 := UInt32.toNat_le_of_le (by decide) h2
  simp only [digitVal, Char.toNat]
  omega

theorem strtoll_acc_decimal (ds : List Char) : ∀ acc, (∀ c ∈ ds, c.isDigit = true) →
    strtoll_acc 10 acc ds = ds.foldl (fun acc c => acc * 10 + digitVal c) acc := by
  induction ds with
  | nil => intro acc _; rfl
  | cons d ds ih =>
    intro acc h
    have hd := digitVal_lt_ten d (h d (List.mem_cons_self _ _))
    simp only [strtoll_acc, hd, if_true, List.foldl_cons]
    exact ih _ (fun c hc => h c (List.mem_cons_of_mem _ hc))

theorem strtoll_base_ten (ds : List Char) (h0 : ds.head? ≠ some '0') :
    strtoll ds = if LLONG_MAX < strtoll_acc 10 0 ds then (LLONG_MAX : Int)
      else (strtoll_acc 10 0 ds : Int) := by
  unfold strtoll
  split
  · simp at h0
  · rfl

theorem strtoll_decimal (ds : List Char) (hd : ∀ c ∈ ds, c.isDigit = true)
    (h0 : ds.head? ≠ some '0') (hfit : decimal_value ds ≤ LLONG_MAX) :
    strtoll ds = (decimal_value ds : Int) := by
  rw [strtoll_base_ten ds h0, strtoll_acc_decimal ds 0 hd]
  rw [if_neg (by unfold decimal_value at hfit; omega)]
  rfl
/-- C11, as the code has it. For every input consisting of zero or more
spaces, a run `ds` of 1 to 255 decimal digits that does not begin with `0`
(or is the single digit `0`) and whose base-10 value fits in a signed 64-bit
integer, and a rest that starts neither with a digit nor with the byte 0xFF,
`lex` returns `INTLIT` with `intval` the base-10 value of `ds` and leaves
exactly the rest unread. -/
theorem lex_decimal (n : Nat) (ds rest : List Char) (hlit : is_literal ds)
    (h0 : ds.head? ≠ some '0' ∨ ds = ['0']) (hfit : decimal_value ds ≤ LLONG_MAX)
    (hrest : ∀ c r, rest = c :: r → c.isDigit = false ∧ c ≠ '\xff') :
    lex (spaces n ++ (ds ++ rest)) = (TOKEN_INTLIT (decimal_value ds : Int), rest) := by
  rw [lex_intlit n ds rest hlit hrest]
  rcases h0 with h0 | h0
  · rw [strtoll_decimal ds hlit.2.2 h0 hfit]
  · subst h0; rfl

/-- Witness for C11: two spaces, `42`, then `+ 1`. -/
theorem lex_decimal_witness :
    lex (spaces 2 ++ (['4', '2'] ++ ['+', ' ', '1'])) = (TOKEN_INTLIT 42, ['+', ' ', '1']) :=
  lex_decimal 2 ['4', '2'] ['+', ' ', '1'] (by decide) (Or.inl (by decide)) (by decide)
    (fun c r h => by simp only [List.cons.injEq] at h; rw [← h.1]; decide)

set_option maxRecDepth 100000 in
/-- Counterexample to C11 as stated: the run `010` has base-10 value 10 but is
lexed as 8 (`strtoll` with base 0 reads a leading `0` as octal); the run of
255 zeros followed by `1`, of base-10 value 1, is lexed as 0 with the digit `1`
left unread, because the token buffer holds 255 characters; and after the run
`1` the rest that starts with the byte 0xFF is not left unread as it is: the
byte is dropped, because `char nc` holds it as `EOF` and `ungetc(EOF)` pushes
nothing back. -/
theorem lex_decimal_counterexample :
    lex ['0', '1', '0', '\n'] = (TOKEN_INTLIT 8, ['\n']) ∧
    decimal_value ['0', '1', '0'] = 10 ∧
    lex (List.replicate 255 '0' ++ ['1', '\n']) = (TOKEN_INTLIT 0, ['1', '\n']) ∧
    decimal_value (List.replicate 255 '0' ++ ['1']) = 1 ∧
    '\xff'.isDigit = false ∧
    lex (['1'] ++ ['\xff', '+', '2', '\n']) = (TOKEN_INTLIT 1, ['+', '2', '\n']) ∧
    decimal_value ['1'] = 1 := by
  refine ⟨by decide, by decide, by decide, by decide, by decide, by decide, by decide⟩

/-! ## C12: the sub-expressions of `if` -/

/-- C12, as the code has it. Each of the three sub-expressions of an `if` is
read by its own call of `parse`, which ends at a terminator (`;`, `)`, newline
or end of input) and consumes it; when the three calls succeed one after the
other, the result is `If(cond, tbranch, fbranch)`. So the program text
`fact = if . < 2; 1; . - 1`, `fact.5` is accepted: the first line parses to
`FuncDef(fact, If(Lesser(Arg, Int 2), Int 1, Sub(Arg, Int 1)))`, the second to
`FuncCall(fact, Int 5)`, and the results are 0 then 4 in both builds. -/
theorem parse_if_terminated :
    (∀ (n : Nat) (inp r r1 r2 r3 : List Char) (c t f : Expr),
      lex inp = (TOKEN_IDENT "if", r) → parse n r = .ok (c, r1) → parse n r1 = .ok (t, r2) →
      parse n r2 = .ok (f, r3) →
      parse_intlit (n + 1) inp = .ok (EXPR_IF c t f, r3) ∧
        parse (n + 2) inp = .ok (EXPR_IF c t f, r3)) ∧
    parse 40 "fact = if . < 2; 1; . - 1\nfact.5\n".toList
      = .ok (EXPR_FUNCDEF "fact" (EXPR_IF (EXPR_LESSER EXPR_ARG (EXPR_INT 2)) (EXPR_INT 1)
          (EXPR_SUB EXPR_ARG (EXPR_INT 1))), "fact.5\n".toList) ∧
    parse 40 "fact.5\n".toList = .ok (EXPR_FUNCCALL "fact" (EXPR_INT 5), []) ∧
    main (normal_eval 10) 40 5 State.init "fact = if . < 2; 1; . - 1\nfact.5\n".toList
      = ([0, 4], none) ∧
    main (jit_eval 30) 40 5 State.init "fact = if . < 2; 1; . - 1\nfact.5\n".toList
      = ([0, 4], none) ∧
    stdout_text [0, 4] = "0 4 \n" := by
  refine ⟨?_, by rfl, by rfl, by decide, by decide, by decide⟩
  intro n inp r r1 r2 r3 c t f hlex hc ht hf
  have h1 : parse_intlit (n + 1) inp = .ok (EXPR_IF c t f, r3) := by
    simp only [parse_intlit, hlex, if_true, hc, ht, hf]
  exact ⟨h1, by rw [parse, h1]⟩

/-- Witness for C12: the text `if . < 2; 1; . - 1` followed by a newline. -/
theorem parse_if_terminated_witness :
    parse_intlit 4 "if . < 2; 1; . - 1\n".toList
        = .ok (EXPR_IF (EXPR_LESSER EXPR_ARG (EXPR_INT 2)) (EXPR_INT 1)
            (EXPR_SUB EXPR_ARG (EXPR_INT 1)), []) ∧
      parse 5 "if . < 2; 1; . - 1\n".toList
        = .ok (EXPR_IF (EXPR_LESSER EXPR_ARG (EXPR_INT 2)) (EXPR_INT 1)
            (EXPR_SUB EXPR_ARG (EXPR_INT 1)), []) :=
  parse_if_terminated.1 3 "if . < 2; 1; . - 1\n".toList " . < 2; 1; . - 1\n".toList
    " 1; . - 1\n".toList " . - 1\n".toList [] _ _ _ (by decide) (by rfl) (by rfl) (by rfl)

/-- Counterexample to C12 as stated: the text `fact = if . < 2 1 . - 1` is not
accepted. The parse of the condition reads `. < 2` and then, instead of an
operator or a terminator, the literal `1`, which is the failed assertion of the
loop of `parse`; `main` prints nothing. -/
theorem parse_if_spaces_counterexample :
    parse 40 "fact = if . < 2 1 . - 1\nfact.5\n".toList = .error Err.assertion ∧
    main (normal_eval 10) 40 5 State.init "fact = if . < 2 1 . - 1\nfact.5\n".toList
      = ([], some Err.assertion) ∧
    main (jit_eval 30) 40 5 State.init "fact = if . < 2 1 . - 1\nfact.5\n".toList
      = ([], some Err.assertion) := by
  refine ⟨by rfl, by decide, by decide⟩

/-! ## C13: a line that ends in a function call -/

/-- C13, as the code has it. The argument of a call is read by its own call of
`parse`, which consumes the terminator that ends it; the `parse` around the call
then goes on reading after that terminator and ends only at a further
terminator or at the end of input. So a definition whose body is the call
`f.(f..)` needs three more terminators after the `)`: the program text
`f = . + 1`, `g = f.(f..);;`, `g.10` is accepted, parses to
`FuncDef(f, Add(Arg, Int 1))`, `FuncDef(g, FuncCall(f, FuncCall(f, Arg)))` and
`FuncCall(g, Int 10)`, and its results are 0, 0 and 12 in both builds. -/
theorem parse_call_terminators :
    (∀ (n : Nat) (inp r r1 r2 : List Char) (t : String) (a : Expr),
      lex inp = (TOKEN_IDENT t, r) → t ≠ "if" → lex r = (TOKEN_DOT, r1) →
      parse n r1 = .ok (a, r2) →
      parse_intlit (n + 1) inp = .ok (EXPR_FUNCCALL t a, r2) ∧
        parse (n + 2) inp = parse_loop (n + 1) (EXPR_FUNCCALL t a) r2) ∧
    parse 40 "f = . + 1\ng = f.(f..);;\ng.10\n".toList
      = .ok (EXPR_FUNCDEF "f" (EXPR_ADD EXPR_ARG (EXPR_INT 1)),
          "g = f.(f..);;\ng.10\n".toList) ∧
    parse 40 "g = f.(f..);;\ng.10\n".toList
      = .ok (EXPR_FUNCDEF "g" (EXPR_FUNCCALL "f" (EXPR_FUNCCALL "f" EXPR_ARG)),
          "g.10\n".toList) ∧
    parse 40 "g.10\n".toList = .ok (EXPR_FUNCCALL "g" (EXPR_INT 10), []) ∧
    main (normal_eval 10) 40 5 State.init "f = . + 1\ng = f.(f..);;\ng.10\n".toList
      = ([0, 0, 12], none) ∧
    main (jit_eval 40) 40 5 State.init "f = . + 1\ng = f.(f..);;\ng.10\n".toList
      = ([0, 0, 12], none) ∧
    stdout_text [0, 0, 12] = "0 0 12 \n" := by
  refine ⟨?_, by rfl, by rfl, by rfl, by decide, by decide, by decide⟩
  intro n inp r r1 r2 t a hlex hif hdot ha
  have h1 : parse_intlit (n + 1) inp = .ok (EXPR_FUNCCALL t a, r2) := by
    simp only [parse_intlit, hlex, hif, if_false, hdot, ha]
  exact ⟨h1, by rw [parse, h1]⟩

/-- Witness for C13: the call `g.10` followed by a newline and then the end of
input, resp. a further line. -/
theorem parse_call_terminators_witness :
    (parse_intlit 3 "g.10\n".toList = .ok (EXPR_FUNCCALL "g" (EXPR_INT 10), []) ∧
      parse 4 "g.10\n".toList = parse_loop 3 (EXPR_FUNCCALL "g" (EXPR_INT 10)) []) ∧
    (parse_intlit 3 "g.10\n1 + 2\n".toList
        = .ok (EXPR_FUNCCALL "g" (EXPR_INT 10), "1 + 2\n".toList) ∧
      parse 4 "g.10\n1 + 2\n".toList
        = parse_loop 3 (EXPR_FUNCCALL "g" (EXPR_INT 10)) "1 + 2\n".toList) ∧
    parse 4 "g.10\n1 + 2\n".toList = .error Err.assertion :=
  ⟨parse_call_terminators.1 2 "g.10\n".toList ".10\n".toList "10\n".toList [] "g" _
      (by decide) (by decide) (by decide) (by rfl),
   parse_call_terminators.1 2 "g.10\n1 + 2\n".toList ".10\n1 + 2\n".toList
      "10\n1 + 2\n".toList "1 + 2\n".toList "g" _ (by decide) (by decide) (by decide) (by rfl),
   by rfl⟩

/-- Counterexample to C13 as stated: the second line of the program
`f = . + 1`, `g = f.(f..)`, `g.10` does not end at its newline. The `)` ends the
argument `.`, the newline ends the parenthesised `f..`, and the `parse` of the
argument of the outer `f` then reads the `g` of the third line where it wants
an operator: `main` prints the 0 of the first line and stops in the failed
assertion. -/
theorem parse_call_line_counterexample :
    parse 40 "g = f.(f..)\ng.10\n".toList = .error Err.assertion ∧
    main (normal_eval 10) 40 5 State.init "f = . + 1\ng = f.(f..)\ng.10\n".toList
      = ([0], some Err.assertion) ∧
    main (jit_eval 40) 40 5 State.init "f = . + 1\ng = f.(f..)\ng.10\n".toList
      = ([0], some Err.assertion) := by
  refine ⟨by rfl, by decide, by decide⟩

/-! ## C20: parsing terminates -/

theorem lex_run_length (p : Char → Bool) (n : Nat) : ∀ (cs : List Char),
    (lex_run p n cs).2.length ≤ cs.length := by
  induction n with
  | zero => intro cs; simp [lex_run]
  | succ n ih =>
    intro cs
    cases cs with
    | nil => simp [lex_run]
    | cons c cs =>
      simp only [lex_run]
      split
      · have := ih cs
        simp only [List.length_cons]
        omega
      · split
        · simp
        · simp

theorem lex_length (inp : List Char) :
    (lex inp).2.length ≤ inp.length ∧
      ((lex inp).1 ≠ TOKEN_NOTHING → (lex inp).2.length < inp.length) := by
  induction inp with
  | nil => exact ⟨Nat.le_refl _, fun h => absurd rfl h⟩
  | cons c cs ih =>
    rw [lex]
    have hd := lex_run_length Char.isDigit 254 cs
    have ha := lex_run_length Char.isAlpha 254 cs
    generalize lex_run Char.isDigit 254 cs = rd at hd ⊢
    generalize lex_run Char.isAlpha 254 cs = ra at ha ⊢
    have hlt : cs.length < (c :: cs).length := Nat.lt_succ_self _
    have hle : cs.length ≤ (c :: cs).length := Nat.le_succ _
    by_cases h1 : c = ' '
    · rw [if_pos h1]
      exact ⟨Nat.le_trans ih.1 hle, fun h => Nat.lt_of_lt_of_le (ih.2 h) hle⟩
    rw [if_neg h1]
    by_cases h2 : c = ';'
    · rw [if_pos h2]; exact ⟨hle, fun h => absurd rfl h⟩
    rw [if_neg h2]
    by_cases h3 : c = '\n'
    · rw [if_pos h3]; exact ⟨hle, fun h => absurd rfl h⟩
    rw [if_neg h3]
    by_cases h4 : c = '+'
    · rw [if_pos h4]; exact ⟨hle, fun _ => hlt⟩
    rw [if_neg h4]
    by_cases h5 : c = '-'
    · rw [if_pos h5]; exact ⟨hle, fun _ => hlt⟩
    rw [if_neg h5]
    by_cases h6 : c = '<'
    · rw [if_pos h6]; exact ⟨hle, fun _ => hlt⟩
    rw [if_neg h6]
    by_cases h7 : c = '='
    · rw [if_pos h7]; exact ⟨hle, fun _ => hlt⟩
    rw [if_neg h7]
    by_cases h8 : c = '.'
    · rw [if_pos h8]; exact ⟨hle, fun _ => hlt⟩
    rw [if_neg h8]
    by_cases h9 : c = '('
    · rw [if_pos h9]; exact ⟨hle, fun _ => hlt⟩
    rw [if_neg h9]
    by_cases h10 : c = ')'
    · rw [if_pos h10]; exact ⟨hle, fun h => absurd rfl h⟩
    rw [if_neg h10]
    by_cases h11 : c.isDigit = true
    · rw [if_pos h11]
      exact ⟨Nat.le_trans hd hle, fun _ => Nat.lt_of_le_of_lt hd hlt⟩
    rw [if_neg h11]
    by_cases h12 : c.isAlpha = true
    · rw [if_pos h12]
      exact ⟨Nat.le_trans ha hle, fun _ => Nat.lt_of_le_of_lt ha hlt⟩
    rw [if_neg h12]
    exact ⟨hle, fun h => absurd rfl h⟩

theorem lex_nil : lex [] = (TOKEN_NOTHING, []) := rfl

theorem parse_done_mono {inp r : List Char} {res : PResult} (hr : r.length ≤ inp.length)
    (h : parse_done r res) : parse_done inp res := by
  rcases h with ⟨e, r1, h1, h2⟩ | h
  · exact Or.inl ⟨e, r1, h1, Nat.le_trans h2 hr⟩
  · exact Or.inr h

theorem parse_done_ok {inp r : List Char} {e : Expr} {res : PResult}
    (h : parse_done inp res) (hres : res = .ok (e, r)) : r.length ≤ inp.length := by
  rcases h with ⟨e1, r1, h1, h2⟩ | h
  · rw [hres] at h1
    injection h1 with h1
    injection h1 with _ h3
    rw [h3]; exact h2
  · rw [hres] at h; cases h

theorem parse_done_error {inp : List Char} {x : Err} {res : PResult}
    (h : parse_done inp res) (hres : res = .error x) : x = Err.assertion := by
  rcases h with ⟨e1, r1, h1, _⟩ | h
  · rw [hres] at h1; cases h1
  · rw [hres] at h; injection h

theorem parse_intlit_done (n : Nat) (inp : List Char)
    (ihP : ∀ r, 2 * r.length + 2 ≤ n → parse_done r (parse n r))
    (hn : 2 * inp.length + 1 ≤ n + 1) : parse_done inp (parse_intlit (n + 1) inp) := by
  have hl := lex_length inp
  rw [parse_intlit]
  rcases h : lex inp with ⟨t, r⟩
  rw [h] at hl
  simp only at hl
  have hle : r.length ≤ inp.length := hl.1
  cases t with
  | TOKEN_INTLIT v => exact Or.inl ⟨_, _, rfl, hle⟩
  | TOKEN_DOT => exact Or.inl ⟨_, _, rfl, hle⟩
  | TOKEN_PLUS => exact Or.inl ⟨_, _, rfl, hle⟩
  | TOKEN_MINUS => exact Or.inl ⟨_, _, rfl, hle⟩
  | TOKEN_LESSER => exact Or.inl ⟨_, _, rfl, hle⟩
  | TOKEN_EQ => exact Or.inl ⟨_, _, rfl, hle⟩
  | TOKEN_NOTHING => exact Or.inl ⟨_, _, rfl, hle⟩
  | TOKEN_RPAREN => exact Or.inl ⟨_, _, rfl, hle⟩
  | TOKEN_LPAREN =>
    have hlt : r.length < inp.length := hl.2 (by simp)
    exact parse_done_mono hle (ihP r (by omega))
  | TOKEN_IDENT t =>
    have hlt : r.length < inp.length := hl.2 (by simp)
    simp only []
    split
    · cases h1 : parse n r with
      | error x =>
        exact Or.inr (by rw [parse_done_error (ihP r (by omega)) h1])
      | ok v1 =>
        obtain ⟨c, r1⟩ := v1
        have hr1 := parse_done_ok (ihP r (by omega)) h1
        simp only []
        cases h2 : parse n r1 with
        | error x =>
          exact Or.inr (by rw [parse_done_error (ihP r1 (by omega)) h2])
        | ok v2 =>
          obtain ⟨tb, r2⟩ := v2
          have hr2 := parse_done_ok (ihP r1 (by omega)) h2
          simp only []
          cases h3 : parse n r2 with
          | error x =>
            exact Or.inr (by rw [parse_done_error (ihP r2 (by omega)) h3])
          | ok v3 =>
            obtain ⟨fb, r3⟩ := v3
            have hr3 := parse_done_ok (ihP r2 (by omega)) h3
            exact Or.inl ⟨_, _, rfl, by omega⟩
    · have hl2 := (lex_length r).1
      rcases h0 : lex r with ⟨t2, r1⟩
      rw [h0] at hl2
      simp only at hl2
      cases t2 with
      | TOKEN_EQ =>
        simp only []
        cases h1 : parse n r1 with
        | error x =>
          exact Or.inr (by rw [parse_done_error (ihP r1 (by omega)) h1])
        | ok v1 =>
          obtain ⟨b, r2⟩ := v1
          have hr1 := parse_done_ok (ihP r1 (by omega)) h1
          exact Or.inl ⟨_, _, rfl, by omega⟩
      | TOKEN_DOT =>
        simp only []
        cases h1 : parse n r1 with
        | error x =>
          exact Or.inr (by rw [parse_done_error (ihP r1 (by omega)) h1])
        | ok v1 =>
          obtain ⟨b, r2⟩ := v1
          have hr1 := parse_done_ok (ihP r1 (by omega)) h1
          exact Or.inl ⟨_, _, rfl, by omega⟩
      | _ => exact Or.inr rfl

theorem parse_loop_done (n : Nat) (l : Expr) (inp : List Char)
    (ihI : ∀ r, 2 * r.length + 1 ≤ n → parse_done r (parse_intlit n r))
    (ihL : ∀ l r, 2 * r.length + 1 ≤ n → parse_done r (parse_loop n l r))
    (hn : 2 * inp.length + 1 ≤ n + 1) : parse_done inp (parse_loop (n + 1) l inp) := by
  have hl := lex_length inp
  rw [parse_loop]
  rcases h : lex inp with ⟨t, r⟩
  rw [h] at hl
  simp only at hl
  have hle : r.length ≤ inp.length := hl.1
  have step : ∀ (mk : Expr → Expr), r.length < inp.length →
      parse_done inp (match parse_intlit n r with
        | .error e => .error e
        | .ok (rhs, r1) => parse_loop n (mk rhs) r1) := by
    intro mk hlt
    cases h1 : parse_intlit n r with
    | error x => exact Or.inr (by rw [parse_done_error (ihI r (by omega)) h1])
    | ok v1 =>
      obtain ⟨rhs, r1⟩ := v1
      have hr1 := parse_done_ok (ihI r (by omega)) h1
      exact parse_done_mono (by omega) (ihL (mk rhs) r1 (by omega))
  cases t with
  | TOKEN_NOTHING => exact Or.inl ⟨_, _, rfl, hle⟩
  | TOKEN_PLUS => exact step (EXPR_ADD l) (hl.2 (by simp))
  | TOKEN_MINUS => exact step (EXPR_SUB l) (hl.2 (by simp))
  | TOKEN_LESSER => exact step (EXPR_LESSER l) (hl.2 (by simp))
  | _ => exact Or.inr rfl

theorem parse_step_done (n : Nat) (inp : List Char)
    (ihI : ∀ r, 2 * r.length + 1 ≤ n → parse_done r (parse_intlit n r))
    (ihL : ∀ l r, 2 * r.length + 1 ≤ n → parse_done r (parse_loop n l r))
    (hn : 2 * inp.length + 2 ≤ n + 1) : parse_done inp (parse (n + 1) inp) := by
  rw [parse]
  cases h1 : parse_intlit n inp with
  | error x => exact Or.inr (by rw [parse_done_error (ihI inp (by omega)) h1])
  | ok v1 =>
    obtain ⟨e, r⟩ := v1
    have hr := parse_done_ok (ihI inp (by omega)) h1
    have hL := fun l => parse_done_mono hr (ihL l r (by omega))
    cases e with
    | EXPR_FUNCDEF t b => exact Or.inl ⟨_, _, rfl, hr⟩
    | EXPR_IF c tb fb => exact Or.inl ⟨_, _, rfl, hr⟩
    | _ => exact hL _

theorem parse_fuel_aux : ∀ n,
    (∀ inp, 2 * inp.length + 1 ≤ n → parse_done inp (parse_intlit n inp)) ∧
    (∀ inp, 2 * inp.length + 2 ≤ n → parse_done inp (parse n inp)) ∧
    (∀ l inp, 2 * inp.length + 1 ≤ n → parse_done inp (parse_loop n l inp)) := by
  intro n
  induction n with
  | zero =>
    exact ⟨fun _ h => absurd h (by omega), fun _ h => absurd h (by omega),
      fun _ _ h => absurd h (by omega)⟩
  | succ n ih =>
    obtain ⟨ihI, ihP, ihL⟩ := ih
    exact ⟨fun inp h => parse_intlit_done n inp ihP h,
      fun inp h => parse_step_done n inp ihI ihL h,
      fun l inp h => parse_loop_done n l inp ihI ihL h⟩

theorem fuel_le_bind {a b : PResult} {f g : Expr → List Char → PResult} :
    fuel_le a b → (∀ e r, fuel_le (f e r) (g e r)) →
    fuel_le (match a with
        | .error x => .error x
        | .ok (e, r) => f e r)
      (match b with
        | .error x => .error x
        | .ok (e, r) => g e r) := by
  intro h hf
  rcases h with h | h
  · rw [h]; exact Or.inl rfl
  · rw [h]
    cases b with
    | error x => exact Or.inr rfl
    | ok v => obtain ⟨e, r⟩ := v; exact hf e r

theorem fuel_le_refl (a : PResult) : fuel_le a a := Or.inr rfl

theorem parse_intlit_fuel_le (n : Nat) (inp : List Char)
    (ihP : ∀ r, fuel_le (parse n r) (parse (n + 1) r)) :
    fuel_le (parse_intlit (n + 1) inp) (parse_intlit (n + 2) inp) := by
  rw [parse_intlit, parse_intlit]
  rcases h : lex inp with ⟨t, r⟩
  cases t with
  | TOKEN_LPAREN => exact ihP r
  | TOKEN_IDENT t =>
    simp only []
    by_cases hif : t = "if"
    · rw [if_pos hif, if_pos hif]
      exact fuel_le_bind (ihP r) (fun c r1 =>
        fuel_le_bind (ihP r1) (fun tb r2 =>
          fuel_le_bind (ihP r2) (fun fb r3 => fuel_le_refl _)))
    · rw [if_neg hif, if_neg hif]
      rcases h0 : lex r with ⟨t2, r1⟩
      cases t2 with
      | TOKEN_EQ => exact fuel_le_bind (ihP r1) (fun b r2 => fuel_le_refl _)
      | TOKEN_DOT => exact fuel_le_bind (ihP r1) (fun b r2 => fuel_le_refl _)
      | _ => exact fuel_le_refl _
  | _ => exact fuel_le_refl _

theorem parse_loop_fuel_le (n : Nat) (l : Expr) (inp : List Char)
    (ihI : ∀ r, fuel_le (parse_intlit n r) (parse_intlit (n + 1) r))
    (ihL : ∀ l r, fuel_le (parse_loop n l r) (parse_loop (n + 1) l r)) :
    fuel_le (parse_loop (n + 1) l inp) (parse_loop (n + 2) l inp) := by
  rw [parse_loop, parse_loop]
  rcases h : lex inp with ⟨t, r⟩
  cases t with
  | TOKEN_PLUS => exact fuel_le_bind (ihI r) (fun rhs r1 => ihL _ r1)
  | TOKEN_MINUS => exact fuel_le_bind (ihI r) (fun rhs r1 => ihL _ r1)
  | TOKEN_LESSER => exact fuel_le_bind (ihI r) (fun rhs r1 => ihL _ r1)
  | _ => exact fuel_le_refl _

theorem parse_step_fuel_le (n : Nat) (inp : List Char)
    (ihI : ∀ r, fuel_le (parse_intlit n r) (parse_intlit (n + 1) r))
    (ihL : ∀ l r, fuel_le (parse_loop n l r) (parse_loop (n + 1) l r)) :
    fuel_le (parse (n + 1) inp) (parse (n + 2) inp) := by
  rw [parse, parse]
  rcases ihI inp with h | h
  · rw [h]; exact Or.inl rfl
  · rw [← h]
    cases h1 : parse_intlit n inp with
    | error x => exact Or.inr rfl
    | ok v =>
      obtain ⟨e, r⟩ := v
      cases e with
      | EXPR_FUNCDEF t b => exact Or.inr rfl
      | EXPR_IF c tb fb => exact Or.inr rfl
      | _ => exact ihL _ r

theorem parse_fuel_le_aux : ∀ n,
    (∀ inp, fuel_le (parse_intlit n inp) (parse_intlit (n + 1) inp)) ∧
    (∀ inp, fuel_le (parse n inp) (parse (n + 1) inp)) ∧
    (∀ l inp, fuel_le (parse_loop n l inp) (parse_loop (n + 1) l inp)) := by
  intro n
  induction n with
  | zero => exact ⟨fun _ => Or.inl rfl, fun _ => Or.inl rfl, fun _ _ => Or.inl rfl⟩
  | succ n ih =>
    obtain ⟨ihI, ihP, ihL⟩ := ih
    exact ⟨fun inp => parse_intlit_fuel_le n inp ihP,
      fun inp => parse_step_fuel_le n inp ihI ihL,
      fun l inp => parse_loop_fuel_le n l inp ihI ihL⟩

theorem parse_done_not_fuel {inp : List Char} {res : PResult} (h : parse_done inp res) :
    res ≠ .error Err.fuel := by
  rcases h with ⟨e, r, h1, _⟩ | h
  · rw [h1]; intro hc; cases hc
  · rw [h]; intro hc; cases hc

theorem parse_fuel_stable (inp : List Char) (n : Nat) (hn : 2 * inp.length + 2 ≤ n) :
    ∀ k, parse (n + k) inp = parse n inp := by
  intro k
  induction k with
  | zero => rfl
  | succ k ih =>
    rcases (parse_fuel_le_aux (n + k)).2.1 inp with h | h
    · exact absurd h (parse_done_not_fuel ((parse_fuel_aux (n + k)).2.1 inp (by omega)))
    · rw [← ih, h]; rfl

/-- C20: parsing terminates. For every finite input `inp`, `parse` with a
recursion budget of `2 * inp.length + 2` or more returns the same outcome as
with exactly that budget, and the outcome is a tree together with unread input
no longer than `inp`, or the fatal exit of a failed `assert`: the budget is
never what ends it. The measure is the unread input: `lex` never lengthens it
and shortens it whenever it returns a token other than `TOKEN_NOTHING`, so the
call of `parse` after `(` gets a strictly shorter input, as do the calls after
`if`, after `name =` and after `name .`; and at the end of input `lex` returns
`TOKEN_NOTHING` at once. -/
theorem parse_terminates :
    (∀ (inp : List Char) (n : Nat), 2 * inp.length + 2 ≤ n →
      parse n inp = parse (2 * inp.length + 2) inp ∧
      ((∃ e r, parse n inp = .ok (e, r) ∧ r.length ≤ inp.length) ∨
        parse n inp = .error Err.assertion)) ∧
    (∀ (inp : List Char), (lex inp).2.length ≤ inp.length ∧
      ((lex inp).1 ≠ TOKEN_NOTHING → (lex inp).2.length < inp.length)) ∧
    (∀ (n : Nat) (inp r : List Char), lex inp = (TOKEN_LPAREN, r) →
      parse_intlit (n + 1) inp = parse n r ∧ r.length < inp.length) ∧
    (∀ (inp r : List Char) (t : String), lex inp = (TOKEN_IDENT t, r) →
      r.length < inp.length ∧
      ∀ r1, lex r = (TOKEN_EQ, r1) ∨ lex r = (TOKEN_DOT, r1) → r1.length < r.length) ∧
    lex [] = (TOKEN_NOTHING, []) := by
  refine ⟨?_, lex_length, ?_, ?_, rfl⟩
  · intro inp n hn
    obtain ⟨k, rfl⟩ := Nat.exists_eq_add_of_le hn
    exact ⟨parse_fuel_stable inp _ (Nat.le_refl _) k, (parse_fuel_aux _).2.1 inp hn⟩
  · intro n inp r h
    have hl := (lex_length inp).2
    rw [h] at hl
    exact ⟨by rw [parse_intlit, h], hl (by simp)⟩
  · intro inp r t h
    have hl := (lex_length inp).2
    rw [h] at hl
    refine ⟨hl (by simp), ?_⟩
    intro r1 h1
    have hl1 := (lex_length r).2
    rcases h1 with h1 | h1 <;> rw [h1] at hl1 <;> exact hl1 (by simp)

/-- Witness for C20: the input `(1 + 2) - . ;` of 13 characters, parsed with a
budget of 40. -/
theorem parse_terminates_witness :
    2 * "(1 + 2) - . ;".toList.length + 2 ≤ 40 ∧
    parse 40 "(1 + 2) - . ;".toList
      = parse (2 * "(1 + 2) - . ;".toList.length + 2) "(1 + 2) - . ;".toList ∧
    ((∃ e r, parse 40 "(1 + 2) - . ;".toList = .ok (e, r) ∧
        r.length ≤ "(1 + 2) - . ;".toList.length) ∨
      parse 40 "(1 + 2) - . ;".toList = .error Err.assertion) :=
  ⟨by decide, parse_terminates.1 "(1 + 2) - . ;".toList 40 (by decide)⟩

/-! ## C18: emission only appends -/

theorem write_lendian_mem_ge (st : State) (x : Int) (i : Nat) (h : st.jit_pos + 4 ≤ i) :
    (write_lendian st x).jit_mem i = st.jit_mem i :=
  jit_write_mem_ge st _ i (by simpa using h)

/-- The bytes at and above the final cursor are the ones `jit_codegen` found:
every write of a call, fixups included, is below its final cursor. -/
theorem jit_codegen_frame_above (e : Expr) : ∀ (st s1 : State), jit_codegen st e = .ok s1 →
    ∀ i, s1.jit_pos ≤ i → s1.jit_mem i = st.jit_mem i := by
  induction e with
  | EXPR_ADD l r ihl ihr | EXPR_SUB l r ihl ihr | EXPR_LESSER l r ihl ihr =>
    intro st s1 h
    simp only [jit_codegen] at h
    split at h
    · simp at h
    · rename_i sa ha
      split at h
      · simp at h
      · rename_i sb hb
        simp only [Except.ok.injEq] at h
        have p2 := (jit_codegen_frame _ _ _ hb).2.2.1
        subst h
        intro i hi
        simp only [jit_write_pos, List.length_cons, List.length_nil] at hi
        rw [jit_write_mem_ge _ _ _ (by simp; omega), ihr _ _ hb i (by omega),
          ihl _ _ ha i (by omega)]
  | EXPR_INT v =>
    intro st s1 h
    simp only [jit_codegen, Except.ok.injEq] at h
    subst h
    intro i hi
    simp only [write_lendian_pos, jit_write_pos, List.length_cons, List.length_nil] at hi
    rw [write_lendian_mem_ge _ _ _ (by simp; omega), jit_write_mem_ge _ _ _ (by simp; omega)]
  | EXPR_ARG =>
    intro st s1 h
    simp only [jit_codegen, Except.ok.injEq] at h
    subst h
    intro i hi
    simp only [jit_write_pos, List.length_cons, List.length_nil] at hi
    rw [jit_write_mem_ge _ _ _ (by simp; omega)]
  | EXPR_FUNCDEF fnname b ih =>
    intro st s1 h
    simp only [jit_codegen] at h
    split at h
    · simp at h
    · rename_i sa ha
      simp only [Except.ok.injEq] at h
      subst h
      intro i hi
      simp only [jit_write_pos, List.length_cons, List.length_nil] at hi
      rw [jit_write_mem_ge _ _ _ (by simp; omega), jit_write_mem_ge _ _ _ (by simp; omega),
        ih _ _ ha i (by omega)]
  | EXPR_FUNCCALL fnname a ih =>
    intro st s1 h
    simp only [jit_codegen] at h
    split at h
    · rename_i f hf
      split at h
      · simp at h
      · rename_i sa ha
        simp only [Except.ok.injEq] at h
        have p1 := (jit_codegen_frame _ _ _ ha).2.2.1
        simp only [jit_write_pos, List.length_cons, List.length_nil] at p1
        subst h
        intro i hi
        simp only [jit_write_pos, write_lendian_pos, List.length_cons, List.length_nil] at hi
        rw [jit_write_mem_ge _ _ _ (by simp; omega), write_lendian_mem_ge _ _ _ (by simp; omega),
          jit_write_mem_ge _ _ _ (by simp; omega), jit_write_mem_ge _ _ _ (by simp; omega),
          ih _ _ ha i (by omega), jit_write_mem_ge _ _ _ (by simp; omega)]
    · simp at h
  | EXPR_IF c t f ihc iht ihf =>
    intro st s1 h
    simp only [jit_codegen] at h
    split at h
    · simp at h
    · rename_i sa ha
      split at h
      · simp at h
      · rename_i sb hb
        split at h
        · simp at h
        · rename_i sc hc
          simp only [Except.ok.injEq] at h
          have p2 := (jit_codegen_frame _ _ _ hb).2.2.1
          have p3 := (jit_codegen_frame _ _ _ hc).2.2.1
          simp only [jit_write_pos, write_lendian_pos, List.length_cons,
            List.length_nil] at p2 p3
          subst h
          intro i hi
          simp only [fixup_lendian_pos, jit_write_pos, write_lendian_pos, List.length_cons,
            List.length_nil] at hi ⊢
          rw [fixup_lendian_mem_ge _ _ _ _ (by omega), fixup_lendian_mem_ge _ _ _ _ (by omega),
            ihf _ _ hc i (by omega), write_lendian_mem_ge _ _ _ (by simp; omega),
            jit_write_mem_ge _ _ _ (by simp; omega), iht _ _ hb i (by omega),
            write_lendian_mem_ge _ _ _ (by simp; omega), jit_write_mem_ge _ _ _ (by simp; omega),
            jit_write_mem_ge _ _ _ (by simp; omega), jit_write_mem_ge _ _ _ (by simp; omega),
            ihc _ _ ha i (by omega)]
  | EXPR_NOTHING => intro st s1 h; simp [jit_codegen] at h

/-- The steps of `jit_codegen` on an `if`, read off a successful call: `s1` is
the state after the condition, `s3` after the true branch, `s5` after the false
branch; the two fixups go to offsets `s1.jit_pos + 7` and `s3.jit_pos + 1`. -/
theorem jit_codegen_if_inv (c t f : Expr) (st s6 : State)
    (h : jit_codegen st (EXPR_IF c t f) = .ok s6) :
    ∃ s1 s3 s5, jit_codegen st c = .ok s1 ∧
      jit_codegen (write_lendian (jit_write (jit_write (jit_write s1 [0x58])
        [0x48, 0x83, 0xf8, 0x00]) [0x0f, 0x84]) 0) t = .ok s3 ∧
      jit_codegen (write_lendian (jit_write s3 [0xe9]) 0) f = .ok s5 ∧
      s6 = fixup_lendian
        (fixup_lendian s5 (s1.jit_pos + 7)
          (wrap32 (((s3.jit_pos + 5 : Nat) : Int) - ((s1.jit_pos + 11 : Nat) : Int))))
        (s3.jit_pos + 1) (wrap32 ((s5.jit_pos : Int) - ((s3.jit_pos + 5 : Nat) : Int))) := by
  simp only [jit_codegen] at h
  split at h
  · simp at h
  · rename_i sa ha
    split at h
    · simp at h
    · rename_i sb hb
      split at h
      · simp at h
      · rename_i sc hc
        simp only [Except.ok.injEq] at h
        refine ⟨sa, sb, sc, ha, hb, hc, ?_⟩
        rw [← h]
        simp only [jit_write_pos, write_lendian_pos, List.length_cons, List.length_nil]
        rfl

/-- C18: emission only appends. Whenever `jit_codegen` returns on an expression
`e` from a state with cursor `p`, the cursor afterwards is at least `p`, every
byte below `p` is unchanged, and so is every byte at or above the final cursor:
all writes of the call, jump fixups included, fall inside `[p, jit_pos)`.
`fixup_lendian` changes only the four bytes at its offset and leaves the cursor
alone. And on every `if` the two fixups of the call go to the four bytes at
`s1.jit_pos + 7` and at `s3.jit_pos + 1` (`s1`, `s3` the states after the
condition and after the true branch), which are the placeholders that this same
call wrote with `write_lendian 0` from those cursors, inside `[p, jit_pos)`. -/
theorem jit_codegen_appends :
    (∀ (e : Expr) (st s1 : State), jit_codegen st e = .ok s1 →
      st.jit_pos ≤ s1.jit_pos ∧
      (∀ i, i < st.jit_pos → s1.jit_mem i = st.jit_mem i) ∧
      (∀ i, s1.jit_pos ≤ i → s1.jit_mem i = st.jit_mem i)) ∧
    (∀ (st : State) (k : Nat) (x : Int),
      (fixup_lendian st k x).jit_pos = st.jit_pos ∧
      ∀ i, i < k ∨ k + 4 ≤ i → (fixup_lendian st k x).jit_mem i = st.jit_mem i) ∧
    (∀ (c t f : Expr) (st s6 : State), jit_codegen st (EXPR_IF c t f) = .ok s6 →
      ∃ s1 s3 s5 x y, jit_codegen st c = .ok s1 ∧
        jit_codegen (write_lendian (jit_write (jit_write (jit_write s1 [0x58])
          [0x48, 0x83, 0xf8, 0x00]) [0x0f, 0x84]) 0) t = .ok s3 ∧
        jit_codegen (write_lendian (jit_write s3 [0xe9]) 0) f = .ok s5 ∧
        s6 = fixup_lendian (fixup_lendian s5 (s1.jit_pos + 7) x) (s3.jit_pos + 1) y ∧
        (jit_write (jit_write (jit_write s1 [0x58]) [0x48, 0x83, 0xf8, 0x00])
          [0x0f, 0x84]).jit_pos = s1.jit_pos + 7 ∧
        (jit_write s3 [0xe9]).jit_pos = s3.jit_pos + 1 ∧
        st.jit_pos ≤ s1.jit_pos + 7 ∧ s1.jit_pos + 7 + 4 ≤ s3.jit_pos + 1 ∧
        s3.jit_pos + 1 + 4 ≤ s6.jit_pos) := by
  refine ⟨?_, ?_, ?_⟩
  · intro e st s1 h
    exact ⟨(jit_codegen_frame e st s1 h).2.2.1, (jit_codegen_frame e st s1 h).2.2.2,
      jit_codegen_frame_above e st s1 h⟩
  · intro st k x
    refine ⟨rfl, ?_⟩
    intro i hi
    rcases hi with hi | hi
    · exact fixup_lendian_mem_lt st k x i hi
    · exact fixup_lendian_mem_ge st k x i hi
  · intro c t f st s6 h
    obtain ⟨s1, s3, s5, h1, h3, h5, h6⟩ := jit_codegen_if_inv c t f st s6 h
    have p1 := (jit_codegen_frame _ _ _ h1).2.2.1
    have p3 := (jit_codegen_frame _ _ _ h3).2.2.1
    have p5 := (jit_codegen_frame _ _ _ h5).2.2.1
    simp only [jit_write_pos, write_lendian_pos, List.length_cons, List.length_nil] at p3 p5
    refine ⟨s1, s3, s5, _, _, h1, h3, h5, h6, by simp, by simp, by omega, by omega, ?_⟩
    rw [h6]
    simp only [fixup_lendian_pos]
    omega

/-- Witness for C18: the code of `if 1; 2; 3` emitted on the initial state. -/
theorem jit_codegen_appends_witness :
    ∃ s1, jit_codegen State.init (EXPR_IF (EXPR_INT 1) (EXPR_INT 2) (EXPR_INT 3)) = .ok s1 ∧
      State.init.jit_pos ≤ s1.jit_pos ∧
      (∀ i, i < State.init.jit_pos → s1.jit_mem i = State.init.jit_mem i) ∧
      (∀ i, s1.jit_pos ≤ i → s1.jit_mem i = State.init.jit_mem i) :=
  ⟨_, rfl, jit_codegen_appends.1 (EXPR_IF (EXPR_INT 1) (EXPR_INT 2) (EXPR_INT 3))
    State.init _ rfl⟩

/-! ## C15: jump fixups -/

/-- The bytes of an `if` after both fixups: the opcodes `0f 84` and `e9` where
they were emitted, and the two displacement fields as the fixups wrote them. -/
theorem if_fixup_bytes (t f : Expr) (s1 s3 s5 : State) (x y : Int)
    (h3 : jit_codegen (write_lendian (jit_write (jit_write (jit_write s1 [0x58])
      [0x48, 0x83, 0xf8, 0x00]) [0x0f, 0x84]) 0) t = .ok s3)
    (h5 : jit_codegen (write_lendian (jit_write s3 [0xe9]) 0) f = .ok s5) :
    s1.jit_pos + 11 ≤ s3.jit_pos ∧ s3.jit_pos + 5 ≤ s5.jit_pos ∧
    bytes_at (fixup_lendian (fixup_lendian s5 (s1.jit_pos + 7) x) (s3.jit_pos + 1) y).jit_mem
      (s1.jit_pos + 5) [0x0f, 0x84] ∧
    bytes_at (fixup_lendian (fixup_lendian s5 (s1.jit_pos + 7) x) (s3.jit_pos + 1) y).jit_mem
      (s1.jit_pos + 7) (lendian_bytes x) ∧
    bytes_at (fixup_lendian (fixup_lendian s5 (s1.jit_pos + 7) x) (s3.jit_pos + 1) y).jit_mem
      s3.jit_pos [0xe9] ∧
    bytes_at (fixup_lendian (fixup_lendian s5 (s1.jit_pos + 7) x) (s3.jit_pos + 1) y).jit_mem
      (s3.jit_pos + 1) (lendian_bytes y) := by
  obtain ⟨_, _, p3, q3⟩ := jit_codegen_frame _ _ _ h3
  obtain ⟨_, _, p5, q5⟩ := jit_codegen_frame _ _ _ h5
  simp only [jit_write_pos, write_lendian_pos, List.length_cons, List.length_nil] at p3 p5 q3 q5
  refine ⟨by omega, by omega, ?_, ?_, ?_, fixup_lendian_bytes _ _ _⟩
  · intro k hk
    simp only [List.length_cons, List.length_nil] at hk
    rw [fixup_lendian_mem_lt _ _ _ _ (by omega), fixup_lendian_mem_lt _ _ _ _ (by omega),
      q5 _ (by omega), write_lendian_mem_lt _ _ _ (by simp; omega),
      jit_write_mem_lt _ _ _ (by omega), q3 _ (by omega),
      write_lendian_mem_lt _ _ _ (by simp; omega)]
    have := jit_write_mem_at (jit_write (jit_write s1 [0x58]) [0x48, 0x83, 0xf8, 0x00])
      [0x0f, 0x84] k (by simpa using hk)
    simpa using this
  · apply bytes_at_congr _ _ _ _ _ (fixup_lendian_bytes s5 (s1.jit_pos + 7) x)
    intro i hi hi2
    simp only [lendian_bytes_length] at hi2
    exact fixup_lendian_mem_lt _ _ _ _ (by omega)
  · intro k hk
    simp only [List.length_cons, List.length_nil] at hk
    have hk0 : k = 0 := by omega
    subst hk0
    rw [fixup_lendian_mem_lt _ _ _ _ (by omega), fixup_lendian_mem_ge _ _ _ _ (by omega),
      q5 _ (by omega), write_lendian_mem_lt _ _ _ (by simp)]
    exact jit_write_mem_at s3 [0xe9] 0 (by simp)

/-- C15: fixup correctness. Let `jit_codegen` succeed on `If(c, t, f)` with the
emitted code inside the arena, `s1`, `s3`, `s5` being the states after the code
of `c`, of `t` and of `f`. The opcode `0f 84` is at `s1.jit_pos + 5`, its
4-byte field at `FIXUP_F = s1.jit_pos + 7`; the opcode `e9` is at `s3.jit_pos`,
its field at `FIXUP_E = s3.jit_pos + 1`; the code of `f` starts at
`F_LABEL = s3.jit_pos + 5` and ends just before `E_LABEL = s5.jit_pos`, which is
the final cursor. In the final arena contents the field at `FIXUP_F`, read as a
little-endian 32-bit integer, is `F_LABEL - (FIXUP_F + 4)` and the field at
`FIXUP_E` is `E_LABEL - (FIXUP_E + 4)`; so the conditional jump, when taken,
continues at `F_LABEL` and the unconditional jump at `E_LABEL`. -/
theorem if_fixups (c t f : Expr) (st s6 : State)
    (h : jit_codegen st (EXPR_IF c t f) = .ok s6) (harena : s6.jit_pos ≤ ARENA_SIZE) :
    ∃ s1 s3 s5, jit_codegen st c = .ok s1 ∧
      jit_codegen (write_lendian (jit_write (jit_write (jit_write s1 [0x58])
        [0x48, 0x83, 0xf8, 0x00]) [0x0f, 0x84]) 0) t = .ok s3 ∧
      jit_codegen (write_lendian (jit_write s3 [0xe9]) 0) f = .ok s5 ∧
      (write_lendian (jit_write s3 [0xe9]) 0).jit_pos = s3.jit_pos + 5 ∧
      s6.jit_pos = s5.jit_pos ∧
      bytes_at s6.jit_mem (s1.jit_pos + 5) [0x0f, 0x84] ∧
      bytes_at s6.jit_mem s3.jit_pos [0xe9] ∧
      imm32 s6.jit_mem ((s1.jit_pos + 7 : Nat) : Int) 0
        = ((s3.jit_pos + 5 : Nat) : Int) - (((s1.jit_pos + 7 : Nat) : Int) + 4) ∧
      imm32 s6.jit_mem ((s3.jit_pos + 1 : Nat) : Int) 0
        = (s5.jit_pos : Int) - (((s3.jit_pos + 1 : Nat) : Int) + 4) ∧
      (∀ m : Machine, m.pc = ((s1.jit_pos + 5 : Nat) : Int) → m.zf = true →
        step s6.jit_mem m = some { m with pc := ((s3.jit_pos + 5 : Nat) : Int) }) ∧
      (∀ m : Machine, m.pc = (s3.jit_pos : Int) →
        step s6.jit_mem m = some { m with pc := (s5.jit_pos : Int) }) := by
  obtain ⟨s1, s3, s5, h1, h3, h5, h6⟩ := jit_codegen_if_inv c t f st s6 h
  obtain ⟨le1, le2, bF, fF, bE, fE⟩ := if_fixup_bytes t f s1 s3 s5
    (wrap32 (((s3.jit_pos + 5 : Nat) : Int) - ((s1.jit_pos + 11 : Nat) : Int)))
    (wrap32 ((s5.jit_pos : Int) - ((s3.jit_pos + 5 : Nat) : Int))) h3 h5
  rw [← h6] at bF fF bE fE
  have hpos : s6.jit_pos = s5.jit_pos := by rw [h6]; rfl
  rw [hpos] at harena
  have hA := arena_size_eq
  have iF : imm32 s6.jit_mem ((s1.jit_pos + 7 : Nat) : Int) 0
      = ((s3.jit_pos + 5 : Nat) : Int) - (((s1.jit_pos + 7 : Nat) : Int) + 4) := by
    rw [imm32_lendian s6.jit_mem _ (s1.jit_pos + 7) 0 _ rfl fF]
    rw [wrap32_wrap32_small _ (by push_cast; omega) (by push_cast; omega)]
    push_cast; omega
  have iE : imm32 s6.jit_mem ((s3.jit_pos + 1 : Nat) : Int) 0
      = (s5.jit_pos : Int) - (((s3.jit_pos + 1 : Nat) : Int) + 4) := by
    rw [imm32_lendian s6.jit_mem _ (s3.jit_pos + 1) 0 _ rfl fE]
    rw [wrap32_wrap32_small _ (by push_cast; omega) (by push_cast; omega)]
    push_cast; omega
  refine ⟨s1, s3, s5, h1, h3, h5, by simp, hpos, bF, bE, iF, iE, ?_, ?_⟩
  · intro m hpc hzf
    have b0 := bF 0 (by simp)
    have b1 := bF 1 (by simp)
    simp only [List.getD_cons_zero, List.getD_cons_succ, Nat.add_zero] at b0 b1
    rw [step_je s6.jit_mem m (s1.jit_pos + 5) hpc (by omega) b0 b1, hzf]
    have e2 : imm32 s6.jit_mem ((s1.jit_pos + 5 : Nat) : Int) 2
        = imm32 s6.jit_mem ((s1.jit_pos + 7 : Nat) : Int) 0 := by
      simp only [imm32, fetch, Int.toNat_ofNat]
    have hl : ((s1.jit_pos + 5 : Nat) : Int) + 6
        + (((s3.jit_pos + 5 : Nat) : Int) - (((s1.jit_pos + 7 : Nat) : Int) + 4))
        = ((s3.jit_pos + 5 : Nat) : Int) := by push_cast; omega
    rw [e2, iF, hl]
    rfl
  · intro m hpc
    have b0 := bE 0 (by simp)
    simp only [List.getD_cons_zero, Nat.add_zero] at b0
    rw [step_jmp s6.jit_mem m s3.jit_pos hpc (by omega) b0]
    have e1 : imm32 s6.jit_mem (s3.jit_pos : Int) 1
        = imm32 s6.jit_mem ((s3.jit_pos + 1 : Nat) : Int) 0 := by
      simp only [imm32, fetch, Int.toNat_ofNat]
    have hl : (s3.jit_pos : Int) + 5
        + ((s5.jit_pos : Int) - (((s3.jit_pos + 1 : Nat) : Int) + 4)) = (s5.jit_pos : Int) := by
      push_cast; omega
    rw [e1, iE, hl]

set_option maxRecDepth 100000 in
/-- Witness for C15: the code of `if 1; 2; 3` emitted on the initial state. The
fields are at offsets 12 and 22, the false branch occupies `[26, 31)`. -/
theorem if_fixups_witness :
    ∃ s6 s1 s3 s5 : State,
      jit_codegen State.init (EXPR_IF (EXPR_INT 1) (EXPR_INT 2) (EXPR_INT 3)) = .ok s6 ∧
      s6.jit_pos ≤ ARENA_SIZE ∧ jit_codegen State.init (EXPR_INT 1) = .ok s1 ∧
      s6.jit_pos = s5.jit_pos ∧
      imm32 s6.jit_mem ((s1.jit_pos + 7 : Nat) : Int) 0
        = ((s3.jit_pos + 5 : Nat) : Int) - (((s1.jit_pos + 7 : Nat) : Int) + 4) ∧
      imm32 s6.jit_mem ((s3.jit_pos + 1 : Nat) : Int) 0
        = (s5.jit_pos : Int) - (((s3.jit_pos + 1 : Nat) : Int) + 4) :=
  match if_fixups (EXPR_INT 1) (EXPR_INT 2) (EXPR_INT 3) State.init _ rfl (by decide) with
  | ⟨s1, s3, s5, h1, _, _, _, hp, _, _, iF, iE, _⟩ =>
    ⟨_, s1, s3, s5, rfl, by decide, h1, hp, iF, iE⟩

/-! ## C16: call displacement -/

/-- The steps of `jit_codegen` on a call of a declared function, read off a
successful call: `sa` is the state after the code of the argument. -/
theorem jit_codegen_call_inv (fnname : String) (a : Expr) (st s1 : State) (fn : Function)
    (hf : find_func st.funcs fnname = some fn)
    (h : jit_codegen st (EXPR_FUNCCALL fnname a) = .ok s1) :
    ∃ sa, jit_codegen (jit_write st [0x41, 0x50]) a = .ok sa ∧
      s1 = jit_write (write_lendian (jit_write (jit_write sa [0x41, 0x58]) [0xe8])
        (wrap32 ((fn.jitidx : Int) - ((sa.jit_pos + 3 : Nat) : Int) - 4))) [0x41, 0x58, 0x50] := by
  simp only [jit_codegen, hf] at h
  split at h
  · simp at h
  · rename_i sa ha
    simp only [Except.ok.injEq] at h
    refine ⟨sa, ha, ?_⟩
    rw [← h]
    simp only [jit_write_pos, List.length_cons, List.length_nil]

/-- C16: call displacement. Let `jit_codegen` succeed on `FuncCall(name, arg)`
against a table whose first entry named `name` has offset `k = fn.jitidx`, with
the code and `k` inside the arena, and let `sa` be the state after the code of
`arg`, whatever `arg` emitted or defined. The opcode `e8` is at
`sa.jit_pos + 2` and its 4-byte field at `q = sa.jit_pos + 3`; the field, read
as a little-endian two's-complement 32-bit integer `d`, satisfies
`q + 4 + d = k`, so the call instruction continues at `k` with the return
address `q + 4` pushed. -/
theorem call_displacement (fnname : String) (a : Expr) (st s1 : State) (fn : Function)
    (hf : find_func st.funcs fnname = some fn)
    (h : jit_codegen st (EXPR_FUNCCALL fnname a) = .ok s1)
    (harena : s1.jit_pos ≤ ARENA_SIZE) (hk : fn.jitidx ≤ ARENA_SIZE) :
    ∃ sa, jit_codegen (jit_write st [0x41, 0x50]) a = .ok sa ∧
      s1.jit_pos = sa.jit_pos + 10 ∧
      s1.jit_mem (sa.jit_pos + 2) = 0xe8 ∧
      bytes_at s1.jit_mem (sa.jit_pos + 3)
        (lendian_bytes (wrap32 ((fn.jitidx : Int) - ((sa.jit_pos + 3 : Nat) : Int) - 4))) ∧
      ((sa.jit_pos + 3 : Nat) : Int) + 4 + imm32 s1.jit_mem ((sa.jit_pos + 3 : Nat) : Int) 0
        = (fn.jitidx : Int) ∧
      (∀ m : Machine, m.pc = ((sa.jit_pos + 2 : Nat) : Int) →
        step s1.jit_mem m = some { m with pc := (fn.jitidx : Int),
                                          stack := ((sa.jit_pos + 7 : Nat) : Int) :: m.stack }) := by
  obtain ⟨sa, ha, hs⟩ := jit_codegen_call_inv fnname a st s1 fn hf h
  have hpos : s1.jit_pos = sa.jit_pos + 10 := by rw [hs]; simp
  have hA := arena_size_eq
  have b0 : s1.jit_mem (sa.jit_pos + 2) = 0xe8 := by
    rw [hs, jit_write_mem_lt _ _ _ (by simp), write_lendian_mem_lt _ _ _ (by simp)]
    have := jit_write_mem_at (jit_write sa [0x41, 0x58]) [0xe8] 0 (by simp)
    simpa using this
  have bL : bytes_at s1.jit_mem (sa.jit_pos + 3)
      (lendian_bytes (wrap32 ((fn.jitidx : Int) - ((sa.jit_pos + 3 : Nat) : Int) - 4))) := by
    rw [hs]
    intro k hk4
    simp only [lendian_bytes_length] at hk4
    rw [jit_write_mem_lt _ _ _ (by simp; omega)]
    have := jit_write_mem_at (jit_write (jit_write sa [0x41, 0x58]) [0xe8])
      (lendian_bytes (wrap32 ((fn.jitidx : Int) - ((sa.jit_pos + 3 : Nat) : Int) - 4))) k
      (by simpa using hk4)
    simpa [write_lendian, Nat.add_assoc] using this
  have hd : imm32 s1.jit_mem ((sa.jit_pos + 3 : Nat) : Int) 0
      = (fn.jitidx : Int) - ((sa.jit_pos + 3 : Nat) : Int) - 4 := by
    rw [imm32_lendian s1.jit_mem _ (sa.jit_pos + 3) 0 _ rfl bL]
    exact wrap32_wrap32_small _ (by push_cast; omega) (by push_cast; omega)
  refine ⟨sa, ha, hpos, b0, bL, by rw [hd]; omega, ?_⟩
  intro m hpc
  rw [step_call s1.jit_mem m (sa.jit_pos + 2) hpc (by omega) b0]
  have e1 : imm32 s1.jit_mem ((sa.jit_pos + 2 : Nat) : Int) 1
      = imm32 s1.jit_mem ((sa.jit_pos + 3 : Nat) : Int) 0 := by
    simp only [imm32, fetch, Int.toNat_ofNat]
  have hl : ((sa.jit_pos + 2 : Nat) : Int) + 5
      + ((fn.jitidx : Int) - ((sa.jit_pos + 3 : Nat) : Int) - 4) = (fn.jitidx : Int) := by
    push_cast; omega
  have hr : ((sa.jit_pos + 2 : Nat) : Int) + 5 = ((sa.jit_pos + 7 : Nat) : Int) := by
    push_cast; omega
  rw [e1, hd, hl, hr]

set_option maxRecDepth 100000 in
/-- Witness for C16: after `sq = . + .` (code at offset 0), the call
`sq.(g = 7)`, whose argument emits code and defines a function. -/
theorem call_displacement_witness :
    ∃ s1 sa : State,
      find_func sq_jit_state.funcs "sq" = some ⟨"sq", EXPR_ADD EXPR_ARG EXPR_ARG, 0⟩ ∧
      jit_codegen sq_jit_state (EXPR_FUNCCALL "sq" (EXPR_FUNCDEF "g" (EXPR_INT 7))) = .ok s1 ∧
      s1.jit_pos ≤ ARENA_SIZE ∧
      jit_codegen (jit_write sq_jit_state [0x41, 0x50]) (EXPR_FUNCDEF "g" (EXPR_INT 7))
        = .ok sa ∧
      s1.jit_mem (sa.jit_pos + 2) = 0xe8 ∧
      ((sa.jit_pos + 3 : Nat) : Int) + 4 + imm32 s1.jit_mem ((sa.jit_pos + 3 : Nat) : Int) 0
        = ((0 : Nat) : Int) :=
  match call_displacement "sq" (EXPR_FUNCDEF "g" (EXPR_INT 7)) sq_jit_state _
      ⟨"sq", EXPR_ADD EXPR_ARG EXPR_ARG, 0⟩ rfl rfl (by decide) (by decide) with
  | ⟨sa, ha, _, b0, _, hd, _⟩ => ⟨_, sa, rfl, rfl, by decide, ha, b0, hd⟩

/-! ## C17: operand order of straight-line code -/

theorem straight_line_fragment (names : List String) (e : Expr) :
    straight_line e = true → in_fragment names e = true := by
  induction e with
  | EXPR_ADD l r ihl ihr | EXPR_SUB l r ihl ihr | EXPR_LESSER l r ihl ihr =>
    intro h
    simp only [straight_line, Bool.and_eq_true] at h
    simp only [in_fragment, Bool.and_eq_true]
    exact ⟨ihl h.1, ihr h.2⟩
  | EXPR_INT v => intro h; simpa only [straight_line, in_fragment] using h
  | EXPR_ARG => intro _; rfl
  | EXPR_FUNCDEF g b ih => intro h; simp [straight_line] at h
  | EXPR_FUNCCALL g a ih => intro h; simp [straight_line] at h
  | EXPR_IF c t f ihc iht ihf => intro h; simp [straight_line] at h
  | EXPR_NOTHING => intro h; simp [straight_line] at h

/-- Straight-line code on the processor against the interpreter: the code of `e`
in `[p, q)`, entered with `r8 = a`, arrives at `q` with one more word on the
stack, the value that `normal_eval` gives `e` when `funcarg = a`. -/
theorem straight_line_run (mem : Nat → Nat) (funcs : List Function) (a : Int)
    (ha : in_range64 a) (e : Expr) :
    ∀ (p q : Nat) (m : Machine), straight_line e = true → code_at mem funcs e p q →
      q ≤ ARENA_SIZE → m.pc = (p : Int) → m.r8 = a →
      ∃ v m1, in_range64 v ∧
        (∀ fuel si, e.height < fuel → si.funcarg = a → normal_eval fuel si e = .ok (v, si)) ∧
        Reaches mem m m1 ∧ m1.pc = (q : Int) ∧ m1.r8 = a ∧ m1.stack = v :: m.stack := by
  induction e with
  | EXPR_ADD l r ihl ihr =>
    intro p q m hs hc hq hpc hr8
    simp only [straight_line, Bool.and_eq_true] at hs
    obtain ⟨p1, p2, h1, h2, hb, hq2⟩ := hc
    have le2 := code_at_le _ _ _ _ _ h2
    obtain ⟨vl, ml, rl, el, xl, pcl, r8l, stl⟩ := ihl p p1 m hs.1 h1 (by omega) hpc hr8
    obtain ⟨vr, mr, rr, er, xr, pcr, r8r, str⟩ := ihr p1 p2 ml hs.2 h2 (by omega) pcl r8l
    obtain ⟨m1, x1, pc1, r81, st1⟩ := block_add mem mr p2 vl vr m.stack hb (by omega) pcr
      (by rw [str, stl])
    refine ⟨wrap64 (vl + vr), m1, wrap64_in_range _, ?_, xl.trans (xr.trans x1),
      by rw [pc1, hq2], by rw [r81, r8r], st1⟩
    intro fuel si hh hsi
    cases fuel with
    | zero => omega
    | succ n =>
      simp only [Expr.height] at hh
      simp only [normal_eval, normal_eval_with, el n si (by omega) hsi, er n si (by omega) hsi]
  | EXPR_SUB l r ihl ihr =>
    intro p q m hs hc hq hpc hr8
    simp only [straight_line, Bool.and_eq_true] at hs
    obtain ⟨p1, p2, h1, h2, hb, hq2⟩ := hc
    have le2 := code_at_le _ _ _ _ _ h2
    obtain ⟨vl, ml, rl, el, xl, pcl, r8l, stl⟩ := ihl p p1 m hs.1 h1 (by omega) hpc hr8
    obtain ⟨vr, mr, rr, er, xr, pcr, r8r, str⟩ := ihr p1 p2 ml hs.2 h2 (by omega) pcl r8l
    obtain ⟨m1, x1, pc1, r81, st1⟩ := block_sub mem mr p2 vl vr m.stack hb (by omega) pcr
      (by rw [str, stl])
    refine ⟨wrap64 (vl - vr), m1, wrap64_in_range _, ?_, xl.trans (xr.trans x1),
      by rw [pc1, hq2], by rw [r81, r8r], st1⟩
    intro fuel si hh hsi
    cases fuel with
    | zero => omega
    | succ n =>
      simp only [Expr.height] at hh
      simp only [normal_eval, normal_eval_with, el n si (by omega) hsi, er n si (by omega) hsi]
  | EXPR_LESSER l r ihl ihr =>
    intro p q m hs hc hq hpc hr8
    simp only [straight_line, Bool.and_eq_true] at hs
    obtain ⟨p1, p2, h1, h2, hb, hq2⟩ := hc
    have le2 := code_at_le _ _ _ _ _ h2
    obtain ⟨vl, ml, rl, el, xl, pcl, r8l, stl⟩ := ihl p p1 m hs.1 h1 (by omega) hpc hr8
    obtain ⟨vr, mr, rr, er, xr, pcr, r8r, str⟩ := ihr p1 p2 ml hs.2 h2 (by omega) pcl r8l
    obtain ⟨m1, x1, pc1, r81, st1⟩ := block_lesser mem mr p2 vl vr m.stack hb (by omega) pcr
      (by rw [str, stl]) rl rr
    refine ⟨if vl < vr then 1 else 0, m1, lesser_in_range _ _, ?_, xl.trans (xr.trans x1),
      by rw [pc1, hq2], by rw [r81, r8r], st1⟩
    intro fuel si hh hsi
    cases fuel with
    | zero => omega
    | succ n =>
      simp only [Expr.height] at hh
      simp only [normal_eval, normal_eval_with, el n si (by omega) hsi, er n si (by omega) hsi]
  | EXPR_INT v =>
    intro p q m hs hc hq hpc hr8
    simp only [straight_line, Bool.and_eq_true, decide_eq_true_eq] at hs
    obtain ⟨hb, hq2⟩ := hc
    obtain ⟨m1, x1, pc1, r81, st1⟩ := block_int mem m p v hb (by omega) hpc hs.1 hs.2
    refine ⟨v, m1, ?_, ?_, x1, by rw [pc1, hq2], by rw [r81, hr8], st1⟩
    · unfold in_range64; omega
    · intro fuel si hh hsi
      cases fuel with
      | zero => omega
      | succ n => rfl
  | EXPR_ARG =>
    intro p q m hs hc hq hpc hr8
    obtain ⟨hb, hq2⟩ := hc
    obtain ⟨m1, x1, pc1, r81, st1⟩ := block_push_r8 mem m p hb (by omega) hpc
    refine ⟨a, m1, ha, ?_, x1, by rw [pc1, hq2], by rw [r81, hr8], by rw [st1, hr8]⟩
    intro fuel si hh hsi
    cases fuel with
    | zero => omega
    | succ n => simp only [normal_eval, normal_eval_with, hsi]
  | EXPR_FUNCDEF g b ih => intro p q m hs; simp [straight_line] at hs
  | EXPR_FUNCCALL g b ih => intro p q m hs; simp [straight_line] at hs
  | EXPR_IF c t f ihc iht ihf => intro p q m hs; simp [straight_line] at hs
  | EXPR_NOTHING => intro p q m hs; simp [straight_line] at hs

/-- C17: operand order of the straight-line fragment. For every expression `e`
built only from literals `0 ≤ n < 2^31`, `Arg`, `Add`, `Sub` and `Lesser`,
`jit_codegen` succeeds and emits `code_size e` bytes; when they lie inside the
arena, executing them from their first byte with `r8 = a` (a 64-bit value)
arrives at their end with exactly one more word on the stack, the 64-bit value
that `normal_eval` gives `e` when `.` is `a`. In particular the code of
`Sub(l, r)` pushes `value(l) - value(r)` modulo 2^64 and the code of
`Lesser(l, r)` pushes 1 when `value(l) < value(r)` and 0 otherwise, `value`
being the interpreter's value of the operand. -/
theorem straight_line_operand_order (e : Expr) (st : State) (a : Int)
    (hs : straight_line e = true) (ha : in_range64 a) :
    ∃ s1, jit_codegen st e = .ok s1 ∧ s1.jit_pos = st.jit_pos + code_size e ∧
      (s1.jit_pos ≤ ARENA_SIZE → ∀ m : Machine, m.pc = (st.jit_pos : Int) → m.r8 = a →
        (∃ v m1, in_range64 v ∧
          (∀ fuel si, e.height < fuel → si.funcarg = a →
            normal_eval fuel si e = .ok (v, si)) ∧
          Reaches s1.jit_mem m m1 ∧ m1.pc = (s1.jit_pos : Int) ∧ m1.r8 = a ∧
          m1.stack = v :: m.stack) ∧
        (∀ l r, e = EXPR_SUB l r → ∃ vl vr m1,
          (∀ fuel si, l.height < fuel → si.funcarg = a →
            normal_eval fuel si l = .ok (vl, si)) ∧
          (∀ fuel si, r.height < fuel → si.funcarg = a →
            normal_eval fuel si r = .ok (vr, si)) ∧
          Reaches s1.jit_mem m m1 ∧ m1.pc = (s1.jit_pos : Int) ∧
          m1.stack = wrap64 (vl - vr) :: m.stack) ∧
        (∀ l r, e = EXPR_LESSER l r → ∃ vl vr m1,
          (∀ fuel si, l.height < fuel → si.funcarg = a →
            normal_eval fuel si l = .ok (vl, si)) ∧
          (∀ fuel si, r.height < fuel → si.funcarg = a →
            normal_eval fuel si r = .ok (vr, si)) ∧
          Reaches s1.jit_mem m m1 ∧ m1.pc = (s1.jit_pos : Int) ∧
          m1.stack = (if vl < vr then 1 else 0) :: m.stack)) := by
  obtain ⟨s1, h1, _, hp, hc⟩ := jit_codegen_fragment e st (straight_line_fragment _ e hs)
  refine ⟨s1, h1, hp, ?_⟩
  intro harena m hpc hr8
  refine ⟨straight_line_run _ _ a ha e _ _ m hs hc harena hpc hr8, ?_, ?_⟩
  · intro l r he
    subst he
    simp only [straight_line, Bool.and_eq_true] at hs
    obtain ⟨p1, p2, c1, c2, hb, hq2⟩ := hc
    have le2 := code_at_le _ _ _ _ _ c2
    obtain ⟨vl, ml, rl, el, xl, pcl, r8l, stl⟩ :=
      straight_line_run _ _ a ha l _ p1 m hs.1 c1 (by omega) hpc hr8
    obtain ⟨vr, mr, rr, er, xr, pcr, r8r, str⟩ :=
      straight_line_run _ _ a ha r p1 p2 ml hs.2 c2 (by omega) pcl r8l
    obtain ⟨m1, x1, pc1, r81, st1⟩ := block_sub s1.jit_mem mr p2 vl vr m.stack hb (by omega) pcr
      (by rw [str, stl])
    exact ⟨vl, vr, m1, el, er, xl.trans (xr.trans x1), by rw [pc1, hq2], st1⟩
  · intro l r he
    subst he
    simp only [straight_line, Bool.and_eq_true] at hs
    obtain ⟨p1, p2, c1, c2, hb, hq2⟩ := hc
    have le2 := code_at_le _ _ _ _ _ c2
    obtain ⟨vl, ml, rl, el, xl, pcl, r8l, stl⟩ :=
      straight_line_run _ _ a ha l _ p1 m hs.1 c1 (by omega) hpc hr8
    obtain ⟨vr, mr, rr, er, xr, pcr, r8r, str⟩ :=
      straight_line_run _ _ a ha r p1 p2 ml hs.2 c2 (by omega) pcl r8l
    obtain ⟨m1, x1, pc1, r81, st1⟩ := block_lesser s1.jit_mem mr p2 vl vr m.stack hb (by omega)
      pcr (by rw [str, stl]) rl rr
    exact ⟨vl, vr, m1, el, er, xl.trans (xr.trans x1), by rw [pc1, hq2], st1⟩

/-- Witness for C17: the code of `7 - .` emitted on the initial state and
entered with `r8 = 3` pushes `7 - 3`. -/
theorem straight_line_operand_order_witness :
    ∃ s1 m1, jit_codegen State.init (EXPR_SUB (EXPR_INT 7) EXPR_ARG) = .ok s1 ∧
      s1.jit_pos = 13 ∧
      Reaches s1.jit_mem ⟨0, 0, 0, 3, false, false, false, [HOST_RET]⟩ m1 ∧
      m1.pc = 13 ∧ m1.stack = [4, HOST_RET] := by
  obtain ⟨s1, h1, hp, h⟩ := straight_line_operand_order (EXPR_SUB (EXPR_INT 7) EXPR_ARG)
    State.init 3 (by decide) (by decide)
  have hp13 : s1.jit_pos = 13 := hp
  obtain ⟨_, hsub, _⟩ := h (by rw [hp13]; decide) ⟨0, 0, 0, 3, false, false, false, [HOST_RET]⟩
    rfl rfl
  obtain ⟨vl, vr, m1, el, er, x, pc, stk⟩ := hsub _ _ rfl
  have e1 := el 1 { State.init with funcarg := 3 } (by decide) rfl
  have e2 := er 1 { State.init with funcarg := 3 } (by decide) rfl
  simp only [normal_eval, normal_eval_with, Except.ok.injEq, Prod.mk.injEq, and_true] at e1 e2
  subst e1 e2
  exact ⟨s1, m1, h1, hp13, x, by rw [pc, hp13]; rfl, by rw [stk]; rfl⟩

/-! ## C19: the cursor and the arena -/

theorem nev_pos_mono {eval : State → Expr → Result}
    (heval : ∀ st e v s1, eval st e = .ok (v, s1) → st.jit_pos ≤ s1.jit_pos)
    (st : State) (e : Expr) (v : Int) (s1 : State)
    (h : normal_eval_with eval st e = .ok (v, s1)) : st.jit_pos ≤ s1.jit_pos := by
  cases e with
  | EXPR_ADD l r =>
    obtain ⟨a, sa, b, h1, h2, _⟩ := nev_add_ok.mp h
    exact Nat.le_trans (heval _ _ _ _ h1) (heval _ _ _ _ h2)
  | EXPR_SUB l r =>
    obtain ⟨a, sa, b, h1, h2, _⟩ := nev_sub_ok.mp h
    exact Nat.le_trans (heval _ _ _ _ h1) (heval _ _ _ _ h2)
  | EXPR_LESSER l r =>
    obtain ⟨a, sa, b, h1, h2, _⟩ := nev_lesser_ok.mp h
    exact Nat.le_trans (heval _ _ _ _ h1) (heval _ _ _ _ h2)
  | EXPR_INT i =>
    simp only [normal_eval_with, Except.ok.injEq, Prod.mk.injEq] at h
    rw [← h.2]
  | EXPR_ARG =>
    simp only [normal_eval_with, Except.ok.injEq, Prod.mk.injEq] at h
    rw [← h.2]
  | EXPR_FUNCDEF fnname b =>
    simp only [normal_eval_with, Except.ok.injEq, Prod.mk.injEq] at h
    rw [← h.2]
  | EXPR_FUNCCALL fnname arg =>
    obtain ⟨f, a, sa, sb, _, h1, h2, hs⟩ := nev_call_ok.mp h
    have e1 := heval _ _ _ _ h1
    have e2 := heval _ _ _ _ h2
    simp only [] at e2
    rw [hs]
    exact Nat.le_trans e1 e2
  | EXPR_IF c t f =>
    obtain ⟨cv, sa, h1, h2 | h2⟩ := nev_if_ok.mp h
    · exact Nat.le_trans (heval _ _ _ _ h1) (heval _ _ _ _ h2.2)
    · exact Nat.le_trans (heval _ _ _ _ h1) (heval _ _ _ _ h2.2)
  | EXPR_NOTHING => simp [normal_eval_with] at h

theorem jit_eval_pos_mono (n : Nat) : ∀ (st : State) (e : Expr) (v : Int) (s1 : State),
    jit_eval n st e = .ok (v, s1) → st.jit_pos ≤ s1.jit_pos := by
  induction n with
  | zero => intro st e v s1 h; simp [jit_eval] at h
  | succ n ih =>
    intro st e v s1 h
    cases e with
    | EXPR_FUNCDEF fnname b =>
      simp only [jit_eval] at h
      split at h
      · simp at h
      · rename_i sa ha
        simp only [Except.ok.injEq, Prod.mk.injEq] at h
        rw [← h.2]
        exact (jit_codegen_frame _ _ _ ha).2.2.1
    | EXPR_FUNCCALL fnname arg =>
      simp only [jit_eval] at h
      split at h
      · split at h
        · simp at h
        · rename_i a sa ha
          split at h
          · simp at h
          · simp only [Except.ok.injEq, Prod.mk.injEq] at h
            rw [← h.2]
            exact ih _ _ _ _ ha
      · simp at h
    | EXPR_ADD l r => exact nev_pos_mono ih st _ v s1 (by simpa only [jit_eval] using h)
    | EXPR_SUB l r => exact nev_pos_mono ih st _ v s1 (by simpa only [jit_eval] using h)
    | EXPR_LESSER l r => exact nev_pos_mono ih st _ v s1 (by simpa only [jit_eval] using h)
    | EXPR_INT i => exact nev_pos_mono ih st _ v s1 (by simpa only [jit_eval] using h)
    | EXPR_ARG => exact nev_pos_mono ih st _ v s1 (by simpa only [jit_eval] using h)
    | EXPR_IF c t f => exact nev_pos_mono ih st _ v s1 (by simpa only [jit_eval] using h)
    | EXPR_NOTHING => exact nev_pos_mono ih st _ v s1 (by simpa only [jit_eval] using h)

/-- C19, as the code has it. The cursor stays within the arena as long as the
emitted code fits, and nothing else keeps it there. Whenever `jit_codegen` or
`jit_eval` returns with the table within its 1000 entries and the cursor within
the arena, the cursor has not moved back, so it was within the arena all the
way. From a cursor `p`, `jit_codegen` on an expression `e` of the fragment
with `p + code_size e ≤ ARENA_SIZE` succeeds and ends with the cursor at
`p + code_size e`; a definition with such a body, on a table of fewer than 1000
entries and with `p + code_size body + 2 ≤ ARENA_SIZE`, returns 0 through
`jit_eval` with the cursor at `p + code_size body + 2`. -/
theorem jit_pos_grows :
    (∀ (st : State) (bs : List Nat), st.jit_pos + bs.length ≤ ARENA_SIZE →
      (jit_write st bs).jit_pos = st.jit_pos + bs.length ∧
      (jit_write st bs).jit_pos ≤ ARENA_SIZE ∧
      ∀ i, ARENA_SIZE ≤ i → (jit_write st bs).jit_mem i = st.jit_mem i) ∧
    (∀ (e : Expr) (st s1 : State), jit_codegen st e = .ok s1 →
      s1.funcs.length ≤ FUNCS_SIZE → s1.jit_pos ≤ ARENA_SIZE →
      st.jit_pos ≤ s1.jit_pos ∧ st.jit_pos ≤ ARENA_SIZE ∧
      ∀ i, ARENA_SIZE ≤ i → s1.jit_mem i = st.jit_mem i) ∧
    (∀ (fuel : Nat) (st : State) (e : Expr) (v : Int) (s1 : State),
      jit_eval fuel st e = .ok (v, s1) →
      s1.funcs.length ≤ FUNCS_SIZE → s1.jit_pos ≤ ARENA_SIZE →
      st.jit_pos ≤ s1.jit_pos ∧ st.jit_pos ≤ ARENA_SIZE) ∧
    (∀ (e : Expr) (st : State), in_fragment (st.funcs.map Function.name) e = true →
      st.jit_pos + code_size e ≤ ARENA_SIZE →
      ∃ s1, jit_codegen st e = .ok s1 ∧ s1.jit_pos = st.jit_pos + code_size e ∧
        s1.jit_pos ≤ ARENA_SIZE) ∧
    (∀ (fuel : Nat) (st : State) (g : String) (b : Expr),
      in_fragment (st.funcs.map Function.name ++ [g]) b = true →
      st.funcs.length < FUNCS_SIZE → st.jit_pos + code_size b + 2 ≤ ARENA_SIZE →
      ∃ s1, jit_eval (fuel + 1) st (EXPR_FUNCDEF g b) = .ok (0, s1) ∧
        s1.jit_pos = st.jit_pos + code_size b + 2 ∧ s1.jit_pos ≤ ARENA_SIZE ∧
        s1.funcs.length ≤ FUNCS_SIZE) := by
  refine ⟨?_, ?_, ?_, ?_, ?_⟩
  · intro st bs h
    refine ⟨jit_write_pos st bs, by rw [jit_write_pos]; exact h, ?_⟩
    intro i hi
    exact jit_write_mem_ge st bs i (by omega)
  · intro e st s1 h _ hp
    have hm := (jit_codegen_frame e st s1 h).2.2.1
    refine ⟨hm, by omega, ?_⟩
    intro i hi
    exact jit_codegen_frame_above e st s1 h i (by omega)
  · intro fuel st e v s1 h _ hp
    have hm := jit_eval_pos_mono fuel st e v s1 h
    exact ⟨hm, by omega⟩
  · intro e st he hfit
    obtain ⟨s1, h1, _, hp, _⟩ := jit_codegen_fragment e st he
    exact ⟨s1, h1, hp, by omega⟩
  · intro fuel st g b hb hcap hfit
    obtain ⟨sb, hcg, fb, pb, _⟩ := jit_codegen_fragment b
      { st with funcs := st.funcs ++ [⟨g, b, st.jit_pos⟩] } (by simpa using hb)
    simp only [] at pb fb
    refine ⟨jit_write (jit_write sb [0x58]) [0xc3], ?_, ?_, ?_, ?_⟩
    · simp only [jit_eval, jit_codegen, hcg]
    · simp [pb]
    · simp [pb]; omega
    · simp [fb]; omega

/-- Witness for C19: the definition `sq = . + .` on the initial state moves the
cursor from 0 to 12. -/
theorem jit_pos_grows_witness :
    ∃ s1, jit_eval 1 State.init (EXPR_FUNCDEF "sq" (EXPR_ADD EXPR_ARG EXPR_ARG)) = .ok (0, s1) ∧
      s1.jit_pos = State.init.jit_pos + code_size (EXPR_ADD EXPR_ARG EXPR_ARG) + 2 ∧
      s1.jit_pos ≤ ARENA_SIZE ∧ s1.funcs.length ≤ FUNCS_SIZE :=
  jit_pos_grows.2.2.2.2 0 State.init "sq" (EXPR_ADD EXPR_ARG EXPR_ARG) (by decide)
    (by decide) (by decide)

/-- Counterexample to C19 as stated: the three definitions
`f = <the balanced sum of 2 ^ 17 copies of .>`, `g = .` and `k = .`, evaluated
by `jit_eval` from the initial state. The code of `f` takes 1048572 bytes and
the code of `g` four, so after the second definition the arena is exactly full:
`jit_pos = 1048576`, with every byte written so far inside the arena and three
of the 1000 table entries in use at the end. Nothing stops the third
definition: `k` is registered at offset 1048576 and `jit_write` stores the four
bytes `41 50 58 c3` of its code at the offsets 1048576 to 1048579, which are
outside the arena, leaving `jit_pos = 1048580`. -/
theorem arena_overrun_counterexample :
    ∃ s1 s2 s3 : State,
      jit_eval 1 State.init (EXPR_FUNCDEF "f" (big_tree 17)) = .ok (0, s1) ∧
      s1.jit_pos = 1048572 ∧
      jit_eval 1 s1 (EXPR_FUNCDEF "g" EXPR_ARG) = .ok (0, s2) ∧
      s2.jit_pos = ARENA_SIZE ∧ s2.funcs.length = 2 ∧
      jit_eval 1 s2 (EXPR_FUNCDEF "k" EXPR_ARG) = .ok (0, s3) ∧
      s3.funcs = s2.funcs ++ [⟨"k", EXPR_ARG, ARENA_SIZE⟩] ∧
      bytes_at s3.jit_mem ARENA_SIZE [0x41, 0x50, 0x58, 0xc3] ∧
      s3.jit_pos = 1048580 ∧ ARENA_SIZE < s3.jit_pos := by
  obtain ⟨s1, h1, f1, p1, c1⟩ := compiled_define 0 State.init "f" (big_tree 17) compiled_init
    (big_tree_fragment _ _)
  obtain ⟨s2, h2, f2, p2, c2⟩ := compiled_define 0 s1 "g" EXPR_ARG c1 rfl
  obtain ⟨s3, h3, f3, p3, c3⟩ := compiled_define 0 s2 "k" EXPR_ARG c2 rfl
  have h17 := big_tree_code_size 17
  have hpow : 8 * 2 ^ 17 = 1048576 := by norm_num
  have hinit : State.init.jit_pos = 0 := rfl
  have hA := arena_size_eq
  have q1 : s1.jit_pos = 1048572 := by rw [p1, hinit]; omega
  have q2 : s2.jit_pos = ARENA_SIZE := by rw [p2, q1, hA]; rfl
  have q3 : s3.jit_pos = 1048580 := by rw [p3, q2, hA]; rfl
  have l2 : s2.funcs.length = 2 := by rw [f2, f1]; rfl
  have hk : (⟨"k", EXPR_ARG, s2.jit_pos⟩ : Function) ∈ s3.funcs := by
    rw [f3]; simp
  obtain ⟨_, q, hcode, hret, _⟩ := c3 _ hk
  obtain ⟨hb, hq⟩ := hcode
  simp only [] at hb hq hret
  rw [q2] at hb hq
  rw [hq] at hret
  have hbytes : bytes_at s3.jit_mem ARENA_SIZE [0x41, 0x50, 0x58, 0xc3] := by
    intro k hk4
    simp only [List.length_cons, List.length_nil] at hk4
    rcases (by omega : k = 0 ∨ k = 1 ∨ k = 2 ∨ k = 3) with h | h | h | h <;> subst h
    · exact hb 0 (by simp)
    · exact hb 1 (by simp)
    · exact hret 0 (by simp)
    · exact hret 1 (by simp)
  exact ⟨s1, s2, s3, h1, q1, h2, q2, l2, h3, by rw [f3, q2], hbytes, q3,
    by rw [q3, hA]; decide⟩

/-! ## C14: stack balance of emitted code -/

/-- The code that a successful `jit_codegen` leaves for an expression without
`FuncDef`: the table is unchanged, the cursor has advanced by `code_size e`, and
the bytes between are the code of `e`. -/
theorem jit_codegen_code_at (e : Expr) : ∀ (st s1 : State), no_funcdef e = true →
    jit_codegen st e = .ok s1 →
    s1.funcs = st.funcs ∧ s1.jit_pos = st.jit_pos + code_size e ∧
      code_at s1.jit_mem st.funcs e st.jit_pos s1.jit_pos := by
  induction e with
  | EXPR_ADD l r ihl ihr | EXPR_SUB l r ihl ihr | EXPR_LESSER l r ihl ihr =>
    intro st s1 he h
    simp only [no_funcdef, Bool.and_eq_true] at he
    simp only [jit_codegen] at h
    split at h
    · simp at h
    · rename_i sa ha
      split at h
      · simp at h
      · rename_i sb hb
        simp only [Except.ok.injEq] at h
        obtain ⟨fa, pa, ca⟩ := ihl st sa he.1 ha
        obtain ⟨fb, pb, cb⟩ := ihr sa sb he.2 hb
        have frb := (jit_codegen_frame r sa sb hb).2.2.2
        rw [fa] at cb
        subst h
        refine ⟨by simp [fa, fb], by simp [pa, pb, code_size]; omega, sa.jit_pos, sb.jit_pos,
          ?_, ?_, bytes_at_jit_write sb _, by simp⟩
        · refine code_at_congr _ _ _ _ _ _ (fun i _ hi2 => ?_) ca
          rw [jit_write_mem_lt _ _ _ (by omega), frb i hi2]
        · refine code_at_congr _ _ _ _ _ _ (fun i _ hi2 => ?_) cb
          rw [jit_write_mem_lt _ _ _ hi2]
  | EXPR_INT v =>
    intro st s1 _ h
    have hfin : jit_codegen st (EXPR_INT v)
        = .ok (jit_write st (0x68 :: lendian_bytes (wrap32 v))) := by
      simp only [jit_codegen, write_lendian, jit_write_append]; rfl
    rw [hfin] at h
    simp only [Except.ok.injEq] at h
    subst h
    exact ⟨by simp, by simp [code_size], bytes_at_jit_write st _, by simp⟩
  | EXPR_ARG =>
    intro st s1 _ h
    simp only [jit_codegen, Except.ok.injEq] at h
    subst h
    exact ⟨by simp, by simp [code_size], bytes_at_jit_write st _, by simp⟩
  | EXPR_FUNCDEF g b ih => intro st s1 he; simp [no_funcdef] at he
  | EXPR_FUNCCALL g a ih =>
    intro st s1 he h
    simp only [no_funcdef] at he
    cases hf : find_func st.funcs g with
    | none => simp [jit_codegen, hf] at h
    | some f =>
      obtain ⟨sa, ha, hs⟩ := jit_codegen_call_inv g a st s1 f hf h
      obtain ⟨fa, pa, ca⟩ := ih _ sa he ha
      have fra := (jit_codegen_frame a _ sa ha).2.2.2
      simp only [jit_write_funcs, jit_write_pos, List.length_cons, List.length_nil, Nat.zero_add,
        Nat.reduceAdd] at fa pa ca fra
      have hfin : s1 = jit_write sa ([0x41, 0x58, 0xe8]
              ++ lendian_bytes (wrap32 ((f.jitidx : Int) - ((sa.jit_pos + 3 : Nat) : Int) - 4))
              ++ [0x41, 0x58, 0x50]) := by
        rw [hs]
        simp only [write_lendian, jit_write_append]
        rfl
      subst hfin
      refine ⟨by simp [fa], by simp [pa, code_size]; omega, f, sa.jit_pos, hf, ?_, ?_,
        bytes_at_jit_write sa _, by simp⟩
      · refine bytes_at_congr _ _ _ _ (fun i _ hi2 => ?_) (bytes_at_jit_write st [0x41, 0x50])
        simp only [List.length_cons, List.length_nil] at hi2
        rw [jit_write_mem_lt _ _ _ (by omega), fra i (by omega)]
      · refine code_at_congr _ _ _ _ _ _ (fun i _ hi2 => ?_) ca
        rw [jit_write_mem_lt _ _ _ hi2]
  | EXPR_IF c t f ihc iht ihf =>
    intro st s1 he h
    simp only [no_funcdef, Bool.and_eq_true] at he
    obtain ⟨⟨hec, het⟩, hef⟩ := he
    obtain ⟨sc, st2, sf, hc, ht, hf, hfin⟩ := jit_codegen_if_inv c t f st s1 h
    obtain ⟨fc, pc, cc⟩ := ihc st sc hec hc
    obtain ⟨ft, pt, ct⟩ := iht _ st2 het ht
    obtain ⟨ff, pf, cf⟩ := ihf _ sf hef hf
    have frt := (jit_codegen_frame t _ st2 ht).2.2.2
    have frf := (jit_codegen_frame f _ sf hf).2.2.2
    have hhead : write_lendian
        (jit_write (jit_write (jit_write sc [0x58]) [0x48, 0x83, 0xf8, 0x00]) [0x0f, 0x84]) 0
        = jit_write sc ([0x58, 0x48, 0x83, 0xf8, 0x00, 0x0f, 0x84] ++ lendian_bytes 0) := by
      simp only [write_lendian, jit_write_append]; rfl
    have hjmp : write_lendian (jit_write st2 [0xe9]) 0
        = jit_write st2 (0xe9 :: lendian_bytes 0) := by
      simp only [write_lendian, jit_write_append]; rfl
    rw [hhead] at ft pt ct frt
    rw [hjmp] at ff pf cf frf
    simp only [jit_write_funcs, jit_write_pos, List.length_cons, List.length_nil,
      List.length_append, lendian_bytes_length, Nat.zero_add, Nat.reduceAdd] at ft pt ct frt ff pf cf frf
    rw [fc] at ct
    rw [ft, fc] at cf
    have le2 := code_at_le _ _ _ _ _ ct
    have le3 := code_at_le _ _ _ _ _ cf
    have le1 := code_at_le _ _ _ _ _ cc
    subst hfin
    refine ⟨by simp [ff, ft, fc], by simp [pf, pt, pc, code_size]; omega,
      sc.jit_pos, st2.jit_pos, ?_, ?_, ?_, ?_, ?_⟩
    · refine code_at_congr _ _ _ _ _ _ (fun i _ hi2 => ?_) cc
      rw [fixup_lendian_mem_lt _ _ _ _ (by omega), fixup_lendian_mem_lt _ _ _ _ (by omega),
        frf i (by omega), jit_write_mem_lt _ _ _ (by omega), frt i (by omega),
        jit_write_mem_lt _ _ _ hi2]
    · intro k hk
      simp only [List.length_append, List.length_cons, List.length_nil,
        lendian_bytes_length] at hk
      rw [fixup_lendian_mem_lt _ _ _ _ (by omega)]
      by_cases h7 : k < 7
      · rw [fixup_lendian_mem_lt _ _ _ _ (by omega), frf _ (by omega),
          jit_write_mem_lt _ _ _ (by omega), frt _ (by omega)]
        rw [List.getD_append _ _ _ _ (by simpa using h7)]
        have := bytes_at_jit_write sc ([0x58, 0x48, 0x83, 0xf8, 0x00, 0x0f, 0x84] ++ lendian_bytes 0)
          k (by simp; omega)
        rw [this, List.getD_append _ _ _ _ (by simpa using h7)]
      · have := fixup_lendian_bytes sf (sc.jit_pos + 7)
          (wrap32 (((st2.jit_pos + 5 : Nat) : Int) - ((sc.jit_pos + 11 : Nat) : Int)))
          (k - 7) (by simp; omega)
        rw [show sc.jit_pos + k = sc.jit_pos + 7 + (k - 7) by omega, this,
          List.getD_append_right _ _ _ _ (by simp; omega)]
        simp
    · refine code_at_congr _ _ _ _ _ _ (fun i hi hi2 => ?_) ct
      rw [fixup_lendian_mem_lt _ _ _ _ (by omega), fixup_lendian_mem_ge _ _ _ _ (by omega),
        frf i (by omega), jit_write_mem_lt _ _ _ hi2]
    · intro k hk
      simp only [List.length_cons, lendian_bytes_length] at hk
      cases k with
      | zero =>
        rw [Nat.add_zero, fixup_lendian_mem_lt _ _ _ _ (by omega),
          fixup_lendian_mem_ge _ _ _ _ (by omega), frf _ (by omega)]
        exact bytes_at_jit_write st2 (0xe9 :: lendian_bytes 0) 0 (by simp)
      | succ j =>
        have := fixup_lendian_bytes (fixup_lendian sf (sc.jit_pos + 7)
            (wrap32 (((st2.jit_pos + 5 : Nat) : Int) - ((sc.jit_pos + 11 : Nat) : Int))))
          (st2.jit_pos + 1) (wrap32 ((sf.jit_pos : Int) - ((st2.jit_pos + 5 : Nat) : Int)))
          j (by simp; omega)
        rw [show st2.jit_pos + (j + 1) = st2.jit_pos + 1 + j by omega]
        simpa using this
    · refine code_at_congr _ _ _ _ _ _ (fun i hi hi2 => ?_) cf
      rw [fixup_lendian_mem_ge _ _ _ _ (by omega), fixup_lendian_mem_ge _ _ _ _ (by omega)]
  | EXPR_NOTHING => intro st s1 _ h; simp [jit_codegen] at h

theorem stack_depth_mono (mem : Nat → Nat) (stop : Nat) (n : Nat) :
    ∀ (pc : Nat) (d r : Int), stack_depth mem stop n pc d = some r →
      stack_depth mem stop (n + 1) pc d = some r := by
  induction n with
  | zero => intro pc d r h; simp [stack_depth] at h
  | succ n ih =>
    intro pc d r h
    rw [stack_depth] at h ⊢
    by_cases hs : pc = stop
    · rw [if_pos hs] at h ⊢; exact h
    · rw [if_neg hs] at h ⊢
      cases he : effect mem pc with
      | next delta len =>
        rw [he] at h
        exact ih _ _ _ h
      | jump t =>
        rw [he] at h
        simp only [] at h ⊢
        by_cases ht : 0 ≤ t
        · rw [if_pos ht] at h ⊢; exact ih _ _ _ h
        · rw [if_neg ht] at h; cases h
      | branch t =>
        rw [he] at h
        simp only [] at h ⊢
        by_cases ht : 0 ≤ t
        · rw [if_pos ht] at h ⊢
          cases h1 : stack_depth mem stop n (pc + 6) d with
          | none => rw [h1] at h; cases h
          | some r1 =>
            cases h2 : stack_depth mem stop n t.toNat d with
            | none => rw [h1, h2] at h; cases h
            | some r2 =>
              rw [h1, h2] at h
              rw [ih _ _ _ h1, ih _ _ _ h2]
              exact h
        · rw [if_neg ht] at h; cases h
      | leave => rw [he] at h; cases h
      | unknown => rw [he] at h; cases h

theorem stack_depth_le (mem : Nat → Nat) (stop : Nat) {n k : Nat} (hk : n ≤ k) (pc : Nat)
    (d r : Int) (h : stack_depth mem stop n pc d = some r) :
    stack_depth mem stop k pc d = some r := by
  induction k with
  | zero =>
    have : n = 0 := by omega
    subst this; exact h
  | succ k ih =>
    by_cases hn : n = k + 1
    · subst hn; exact h
    · exact stack_depth_mono mem stop k pc d r (ih (by omega))

theorem depth_next (mem : Nat → Nat) (stop : Nat) {n k : Nat} (hk : n < k) (pc : Nat)
    (d d2 r : Int) (delta : Int) (len : Nat) (he : effect mem pc = .next delta len)
    (hs : pc ≠ stop) (hd : d2 = d + delta)
    (h : stack_depth mem stop n (pc + len) d2 = some r) :
    stack_depth mem stop k pc d = some r := by
  apply stack_depth_le mem stop (Nat.succ_le_of_lt hk)
  rw [stack_depth, if_neg hs, he]
  simp only []
  rw [← hd]; exact h

theorem depth_jump (mem : Nat → Nat) (stop : Nat) {n k : Nat} (hk : n < k) (pc t : Nat)
    (d r : Int) (he : effect mem pc = .jump (t : Int)) (hs : pc ≠ stop)
    (h : stack_depth mem stop n t d = some r) :
    stack_depth mem stop k pc d = some r := by
  apply stack_depth_le mem stop (Nat.succ_le_of_lt hk)
  rw [stack_depth, if_neg hs, he]
  simp only []
  rw [if_pos (Int.ofNat_nonneg t), Int.toNat_ofNat]
  exact h

theorem depth_branch (mem : Nat → Nat) (stop : Nat) {n k : Nat} (hk : n < k) (pc t : Nat)
    (d r : Int) (he : effect mem pc = .branch (t : Int)) (hs : pc ≠ stop)
    (h1 : stack_depth mem stop n (pc + 6) d = some r)
    (h2 : stack_depth mem stop n t d = some r) :
    stack_depth mem stop k pc d = some r := by
  apply stack_depth_le mem stop (Nat.succ_le_of_lt hk)
  rw [stack_depth, if_neg hs, he]
  simp only []
  rw [if_pos (Int.ofNat_nonneg t), Int.toNat_ofNat, h1, h2]
  simp

theorem depth_arith_tail (mem : Nat → Nat) (stop n p2 x : Nat) (d r : Int)
    (hx : x = 0x01 ∨ x = 0x29)
    (hb : bytes_at mem p2 [0x59, 0x58, 0x48, x, 0xc8, 0x50])
    (hs : stop < p2 ∨ p2 + 6 ≤ stop)
    (h : stack_depth mem stop n (p2 + 6) (d + 1) = some r) :
    stack_depth mem stop (n + 4) p2 (d + 2) = some r := by
  have h0 := hb 0 (by simp)
  have h1 := hb 1 (by simp)
  have h2 := hb 2 (by simp)
  have h3 := hb 3 (by simp)
  have h4 := hb 4 (by simp)
  have h5 := hb 5 (by simp)
  simp only [List.getD_cons_zero, List.getD_cons_succ, Nat.add_zero] at h0 h1 h2 h3 h4 h5
  have e0 : effect mem p2 = .next (-1) 1 := by simp [effect, h0]
  have e1 : effect mem (p2 + 1) = .next (-1) 1 := by simp [effect, h1]
  have e2 : effect mem (p2 + 2) = .next 0 3 := by
    rcases hx with hx | hx <;> subst hx <;> simp [effect, Nat.add_assoc, h2, h3, h4]
  have e5 : effect mem (p2 + 5) = .next 1 1 := by simp [effect, h5]
  have s5 := depth_next mem stop (Nat.lt_succ_self n) (p2 + 5) d (d + 1) r 1 1 e5 (by omega) rfl h
  have s2 := depth_next mem stop (Nat.lt_succ_self (n + 1)) (p2 + 2) d d r 0 3 e2 (by omega)
    (by omega) s5
  have s1 := depth_next mem stop (Nat.lt_succ_self (n + 2)) (p2 + 1) (d + 1) d r (-1) 1 e1
    (by omega) (by omega) s2
  exact depth_next mem stop (Nat.lt_succ_self (n + 3)) p2 (d + 2) (d + 1) r (-1) 1 e0
    (by omega) (by omega) s1

theorem depth_lesser_tail (mem : Nat → Nat) (stop n p2 : Nat) (d r : Int)
    (hb : bytes_at mem p2
      [0x59, 0x58, 0x48, 0x39, 0xc8, 0x0f, 0x9c, 0xc0, 0x48, 0x0f, 0xb6, 0xc0, 0x50])
    (hs : stop < p2 ∨ p2 + 13 ≤ stop)
    (h : stack_depth mem stop n (p2 + 13) (d + 1) = some r) :
    stack_depth mem stop (n + 6) p2 (d + 2) = some r := by
  have h0 := hb 0 (by simp)
  have h1 := hb 1 (by simp)
  have h2 := hb 2 (by simp)
  have h3 := hb 3 (by simp)
  have h4 := hb 4 (by simp)
  have h5 := hb 5 (by simp)
  have h6 := hb 6 (by simp)
  have h7 := hb 7 (by simp)
  have h8 := hb 8 (by simp)
  have h9 := hb 9 (by simp)
  have h10 := hb 10 (by simp)
  have h11 := hb 11 (by simp)
  have h12 := hb 12 (by simp)
  simp only [List.getD_cons_zero, List.getD_cons_succ, Nat.add_zero] at h0 h1 h2 h3 h4 h5 h6 h7 h8 h9 h10 h11 h12
  have e0 : effect mem p2 = .next (-1) 1 := by simp [effect, h0]
  have e1 : effect mem (p2 + 1) = .next (-1) 1 := by simp [effect, h1]
  have e2 : effect mem (p2 + 2) = .next 0 3 := by simp [effect, Nat.add_assoc, h2, h3, h4]
  have e5 : effect mem (p2 + 5) = .next 0 3 := by simp [effect, Nat.add_assoc, h5, h6, h7]
  have e8 : effect mem (p2 + 8) = .next 0 4 := by
    simp [effect, Nat.add_assoc, h8, h9, h10, h11]
  have e12 : effect mem (p2 + 12) = .next 1 1 := by simp [effect, h12]
  have s12 := depth_next mem stop (Nat.lt_succ_self n) (p2 + 12) d (d + 1) r 1 1 e12 (by omega)
    rfl h
  have s8 := depth_next mem stop (Nat.lt_succ_self (n + 1)) (p2 + 8) d d r 0 4 e8 (by omega)
    (by omega) s12
  have s5 := depth_next mem stop (Nat.lt_succ_self (n + 2)) (p2 + 5) d d r 0 3 e5 (by omega)
    (by omega) s8
  have s2 := depth_next mem stop (Nat.lt_succ_self (n + 3)) (p2 + 2) d d r 0 3 e2 (by omega)
    (by omega) s5
  have s1 := depth_next mem stop (Nat.lt_succ_self (n + 4)) (p2 + 1) (d + 1) d r (-1) 1 e1
    (by omega) (by omega) s2
  exact depth_next mem stop (Nat.lt_succ_self (n + 5)) p2 (d + 2) (d + 1) r (-1) 1 e0
    (by omega) (by omega) s1

theorem depth_call_tail (mem : Nat → Nat) (stop n p1 : Nat) (d r : Int) (x : Int)
    (hb : bytes_at mem p1 ([0x41, 0x58, 0xe8] ++ lendian_bytes x ++ [0x41, 0x58, 0x50]))
    (hs : stop < p1 ∨ p1 + 10 ≤ stop)
    (h : stack_depth mem stop n (p1 + 10) (d + 1) = some r) :
    stack_depth mem stop (n + 4) p1 (d + 2) = some r := by
  have h0 := hb 0 (by simp)
  have h1 := hb 1 (by simp)
  have h2 := hb 2 (by simp)
  have h7 := hb 7 (by simp)
  have h8 := hb 8 (by simp)
  have h9 := hb 9 (by simp)
  simp [lendian_bytes] at h0 h1 h2 h7 h8 h9
  have e0 : effect mem p1 = .next (-1) 2 := by simp [effect, h0, h1]
  have e2 : effect mem (p1 + 2) = .next 0 5 := by simp [effect, h2]
  have e7 : effect mem (p1 + 7) = .next (-1) 2 := by simp [effect, Nat.add_assoc, h7, h8]
  have e9 : effect mem (p1 + 9) = .next 1 1 := by simp [effect, h9]
  have s9 := depth_next mem stop (Nat.lt_succ_self n) (p1 + 9) d (d + 1) r 1 1 e9 (by omega) rfl h
  have s7 := depth_next mem stop (Nat.lt_succ_self (n + 1)) (p1 + 7) (d + 1) d r (-1) 2 e7
    (by omega) (by omega) s9
  have s2 := depth_next mem stop (Nat.lt_succ_self (n + 2)) (p1 + 2) (d + 1) (d + 1) r 0 5 e2
    (by omega) (by omega) s7
  exact depth_next mem stop (Nat.lt_succ_self (n + 3)) p1 (d + 2) (d + 1) r (-1) 2 e0
    (by omega) (by omega) s2
theorem depth_if_head (mem : Nat → Nat) (stop n p1 p2 : Nat) (d r : Int)
    (hb : bytes_at mem p1 ([0x58, 0x48, 0x83, 0xf8, 0x00, 0x0f, 0x84]
        ++ lendian_bytes (wrap32 (((p2 + 5 : Nat) : Int) - ((p1 + 11 : Nat) : Int)))))
    (hq : p1 + 11 ≤ ARENA_SIZE) (hp2 : p2 + 5 ≤ ARENA_SIZE)
    (hs : stop < p1 ∨ p1 + 11 ≤ stop)
    (ht : stack_depth mem stop n (p1 + 11) d = some r)
    (hf : stack_depth mem stop n (p2 + 5) d = some r) :
    stack_depth mem stop (n + 3) p1 (d + 1) = some r := by
  have hA := bytes_at_take mem p1 _ _ hb
  have hL := bytes_at_drop mem p1 _ _ hb
  have h0 := hA 0 (by simp)
  have h1 := hA 1 (by simp)
  have h2 := hA 2 (by simp)
  have h3 := hA 3 (by simp)
  have h5 := hA 5 (by simp)
  have h6 := hA 6 (by simp)
  simp only [List.getD_cons_zero, List.getD_cons_succ, Nat.add_zero] at h0 h1 h2 h3 h5 h6
  have himm : imm32 mem ((p1 + 5 : Nat) : Int) 2
      = ((p2 + 5 : Nat) : Int) - ((p1 + 11 : Nat) : Int) := by
    rw [imm32_lendian mem _ (p1 + 5) 2 _ rfl (by simpa [Nat.add_assoc] using hL)]
    have := arena_size_eq
    exact wrap32_wrap32_small _ (by push_cast; omega) (by push_cast; omega)
  have e0 : effect mem p1 = .next (-1) 1 := by simp [effect, h0]
  have e1 : effect mem (p1 + 1) = .next 0 4 := by simp [effect, Nat.add_assoc, h1, h2, h3]
  have e5 : effect mem (p1 + 5) = .branch ((p2 + 5 : Nat) : Int) := by
    have ht : ((p1 + 5 : Nat) : Int) + 6 + imm32 mem ((p1 + 5 : Nat) : Int) 2
        = ((p2 + 5 : Nat) : Int) := by rw [himm]; push_cast; omega
    simp only [effect, Nat.add_assoc, h5, h6, ht]
    simp
  have s5 := depth_branch mem stop (Nat.lt_succ_self n) (p1 + 5) (p2 + 5) d r e5 (by omega)
    ht hf
  have s1 := depth_next mem stop (Nat.lt_succ_self (n + 1)) (p1 + 1) d d r 0 4 e1 (by omega)
    (by omega) s5
  exact depth_next mem stop (Nat.lt_succ_self (n + 2)) p1 (d + 1) d r (-1) 1 e0
    (by omega) (by omega) s1

theorem depth_jmp (mem : Nat → Nat) (stop n p2 q : Nat) (d r : Int)
    (hb : bytes_at mem p2 (0xe9 :: lendian_bytes (wrap32 ((q : Int) - ((p2 + 5 : Nat) : Int)))))
    (hq : p2 + 5 ≤ ARENA_SIZE) (hq2 : q ≤ ARENA_SIZE) (hs : p2 ≠ stop)
    (h : stack_depth mem stop n q d = some r) :
    stack_depth mem stop (n + 1) p2 d = some r := by
  have h0 := hb 0 (by simp)
  simp only [List.getD_cons_zero, Nat.add_zero] at h0
  have himm : imm32 mem (p2 : Int) 1 = (q : Int) - ((p2 + 5 : Nat) : Int) := by
    rw [imm32_lendian mem _ p2 1 _ rfl (bytes_at_drop mem p2 [0xe9] _ hb)]
    have := arena_size_eq
    exact wrap32_wrap32_small _ (by push_cast; omega) (by push_cast; omega)
  have e0 : effect mem p2 = .jump (q : Int) := by
    have ht : (p2 : Int) + 5 + imm32 mem (p2 : Int) 1 = (q : Int) := by
      rw [himm]; push_cast; omega
    simp only [effect, h0, ht]
    simp
  exact depth_jump mem stop (Nat.lt_succ_self n) p2 q d r e0 hs h
/-- Stack balance of the code of an expression: symbolic execution from the
first byte of the code of `e` with depth `d` continues, after boundedly many
instructions, as symbolic execution from its end with depth `d + 1`, on every
path, for every `stop` outside the code. -/
theorem code_at_balance (mem : Nat → Nat) (funcs : List Function) (e : Expr) :
    ∀ (p q : Nat), code_at mem funcs e p q → q ≤ ARENA_SIZE →
      ∃ k, ∀ (stop n : Nat) (d r : Int), stop < p ∨ q ≤ stop →
        stack_depth mem stop n q (d + 1) = some r →
        stack_depth mem stop (n + k) p d = some r := by
  induction e with
  | EXPR_ADD l r ihl ihr =>
    intro p q hc hq
    obtain ⟨p1, p2, h1, h2, hb, hq2⟩ := hc
    have le1 := code_at_le _ _ _ _ _ h1
    have le2 := code_at_le _ _ _ _ _ h2
    obtain ⟨kl, hl⟩ := ihl p p1 h1 (by omega)
    obtain ⟨kr, hr⟩ := ihr p1 p2 h2 (by omega)
    refine ⟨4 + kr + kl, ?_⟩
    intro stop n d r hs h
    subst hq2
    have t := depth_arith_tail mem stop n p2 0x01 d r (Or.inl rfl) hb (by omega) h
    have t2 := hr stop (n + 4) (d + 1) r (by omega) (by rw [show d + 1 + 1 = d + 2 by omega]; exact t)
    have t3 := hl stop (n + 4 + kr) d r (by omega) t2
    rw [show n + (4 + kr + kl) = n + 4 + kr + kl by omega]
    exact t3
  | EXPR_SUB l r ihl ihr =>
    intro p q hc hq
    obtain ⟨p1, p2, h1, h2, hb, hq2⟩ := hc
    have le1 := code_at_le _ _ _ _ _ h1
    have le2 := code_at_le _ _ _ _ _ h2
    obtain ⟨kl, hl⟩ := ihl p p1 h1 (by omega)
    obtain ⟨kr, hr⟩ := ihr p1 p2 h2 (by omega)
    refine ⟨4 + kr + kl, ?_⟩
    intro stop n d r hs h
    subst hq2
    have t := depth_arith_tail mem stop n p2 0x29 d r (Or.inr rfl) hb (by omega) h
    have t2 := hr stop (n + 4) (d + 1) r (by omega) (by rw [show d + 1 + 1 = d + 2 by omega]; exact t)
    have t3 := hl stop (n + 4 + kr) d r (by omega) t2
    rw [show n + (4 + kr + kl) = n + 4 + kr + kl by omega]
    exact t3
  | EXPR_LESSER l r ihl ihr =>
    intro p q hc hq
    obtain ⟨p1, p2, h1, h2, hb, hq2⟩ := hc
    have le1 := code_at_le _ _ _ _ _ h1
    have le2 := code_at_le _ _ _ _ _ h2
    obtain ⟨kl, hl⟩ := ihl p p1 h1 (by omega)
    obtain ⟨kr, hr⟩ := ihr p1 p2 h2 (by omega)
    refine ⟨6 + kr + kl, ?_⟩
    intro stop n d r hs h
    subst hq2
    have t := depth_lesser_tail mem stop n p2 d r hb (by omega) h
    have t2 := hr stop (n + 6) (d + 1) r (by omega) (by rw [show d + 1 + 1 = d + 2 by omega]; exact t)
    have t3 := hl stop (n + 6 + kr) d r (by omega) t2
    rw [show n + (6 + kr + kl) = n + 6 + kr + kl by omega]
    exact t3
  | EXPR_INT v =>
    intro p q hc hq
    obtain ⟨hb, hq2⟩ := hc
    refine ⟨1, ?_⟩
    intro stop n d r hs h
    subst hq2
    have h0 := hb 0 (by simp)
    simp only [List.getD_cons_zero, Nat.add_zero] at h0
    have e0 : effect mem p = .next 1 5 := by simp [effect, h0]
    exact depth_next mem stop (Nat.lt_succ_self n) p d (d + 1) r 1 5 e0 (by omega) rfl h
  | EXPR_ARG =>
    intro p q hc hq
    obtain ⟨hb, hq2⟩ := hc
    refine ⟨1, ?_⟩
    intro stop n d r hs h
    subst hq2
    have h0 := hb 0 (by simp)
    have h1 := hb 1 (by simp)
    simp only [List.getD_cons_zero, List.getD_cons_succ, Nat.add_zero] at h0 h1
    have e0 : effect mem p = .next 1 2 := by simp [effect, h0, h1]
    exact depth_next mem stop (Nat.lt_succ_self n) p d (d + 1) r 1 2 e0 (by omega) rfl h
  | EXPR_FUNCDEF g b ih => intro p q hc; exact absurd hc (by simp [code_at])
  | EXPR_FUNCCALL g a ih =>
    intro p q hc hq
    obtain ⟨f, p1, _, hb0, h1, hb, hq2⟩ := hc
    have le1 := code_at_le _ _ _ _ _ h1
    obtain ⟨ka, ha⟩ := ih (p + 2) p1 h1 (by omega)
    refine ⟨4 + ka + 1, ?_⟩
    intro stop n d r hs h
    subst hq2
    have t := depth_call_tail mem stop n p1 d r _ hb (by omega) h
    have t2 := ha stop (n + 4) (d + 1) r (by omega) (by rw [show d + 1 + 1 = d + 2 by omega]; exact t)
    have h0 := hb0 0 (by simp)
    have h1 := hb0 1 (by simp)
    simp only [List.getD_cons_zero, List.getD_cons_succ, Nat.add_zero] at h0 h1
    have e0 : effect mem p = .next 1 2 := by simp [effect, h0, h1]
    rw [show n + (4 + ka + 1) = n + 4 + ka + 1 by omega]
    exact depth_next mem stop (Nat.lt_succ_self (n + 4 + ka)) p d (d + 1) r 1 2 e0 (by omega)
      rfl t2
  | EXPR_IF c t f ihc iht ihf =>
    intro p q hc hq
    obtain ⟨p1, p2, h1, hb1, h2, hb2, h3⟩ := hc
    have le1 := code_at_le _ _ _ _ _ h1
    have le2 := code_at_le _ _ _ _ _ h2
    have le3 := code_at_le _ _ _ _ _ h3
    obtain ⟨kc, hcc⟩ := ihc p p1 h1 (by omega)
    obtain ⟨kt, htt⟩ := iht (p1 + 11) p2 h2 (by omega)
    obtain ⟨kf, hff⟩ := ihf (p2 + 5) q h3 hq
    refine ⟨1 + kt + kf + 3 + kc, ?_⟩
    intro stop n d r hs h
    have j := depth_jmp mem stop n p2 q (d + 1) r hb2 (by omega) hq (by omega) h
    have tt := htt stop (n + 1) d r (by omega) j
    have ff := hff stop n d r (by omega) h
    have tt2 := stack_depth_le mem stop (by omega : n + 1 + kt ≤ n + 1 + kt + kf) _ _ _ tt
    have ff2 := stack_depth_le mem stop (by omega : n + kf ≤ n + 1 + kt + kf) _ _ _ ff
    have hd := depth_if_head mem stop (n + 1 + kt + kf) p1 p2 d r hb1 (by omega) (by omega)
      (by omega) tt2 ff2
    have cc := hcc stop (n + 1 + kt + kf + 3) d r (by omega) hd
    rw [show n + (1 + kt + kf + 3 + kc) = n + 1 + kt + kf + 3 + kc by omega]
    exact cc
  | EXPR_NOTHING => intro p q hc; exact absurd hc (by simp [code_at])

/-- The abstract effect against the processor: what `step` does at an
instruction agrees with its `effect`. -/
theorem effect_sound (mem : Nat → Nat) (m m1 : Machine) (p : Nat) (hpc : m.pc = (p : Int))
    (hs : step mem m = some m1) :
    match effect mem p with
    | .next delta len =>
      mem p = 0xe8 ∨
        (m1.pc = (p : Int) + len ∧ (m1.stack.length : Int) = (m.stack.length : Int) + delta)
    | .jump t => m1.pc = t ∧ m1.stack = m.stack
    | .branch t => (m1.pc = (p : Int) + 6 ∨ m1.pc = t) ∧ m1.stack = m.stack
    | .leave => m1.stack.length + 1 = m.stack.length
    | .unknown => False := by
  simp only [step, fetch, hpc, Int.toNat_ofNat, Nat.add_zero] at hs
  simp only [effect]
  by_cases hb : (p : Int) < 0 ∨ (ARENA_SIZE : Int) ≤ (p : Int)
  · rw [if_pos hb] at hs; cases hs
  rw [if_neg hb] at hs
  by_cases h0 : mem p = 0x50
  · rw [if_pos h0] at hs
    rw [if_pos h0]
    simp only [Option.some.injEq] at hs
    subst hs
    simp [alu_add, alu_cmp]
  rw [if_neg h0] at hs ⊢
  by_cases h1 : mem p = 0x58
  · rw [if_pos h1] at hs
    rw [if_pos h1]
    cases hstk : m.stack with
    | nil => rw [hstk] at hs; cases hs
    | cons v s =>
      rw [hstk] at hs
      simp only [Option.some.injEq] at hs
      subst hs
      simp
  rw [if_neg h1] at hs ⊢
  by_cases h2 : mem p = 0x59
  · rw [if_pos h2] at hs
    rw [if_pos h2]
    cases hstk : m.stack with
    | nil => rw [hstk] at hs; cases hs
    | cons v s =>
      rw [hstk] at hs
      simp only [Option.some.injEq] at hs
      subst hs
      simp
  rw [if_neg h2] at hs ⊢
  by_cases h3 : mem p = 0x68
  · rw [if_pos h3] at hs
    rw [if_pos h3]
    simp only [Option.some.injEq] at hs
    subst hs
    simp [alu_add, alu_cmp]
  rw [if_neg h3] at hs ⊢
  by_cases h4 : mem p = 0xc3
  · rw [if_pos h4] at hs
    rw [if_pos h4]
    cases hstk : m.stack with
    | nil => rw [hstk] at hs; cases hs
    | cons v s =>
      rw [hstk] at hs
      simp only [Option.some.injEq] at hs
      subst hs
      simp
  rw [if_neg h4] at hs ⊢
  by_cases h5 : mem p = 0xe8
  · rw [if_pos h5] at hs
    rw [if_pos h5]
    exact Or.inl h5
  rw [if_neg h5] at hs ⊢
  by_cases h6 : mem p = 0xe9
  · rw [if_pos h6] at hs
    rw [if_pos h6]
    simp only [Option.some.injEq] at hs
    subst hs
    simp [alu_add, alu_cmp]
  rw [if_neg h6] at hs ⊢
  by_cases h7 : mem p = 0x41 ∧ mem (p + 1) = 0x50
  · rw [if_pos h7] at hs
    rw [if_pos h7]
    simp only [Option.some.injEq] at hs
    subst hs
    simp [alu_add, alu_cmp]
  rw [if_neg h7] at hs ⊢
  by_cases h8 : mem p = 0x41 ∧ mem (p + 1) = 0x58
  · rw [if_pos h8] at hs
    rw [if_pos h8]
    cases hstk : m.stack with
    | nil => rw [hstk] at hs; cases hs
    | cons v s =>
      rw [hstk] at hs
      simp only [Option.some.injEq] at hs
      subst hs
      simp
  rw [if_neg h8] at hs ⊢
  by_cases h9 : mem p = 0x48 ∧ mem (p + 1) = 0x01 ∧ mem (p + 2) = 0xc8
  · rw [if_pos h9] at hs
    rw [if_pos h9]
    simp only [Option.some.injEq] at hs
    subst hs
    simp [alu_add, alu_cmp]
  rw [if_neg h9] at hs ⊢
  by_cases h10 : mem p = 0x48 ∧ mem (p + 1) = 0x29 ∧ mem (p + 2) = 0xc8
  · rw [if_pos h10] at hs
    rw [if_pos h10]
    simp only [Option.some.injEq] at hs
    subst hs
    simp [alu_add, alu_cmp]
  rw [if_neg h10] at hs ⊢
  by_cases h11 : mem p = 0x48 ∧ mem (p + 1) = 0x39 ∧ mem (p + 2) = 0xc8
  · rw [if_pos h11] at hs
    rw [if_pos h11]
    simp only [Option.some.injEq] at hs
    subst hs
    simp [alu_add, alu_cmp]
  rw [if_neg h11] at hs ⊢
  by_cases h12 : mem p = 0x48 ∧ mem (p + 1) = 0x83 ∧ mem (p + 2) = 0xf8
  · rw [if_pos h12] at hs
    rw [if_pos h12]
    simp only [Option.some.injEq] at hs
    subst hs
    simp [alu_add, alu_cmp]
  rw [if_neg h12] at hs ⊢
  by_cases h13 : mem p = 0x48 ∧ mem (p + 1) = 0x0f ∧ mem (p + 2) = 0xb6 ∧ mem (p + 3) = 0xc0
  · rw [if_pos h13] at hs
    rw [if_pos h13]
    simp only [Option.some.injEq] at hs
    subst hs
    simp [alu_add, alu_cmp]
  rw [if_neg h13] at hs ⊢
  by_cases h14 : mem p = 0x0f ∧ mem (p + 1) = 0x9c ∧ mem (p + 2) = 0xc0
  · rw [if_pos h14] at hs
    rw [if_pos h14]
    simp only [Option.some.injEq] at hs
    subst hs
    simp [alu_add, alu_cmp]
  rw [if_neg h14] at hs ⊢
  by_cases h15 : mem p = 0x0f ∧ mem (p + 1) = 0x84
  · rw [if_pos h15] at hs
    rw [if_pos h15]
    simp only [Option.some.injEq] at hs
    subst hs
    simp only [and_true]
    cases m.zf <;> simp
  rw [if_neg h15] at hs ⊢
  cases hs
/-- C14, as the code has it. For every expression `e` without `FuncDef` on which
`jit_codegen` succeeds inside the arena, symbolic execution of the emitted
bytes on the abstract operand stack, from their first byte, arrives at their
end on every path with net depth +1, within a bounded number of instructions.
For the code emitted for `FuncDef(name, body)` with such a body, the last two
bytes are `58` (`pop rax`) and `c3` (`ret`): every path arrives at the `pop`
with net depth +1 and at the `ret`, the last byte emitted, with net depth 0.
The abstract effects are those of the processor: whenever `step` executes the
instruction at `p`, a `next delta len` instruction other than a call continues
at `p + len` with `delta` more words on the stack, `jmp` and `je` continue at
their targets (or, for `je`, behind it) with the stack unchanged, and `ret`
takes one word. -/
theorem stack_balance :
    (∀ (e : Expr) (st s1 : State), no_funcdef e = true → jit_codegen st e = .ok s1 →
      s1.jit_pos ≤ ARENA_SIZE →
      ∃ N, ∀ (n : Nat) (d : Int), N ≤ n →
        stack_depth s1.jit_mem s1.jit_pos n st.jit_pos d = some (d + 1)) ∧
    (∀ (g : String) (b : Expr) (st s1 : State), no_funcdef b = true →
      jit_codegen st (EXPR_FUNCDEF g b) = .ok s1 → s1.jit_pos ≤ ARENA_SIZE →
      ∃ sb, jit_codegen { st with funcs := st.funcs ++ [⟨g, b, st.jit_pos⟩] } b = .ok sb ∧
        s1.jit_pos = sb.jit_pos + 2 ∧
        s1.jit_mem sb.jit_pos = 0x58 ∧ s1.jit_mem (sb.jit_pos + 1) = 0xc3 ∧
        effect s1.jit_mem sb.jit_pos = .next (-1) 1 ∧
        effect s1.jit_mem (sb.jit_pos + 1) = .leave ∧
        ∃ N, ∀ (n : Nat) (d : Int), N ≤ n →
          stack_depth s1.jit_mem sb.jit_pos n st.jit_pos d = some (d + 1) ∧
          stack_depth s1.jit_mem (sb.jit_pos + 1) n st.jit_pos d = some d) ∧
    (∀ (mem : Nat → Nat) (m m1 : Machine) (p : Nat), m.pc = (p : Int) →
      step mem m = some m1 →
      match effect mem p with
      | .next delta len =>
        mem p = 0xe8 ∨
          (m1.pc = (p : Int) + len ∧ (m1.stack.length : Int) = (m.stack.length : Int) + delta)
      | .jump t => m1.pc = t ∧ m1.stack = m.stack
      | .branch t => (m1.pc = (p : Int) + 6 ∨ m1.pc = t) ∧ m1.stack = m.stack
      | .leave => m1.stack.length + 1 = m.stack.length
      | .unknown => False) := by
  refine ⟨?_, ?_, fun mem m m1 p hpc hs => effect_sound mem m m1 p hpc hs⟩
  · intro e st s1 he h harena
    obtain ⟨_, _, hc⟩ := jit_codegen_code_at e st s1 he h
    obtain ⟨k, hk⟩ := code_at_balance _ _ e _ _ hc harena
    refine ⟨1 + k, ?_⟩
    intro n d hn
    apply stack_depth_le _ _ hn
    exact hk s1.jit_pos 1 d (d + 1) (Or.inr (Nat.le_refl _)) (by simp [stack_depth])
  · intro g b st s1 hb h harena
    simp only [jit_codegen] at h
    split at h
    · simp at h
    · rename_i sb hsb
      simp only [Except.ok.injEq] at h
      subst h
      obtain ⟨_, hp, hc⟩ := jit_codegen_code_at b _ sb hb hsb
      simp only [] at hp hc
      have hpos : (jit_write (jit_write sb [0x58]) [0xc3]).jit_pos = sb.jit_pos + 2 := by simp
      rw [hpos] at harena
      have h58 : (jit_write (jit_write sb [0x58]) [0xc3]).jit_mem sb.jit_pos = 0x58 := by
        rw [jit_write_mem_lt _ _ _ (by simp)]
        exact jit_write_mem_at sb [0x58] 0 (by simp)
      have hc3 : (jit_write (jit_write sb [0x58]) [0xc3]).jit_mem (sb.jit_pos + 1) = 0xc3 := by
        have := jit_write_mem_at (jit_write sb [0x58]) [0xc3] 0 (by simp)
        simpa using this
      have e58 : effect (jit_write (jit_write sb [0x58]) [0xc3]).jit_mem sb.jit_pos
          = .next (-1) 1 := by simp [effect, h58]
      have ec3 : effect (jit_write (jit_write sb [0x58]) [0xc3]).jit_mem (sb.jit_pos + 1)
          = .leave := by simp [effect, hc3]
      have hc2 : code_at (jit_write (jit_write sb [0x58]) [0xc3]).jit_mem
          (st.funcs ++ [⟨g, b, st.jit_pos⟩]) b st.jit_pos sb.jit_pos := by
        refine code_at_congr _ _ _ _ _ _ (fun i _ hi2 => ?_) hc
        rw [jit_write_mem_lt _ _ _ (by simp; omega), jit_write_mem_lt _ _ _ hi2]
      obtain ⟨k, hk⟩ := code_at_balance _ _ b _ _ hc2 (by omega)
      refine ⟨sb, hsb, hpos, h58, hc3, e58, ec3, 2 + k, ?_⟩
      intro n d hn
      constructor
      · apply stack_depth_le _ _ (by omega : 1 + k ≤ n)
        exact hk sb.jit_pos 1 d (d + 1) (Or.inr (Nat.le_refl _)) (by simp [stack_depth])
      · apply stack_depth_le _ _ hn
        refine hk (sb.jit_pos + 1) 2 d d (Or.inr (Nat.le_succ _)) ?_
        exact depth_next _ _ (Nat.lt_succ_self 1) sb.jit_pos (d + 1) d d (-1) 1 e58 (by omega)
          (by omega) (by simp [stack_depth])

set_option maxRecDepth 100000 in
/-- Witness for C14: the code of `if . < 2; 1; . - 1` emitted on the initial
state. -/
theorem stack_balance_witness :
    ∃ s1, jit_codegen State.init (EXPR_IF (EXPR_LESSER EXPR_ARG (EXPR_INT 2)) (EXPR_INT 1)
        (EXPR_SUB EXPR_ARG (EXPR_INT 1))) = .ok s1 ∧ s1.jit_pos ≤ ARENA_SIZE ∧
      ∃ N, ∀ (n : Nat) (d : Int), N ≤ n →
        stack_depth s1.jit_mem s1.jit_pos n State.init.jit_pos d = some (d + 1) :=
  ⟨_, rfl, by decide, stack_balance.1 (EXPR_IF (EXPR_LESSER EXPR_ARG (EXPR_INT 2)) (EXPR_INT 1)
    (EXPR_SUB EXPR_ARG (EXPR_INT 1))) State.init _ (by decide) rfl (by decide)⟩
theorem depth_none_next (mem : Nat → Nat) (stop pc : Nat) (d delta : Int) (len : Nat)
    (he : effect mem pc = .next delta len) (hs : pc ≠ stop)
    (h : ∀ n, stack_depth mem stop n (pc + len) (d + delta) = none) :
    ∀ n, stack_depth mem stop n pc d = none := by
  intro n
  cases n with
  | zero => rfl
  | succ n => rw [stack_depth, if_neg hs, he]; exact h n

theorem depth_none_leave (mem : Nat → Nat) (stop pc : Nat) (d : Int)
    (he : effect mem pc = .leave) (hs : pc ≠ stop) :
    ∀ n, stack_depth mem stop n pc d = none := by
  intro n
  cases n with
  | zero => rfl
  | succ n => rw [stack_depth, if_neg hs, he]

set_option maxRecDepth 100000 in
/-- Counterexample to C14 as stated: the line `h = 1 + (2 + (g = 3))` parses to
a definition whose body is `Add(Int 1, Add(Int 2, FuncDef(g, Int 3)))`, and
`jit_codegen` succeeds on that body, emitting 29 bytes, but no path of the
symbolic execution arrives at their end. The code of the nested definition is
emitted in line, so the path from offset 0 runs `push 1`, `push 2`, `push 3`,
`pop rax` and meets the `ret` at offset 16 with net depth +2; on the processor
that `ret` takes the pushed 2 for the return address. -/
theorem nested_def_unbalanced_counterexample :
    parse 40 "h = 1 + (2 + (g = 3))\n".toList
      = .ok (EXPR_FUNCDEF "h"
          (EXPR_ADD (EXPR_INT 1) (EXPR_ADD (EXPR_INT 2) (EXPR_FUNCDEF "g" (EXPR_INT 3)))), []) ∧
    ∃ s1, jit_codegen State.init
        (EXPR_ADD (EXPR_INT 1) (EXPR_ADD (EXPR_INT 2) (EXPR_FUNCDEF "g" (EXPR_INT 3)))) = .ok s1 ∧
      s1.jit_pos = 29 ∧
      (∀ n, stack_depth s1.jit_mem s1.jit_pos n State.init.jit_pos 0 = none) ∧
      s1.jit_mem 16 = 0xc3 ∧ stack_depth s1.jit_mem 16 5 State.init.jit_pos 0 = some 2 ∧
      (steps s1.jit_mem 5 ⟨0, 0, 0, 0, false, false, false, [HOST_RET]⟩).map
        (fun m => (m.pc, m.stack)) = some (2, [1, HOST_RET]) := by
  refine ⟨by rfl, _, rfl, by decide, ?_, by decide, by decide, by decide⟩
  refine depth_none_next _ _ 0 0 1 5 (by decide) (by decide) ?_
  refine depth_none_next _ _ 5 _ 1 5 (by decide) (by decide) ?_
  refine depth_none_next _ _ 10 _ 1 5 (by decide) (by decide) ?_
  refine depth_none_next _ _ 15 _ (-1) 1 (by decide) (by decide) ?_
  exact depth_none_leave _ _ 16 _ (by decide) (by decide)

end JitCalc
